import Mathlib

/-!
Verification of the RustFM FM-index core

A shallow embedding, in Lean 4, of the core data structures of the RustFM
repository: the rank-enabled bitvector (src/bitvector.rs), the occurrence
table (src/bitvector.rs), the sparse suffix array (src/suffix_array.rs), the
unidirectional FM-index (src/index/fm_index.rs), the bidirectional FM-index
(src/index/bidirectional_fm_index.rs), the banded edit-distance matrix
(src/matrix.rs) and the approximate-search tree (src/tree.rs), together with
proofs and refutations of the specified properties.

Machine integers (`u64`/`usize`) are embedded as `Nat` with explicit
`% 2 ^ 64` wraparound where the Rust code relies on it.  Rust `Vec` indexing
panics out of bounds; the embedding uses total `List.getD _ 0` reads for the
in-bounds semantics, plus `...Checked` variants returning `Option` that
perform exactly the bounds checks Rust performs, so that a panic is modelled
as `none`.
-/

set_option maxHeartbeats 1000000

namespace RustFM

/-! ### Definitions -/

/-! ## Bit-level helpers -/
/-- Loop summing the low `fuel` bits of `x` (least significant first).
`popcntGo 64` is the embedding of the hardware population count used by
`bitintr::Popcnt` on a `u64` value. -/
def popcntGo : Nat → Nat → Nat
  | 0, _ => 0
  | fuel + 1, x => x % 2 + popcntGo fuel (x / 2)

/-- `u64::popcnt()`: population count of a 64-bit word. -/
def popcnt64 (x : Nat) : Nat := popcntGo 64 x

/-- Number of set bits of `x` among bit positions `[0, k)`. -/
def oneBits (x k : Nat) : Nat := (List.range k).countP (fun i => x.testBit i)

/-! ## Bitvec (src/bitvector.rs)

`struct Bitvec { n: usize, bitvector: Vec<u64>, counts: Vec<usize> }`. -/
structure Bitvec where
  n : Nat
  words : List Nat
  counts : List Nat
  deriving Repr, DecidableEq

namespace Bitvec

/-- `Bitvec::new(n)`: `bitvector = vec![0; (n + 63) / 64]`,
`counts = vec![0; (n + 7) / 4]`. -/
def new (n : Nat) : Bitvec :=
  { n := n
    words := List.replicate ((n + 63) / 64) 0
    counts := List.replicate ((n + 7) / 4) 0 }

/-- `Bitvec::get(pos)`: `(self.bitvector[pos / 64] & (1 << (pos % 64))) != 0`. -/
def get (bv : Bitvec) (pos : Nat) : Bool :=
  (bv.words.getD (pos / 64) 0).testBit (pos % 64)

/-- `Bitvec::set(pos, value)`: or in `1 << b`, or and with `!(1 << b)`
(`u64` complement embedded as xor with `2 ^ 64 - 1`). -/
def set (bv : Bitvec) (pos : Nat) (value : Bool) : Bitvec :=
  { bv with
    words := bv.words.set (pos / 64)
      (if value then bv.words.getD (pos / 64) 0 ||| (1 <<< (pos % 64))
       else bv.words.getD (pos / 64) 0 &&& ((1 <<< (pos % 64)) ^^^ (2 ^ 64 - 1))) }

/-- The loop body of `Bitvec::calculate_counts`, iterating over the words with
running level-1 count `l1`, level-2 count `l2`, interleave cursor `q` and word
index `w`. -/
def calcCountsGo : List Nat → Nat → Nat → Nat → Nat → List Nat → List Nat
  | [], _, _, _, _, counts => counts
  | word :: ws, w, l1, l2, q, counts =>
    if w % 8 = 0 then
      calcCountsGo ws (w + 1) (l1 + l2) (popcnt64 word) (q + 2) (counts.set q (l1 + l2))
    else
      calcCountsGo ws (w + 1) l1 (l2 + popcnt64 word) q
        (counts.set (q - 1) (counts.getD (q - 1) 0 ||| (l2 <<< ((w % 8 - 1) * 9))))

/-- `Bitvec::calculate_counts()`. -/
def calculateCounts (bv : Bitvec) : Bitvec :=
  { bv with counts := calcCountsGo bv.words 0 0 0 0 bv.counts }

/-- `Bitvec::level1_counts(w)`: `counts[(w / 8) * 2]`. -/
def level1Counts (bv : Bitvec) (w : Nat) : Nat :=
  bv.counts.getD ((w / 8) * 2) 0

/-- `Bitvec::level2_counts(w)`: `counts[q + 1] >> (t + (t >> 60 & 8)) * 9 & 0x1FF`
with `t = (w % 8) - 1 : i64`.  For `w % 8 = 0` the arithmetic-shift trick gives
`t = -1`, `t >> 60 & 8 = 8`, hence shift amount `63`; otherwise it gives
`(w % 8 - 1) * 9`. -/
def level2Counts (bv : Bitvec) (w : Nat) : Nat :=
  (bv.counts.getD ((w / 8) * 2 + 1) 0 >>> (if w % 8 = 0 then 63 else (w % 8 - 1) * 9)) &&& 511

/-- `Bitvec::level3_counts(w, b)`: `((self.bitvector[w] << 1) << (63 - b)).popcnt()`
in wrapping `u64` arithmetic. -/
def level3Counts (bv : Bitvec) (w b : Nat) : Nat :=
  popcnt64 ((((bv.words.getD w 0 <<< 1) % 2 ^ 64) <<< (63 - b)) % 2 ^ 64)

/-- `Bitvec::rank(pos)`. -/
def rank (bv : Bitvec) (pos : Nat) : Nat :=
  bv.level1Counts (pos / 64) + bv.level2Counts (pos / 64)
    + bv.level3Counts (pos / 64) (pos % 64)

/-- `Bitvec::rank(pos)` with the bounds checks Rust performs on each `Vec`
index (`counts[(w / 8) * 2]`, `counts[(w / 8) * 2 + 1]`, `bitvector[w]`);
an out-of-bounds index panics, modelled as `none`. -/
def rankChecked (bv : Bitvec) (pos : Nat) : Option Nat :=
  if (pos / 64 / 8) * 2 < bv.counts.length ∧ (pos / 64 / 8) * 2 + 1 < bv.counts.length
      ∧ pos / 64 < bv.words.length then
    some (bv.rank pos)
  else
    none

/-- `Bitvec::len()`. -/
def len (bv : Bitvec) : Nat := bv.n

/-- Specification side: the number of set bits at positions `[0, p)`. -/
def onesBelow (bv : Bitvec) (p : Nat) : Nat :=
  (List.range p).countP (fun i => bv.get i)

/-- Total population count of a word list. -/
def wordsOnes (ws : List Nat) : Nat := (ws.map popcnt64).sum

/-- The packed level-2 counter word for one super-block `chunk` (at most 8
words): partial popcount sums in 9-bit slices. -/
def packedL2 (chunk : List Nat) : Nat :=
  ∑ r ∈ Finset.range (chunk.length - 1), wordsOnes (chunk.take (r + 1)) * 2 ^ (9 * r)

/-- A build history: `new n` followed by a sequence of `set` calls. -/
def applySets (bv : Bitvec) (ops : List (Nat × Bool)) : Bitvec :=
  ops.foldl (fun acc op => acc.set op.1 op.2) bv
end Bitvec

/-! ## OccurenceTable (src/bitvector.rs)

`OccurenceTable::from_bwt` builds, for every symbol index `c`, the cumulative
bitvector with bit `i` set iff `i` is not the sentinel slot and
`index(B[i]) <= c`; `occ` and `cumulative_occ` answer rank differences over
them. -/
structure OccurenceTable where
  table : List Bitvec
  sentinel : Nat

namespace OccurenceTable

/-- One `enumerate` step of the `from_bwt` fill loop, acting on the whole
table: for `j in char_i .. alphabet_length`, `table[j].set(i, true)`. -/
def fillGo : List Nat → Nat → Nat → List Bitvec → List Bitvec
  | [], _, _, table => table
  | c :: rest, i, sentinel, table =>
      fillGo rest (i + 1) sentinel
        (if i = sentinel then table
         else table.mapIdx (fun j bv => if c ≤ j then bv.set i true else bv))

/-- The same fill loop restricted to the single column `c` of the table. -/
def fillOne : List Nat → Nat → Nat → Nat → Bitvec → Bitvec
  | [], _, _, _, bv => bv
  | ch :: rest, i, sentinel, c, bv =>
      fillOne rest (i + 1) sentinel c
        (if i = sentinel then bv else if ch ≤ c then bv.set i true else bv)

/-- `OccurenceTable::from_bwt(bwt, sentinel)`. -/
def fromBwt (alphabetLength : Nat) (bwt : List Nat) (sentinel : Nat) : OccurenceTable :=
  { table := (fillGo bwt 0 sentinel
        (List.replicate alphabetLength (Bitvec.new bwt.length))).map Bitvec.calculateCounts
    sentinel := sentinel }

/-- `OccurenceTable::occ(char_i, i)`. -/
def occ (ot : OccurenceTable) (charI i : Nat) : Nat :=
  if charI = 0 then (ot.table.getD charI (Bitvec.new 0)).rank i
  else (ot.table.getD charI (Bitvec.new 0)).rank i
    - (ot.table.getD (charI - 1) (Bitvec.new 0)).rank i

/-- `OccurenceTable::cumulative_occ(char_i, i)`. -/
def cumulativeOcc (ot : OccurenceTable) (charI i : Nat) : Nat :=
  if charI = 0 then (if ot.sentinel < i then 1 else 0)
  else (ot.table.getD (charI - 1) (Bitvec.new 0)).rank i + (if ot.sentinel < i then 1 else 0)
end OccurenceTable

/-! ## Suffix order

The repository obtains its suffix array from an external builder
(`SuffixArray::new`, re-exported through src/suffix_array.rs but not under
src/).  It is modelled from the spec: the permutation of `[0, n]` that sorts
the suffixes of `T$` lexicographically, the sentinel being strictly smaller
than every symbol.  Symbols are shifted up by one so that the sentinel can be
represented by `0`. -/
/-- The text with each symbol index shifted up by one, making room for the
sentinel `0`. -/
def mapped (text : List Nat) : List Nat := text.map (fun x => x + 1)

/-- The suffix of `T$` starting at position `q ≤ n`, over the shifted
alphabet. -/
def suffix (text : List Nat) (q : Nat) : List Nat := (mapped text).drop q ++ [0]

/-- Strict lexicographic order on symbol lists, a shorter list preceding its
extensions. -/
def lexLt : List Nat → List Nat → Bool
  | [], [] => false
  | [], _ :: _ => true
  | _ :: _, [] => false
  | a :: as, b :: bs => if a < b then true else if b < a then false else lexLt as bs

/-! ## The modelled suffix array

Insertion sort of the positions `[0, n]` by suffix order. -/
/-- Insert a position into a list sorted by suffix order. -/
def saInsert (text : List Nat) (p : Nat) : List Nat → List Nat
  | [] => [p]
  | q :: rest =>
      if lexLt (suffix text p) (suffix text q) then p :: q :: rest
      else q :: saInsert text p rest

/-- Sort positions by suffix order. -/
def saSort (text : List Nat) : List Nat → List Nat
  | [] => []
  | p :: rest => saInsert text p (saSort text rest)

/-- Modelled from the spec: `SuffixArray::new` (the external suffix-array
builder whose output src/index/fm_index.rs consumes; its code is not under
src/): the permutation of `[0, n]` sorting the suffixes of `T$`
lexicographically, with the sentinel smaller than every symbol. -/
def suffixArray (text : List Nat) : List Nat :=
  saSort text (List.range (text.length + 1))

/-- The weak suffix order used for sortedness statements. -/
def suffixLe (text : List Nat) (a b : Nat) : Prop :=
  lexLt (suffix text b) (suffix text a) = false

/-- The strict suffix order. -/
def suffixLt (text : List Nat) (a b : Nat) : Prop :=
  lexLt (suffix text a) (suffix text b) = true

/-- The start of the suffix-array interval of a pattern: the number of
suffixes lexicographically below it. -/
def occLo (text pat : List Nat) : Nat :=
  (List.range (text.length + 1)).countP (fun q => lexLt (suffix text q) pat)

/-- The suffix-array row of position `p`: the number of suffixes strictly
below the suffix at `p`. -/
def saIdx (text : List Nat) (p : Nat) : Nat := occLo text (suffix text p)

/-- The end of the suffix-array interval of a pattern, over an alphabet of
size `sigma`: below the pattern extended by a symbol above the alphabet. -/
def occHi (sigma : Nat) (text pat : List Nat) : Nat :=
  occLo text (pat ++ [sigma + 1])

/-! ## Range (src/range.rs)

`end` is a Lean keyword, so the field is called `stop`. -/
structure Range where
  start : Nat
  stop : Nat
  deriving Repr, DecidableEq

namespace Range

/-- `Range::empty`: `end <= start`. -/
def empty (r : Range) : Bool := r.stop ≤ r.start

/-- `Range::width`: zero when empty, else `end - start`. -/
def width (r : Range) : Nat := if r.empty then 0 else r.stop - r.start
end Range

/-! ## SparseSuffixArray (src/suffix_array.rs) -/
structure SparseSuffixArray where
  bitvector : Bitvec
  sparseSa : List Nat
  deriving Repr, DecidableEq

namespace SparseSuffixArray

/-- The `from_sa` fill loop: push `sa[i]` and set bit `i` whenever
`sa[i] % f == 0`. -/
def fromSaGo (f : Nat) : List Nat → Nat → Bitvec → List Nat → Bitvec × List Nat
  | [], _, bv, acc => (bv, acc)
  | v :: rest, i, bv, acc =>
      if v % f = 0 then fromSaGo f rest (i + 1) (bv.set i true) (acc ++ [v])
      else fromSaGo f rest (i + 1) bv acc

/-- `SparseSuffixArray::from_sa`. -/
def fromSa (sa : List Nat) (f : Nat) : SparseSuffixArray :=
  { bitvector := (fromSaGo f sa 0 (Bitvec.new sa.length) []).1.calculateCounts
    sparseSa := (fromSaGo f sa 0 (Bitvec.new sa.length) []).2 }

/-- `SparseSuffixArray::contains`. -/
def contains (ssa : SparseSuffixArray) (pos : Nat) : Bool := ssa.bitvector.get pos

/-- The `Index` impl: `sparse_sa[bitvector.rank(pos)]`. -/
def index (ssa : SparseSuffixArray) (pos : Nat) : Nat :=
  ssa.sparseSa.getD (ssa.bitvector.rank pos) 0
end SparseSuffixArray

/-! ## FMIndex (src/index/fm_index.rs)

The index is modelled over an index-translated text (entries already mapped
through `Alphabet::c2i`, so symbol indices in `[0, alphabet_length)`), the
suffix array being the modelled `suffixArray`. -/
structure FMIndex where
  alphabetLength : Nat
  text : List Nat
  bwt : List Nat
  counts : List Nat
  sentinel : Nat
  sparseSa : SparseSuffixArray
  occurenceTable : OccurenceTable

namespace FMIndex

/-- The `bwt_from_sa` loop: `bwt[i] = text[sa[i] - 1]`, with the sentinel
row recorded where `sa[i] == 0`. -/
def bwtFromSaGo (text : List Nat) : List Nat → Nat → List Nat → Nat → List Nat × Nat
  | [], _, bwt, sentinel => (bwt, sentinel)
  | v :: rest, i, bwt, sentinel =>
      if v = 0 then bwtFromSaGo text rest (i + 1) (bwt.set i 0) i
      else bwtFromSaGo text rest (i + 1) (bwt.set i (text.getD (v - 1) 0)) sentinel

/-- `FMIndex::bwt_from_sa`, returning the written BWT (an
`AlphabetIndexString` of length `text.len() + 1` initialised to zero) and
the sentinel row. -/
def bwtFromSa (sa text : List Nat) : List Nat × Nat :=
  bwtFromSaGo text sa 0 (List.replicate (text.length + 1) 0) 0

/-- First loop of `initialize_counts`: symbol frequencies over the BWT,
skipping the sentinel row. -/
def freqGo : List Nat → Nat → Nat → List Nat → List Nat
  | [], _, _, counts => counts
  | c :: rest, i, sentinel, counts =>
      freqGo rest (i + 1) sentinel
        (if i = sentinel then counts else counts.set c (counts.getD c 0 + 1))

/-- Second loop of `initialize_counts`: the shifted cumulative sum starting
from `s1 = 1`. -/
def cumGo : Nat → Nat → Nat → List Nat → List Nat
  | 0, _, _, counts => counts
  | steps + 1, i, s1, counts =>
      cumGo steps (i + 1) (s1 + counts.getD i 0) (counts.set i s1)

/-- `FMIndex::initialize_counts` over `counts = vec![0; alphabet_length]`. -/
def initializeCounts (alphabetLength : Nat) (bwt : List Nat) (sentinel : Nat) :
    List Nat :=
  cumGo alphabetLength 0 1 (freqGo bwt 0 sentinel (List.replicate alphabetLength 0))

/-- `FMIndex::new` over an index-translated text. -/
def new (alphabetLength : Nat) (text : List Nat) (sparsenessFactor : Nat) : FMIndex :=
  { alphabetLength := alphabetLength
    text := text
    bwt := (bwtFromSa (suffixArray text) text).1
    counts := initializeCounts alphabetLength (bwtFromSa (suffixArray text) text).1
      (bwtFromSa (suffixArray text) text).2
    sentinel := (bwtFromSa (suffixArray text) text).2
    sparseSa := SparseSuffixArray.fromSa (suffixArray text) sparsenessFactor
    occurenceTable := OccurenceTable.fromBwt alphabetLength
      (bwtFromSa (suffixArray text) text).1 (bwtFromSa (suffixArray text) text).2 }

/-- `FMIndex::find_lf`. -/
def findLf (fm : FMIndex) (k : Nat) : Nat :=
  if k = fm.sentinel then 0
  else fm.counts.getD (fm.bwt.getD k 0) 0
    + fm.occurenceTable.occ (fm.bwt.getD k 0) k

/-- The `find_sa` while-loop, the fuel bounding the iterations still
allowed; `none` models non-termination within the given fuel. -/
def findSaGo (fm : FMIndex) : Nat → Nat → Nat → Option Nat
  | 0, _, _ => none
  | fuel + 1, i, j =>
      if fm.sparseSa.contains i then some (fm.sparseSa.index i + j)
      else findSaGo fm fuel (fm.findLf i) (j + 1)

/-- `FMIndex::find_sa`; `n + 1` rounds of fuel cover every terminating run
of the while-loop on a well-built index. -/
def findSa (fm : FMIndex) (k : Nat) : Option Nat :=
  findSaGo fm (fm.text.length + 1) k 0

/-- `FMIndex::add_char_left`, as the range it writes; the Boolean the
source returns is the non-emptiness of that range. -/
def addCharLeft (fm : FMIndex) (charI : Nat) (range : Range) : Range :=
  { start := fm.counts.getD charI 0 + fm.occurenceTable.occ charI range.start
    stop := fm.counts.getD charI 0 + fm.occurenceTable.occ charI range.stop }

/-- The `exact_match` narrowing loop over the reversed pattern; `none`
models the early `return result` on an empty range. -/
def exactMatchGo (fm : FMIndex) : List Nat → Range → Option Range
  | [], r => some r
  | c :: rest, r =>
      if (fm.addCharLeft c r).empty then none
      else exactMatchGo fm rest (fm.addCharLeft c r)

/-- `FMIndex::exact_match` over an index-translated pattern.  The early
exit on an empty range yields `some []`; `none` only arises from a
`find_sa` call that fails to terminate within its fuel. -/
def exactMatch (fm : FMIndex) (pattern : List Nat) : Option (List Nat) :=
  match exactMatchGo fm pattern.reverse { start := 0, stop := fm.text.length + 1 } with
  | none => some []
  | some r => (List.range' r.start (r.stop - r.start)).mapM (fun i => fm.findSa i)
end FMIndex

/-! ## BandedMatrix (src/matrix.rs) -/
structure BandedMatrix where
  n : Nat
  m : Nat
  b : Nat
  columnsPerRow : Nat
  matrix : List Nat
  deriving Repr, DecidableEq

namespace BandedMatrix

/-- The flat index `i * columns_per_row + j - i + b` (grouping as Rust
evaluates it, left to right). -/
def flatIdx (columnsPerRow b i j : Nat) : Nat :=
  i * columnsPerRow + j - i + b

/-- The first loop of `initialize_matrix`: top row and left column. -/
def initLoop1 (cpr b : Nat) (matrix : List Nat) : List Nat :=
  (List.range (b + 1)).foldl
    (fun mx i => (mx.set (flatIdx cpr b 0 i) i).set (flatIdx cpr b i 0) i) matrix

/-- The second loop: sentinel `b + 1` to the right of the first `b` rows. -/
def initLoop2 (cpr b : Nat) (matrix : List Nat) : List Nat :=
  (List.range b).foldl
    (fun mx t => mx.set (flatIdx cpr b (1 + t) (1 + t + b + 1)) (b + 1)) matrix

/-- The third loop: sentinels on both sides for the middle rows,
`for i in b + 1 .. m - b - 1`. -/
def initLoop3 (cpr m b : Nat) (matrix : List Nat) : List Nat :=
  (List.range (m - b - 1 - (b + 1))).foldl
    (fun mx t =>
      (mx.set (flatIdx cpr b (b + 1 + t) (b + 1 + t + b + 1)) (b + 1)).set
        (flatIdx cpr b (b + 1 + t) (b + 1 + t - b - 1)) (b + 1)) matrix

/-- The fourth loop: sentinel to the left of the last rows, from
`max(m - b - 1, b + 1)` up to `n`. -/
def initLoop4 (cpr n m b : Nat) (matrix : List Nat) : List Nat :=
  (List.range (n - max (m - b - 1) (b + 1))).foldl
    (fun mx t =>
      mx.set (flatIdx cpr b (max (m - b - 1) (b + 1) + t)
        (max (m - b - 1) (b + 1) + t - b - 1)) (b + 1)) matrix

/-- `BandedMatrix::initialize_matrix`. -/
def initializeMatrix (cpr n m b : Nat) (matrix : List Nat) : List Nat :=
  initLoop4 cpr n m b (initLoop3 cpr m b (initLoop2 cpr b (initLoop1 cpr b matrix)))

/-- `BandedMatrix::new(pattern_size, b)`. -/
def new (patternSize b : Nat) : BandedMatrix :=
  { n := patternSize + b + 1
    m := patternSize + 1
    b := b
    columnsPerRow := 2 * b + 1 + 2
    matrix := initializeMatrix (2 * b + 1 + 2) (patternSize + b + 1) (patternSize + 1) b
      (List.replicate ((patternSize + b + 1) * (2 * b + 1 + 2)) 0) }

/-- `BandedMatrix::new` with the `usize` underflow check Rust performs when
evaluating the loop bound `m - b - 1` of `initialize_matrix` (debug-mode
arithmetic; in release mode the wrapped bound later drives the row index
past `n` rows and the write panics instead). -/
def newChecked (patternSize b : Nat) : Option BandedMatrix :=
  if patternSize + 1 < b + 1 then none
  else some (new patternSize b)

/-- Reading `self[[i, j]]`. -/
def get (bm : BandedMatrix) (i j : Nat) : Nat :=
  bm.matrix.getD (flatIdx bm.columnsPerRow bm.b i j) 0

/-- Writing `self[[i, j]] = v`. -/
def setCell (bm : BandedMatrix) (i j v : Nat) : BandedMatrix :=
  { bm with matrix := bm.matrix.set (flatIdx bm.columnsPerRow bm.b i j) v }

/-- `BandedMatrix::first_column`: `max(1, row - b)` over `i64`. -/
def firstColumn (bm : BandedMatrix) (row : Nat) : Nat :=
  max 1 (row - bm.b)

/-- `BandedMatrix::last_column`: `min(m - 1, b + row)`. -/
def lastColumn (bm : BandedMatrix) (row : Nat) : Nat :=
  min (bm.m - 1) (bm.b + row)

/-- `BandedMatrix::update_cell`, returning the written matrix and the new
cell value. -/
def updateCell (bm : BandedMatrix) (mismatch : Bool) (row column : Nat) :
    BandedMatrix × Nat :=
  (bm.setCell row column
      (min (min (bm.get (row - 1) (column - 1) + (if mismatch then 1 else 0))
          (bm.get row (column - 1) + 1))
        (bm.get (row - 1) column + 1)),
    min (min (bm.get (row - 1) (column - 1) + (if mismatch then 1 else 0))
        (bm.get row (column - 1) + 1))
      (bm.get (row - 1) column + 1))

/-- The loop of `BandedMatrix::update_row` over the listed columns,
carrying the matrix and the running minimum. -/
def updateRowGo (pattern : List Nat) (row c : Nat) :
    List Nat → BandedMatrix × Nat → BandedMatrix × Nat
  | [], acc => acc
  | i :: rest, acc =>
      updateRowGo pattern row c rest
        ((acc.1.updateCell (decide (c ≠ pattern.getD (i - 1) 0)) row i).1,
          if (acc.1.updateCell (decide (c ≠ pattern.getD (i - 1) 0)) row i).2 < acc.2
          then (acc.1.updateCell (decide (c ≠ pattern.getD (i - 1) 0)) row i).2
          else acc.2)

/-- `BandedMatrix::update_row`: iterate over
`first_column(row) ..= last_column(row)`, the running minimum starting at
`usize::MAX`. -/
def updateRow (bm : BandedMatrix) (pattern : List Nat) (row c : Nat) :
    BandedMatrix × Nat :=
  updateRowGo pattern row c
    (List.range' (bm.firstColumn row) (bm.lastColumn row + 1 - bm.firstColumn row))
    (bm, 2 ^ 64 - 1)

/-- Specification side: the value the banded DP recurrence assigns to cell
`(row, j)` of the update, reading the previous row from the matrix as it
was before the update and chaining within the row; columns before `fc`
keep their old value. -/
def specRow (bm : BandedMatrix) (pattern : List Nat) (row c fc : Nat) : Nat → Nat
  | 0 => bm.get row 0
  | j + 1 =>
      if j + 1 < fc then bm.get row (j + 1)
      else
        min (min (bm.get (row - 1) j + (if c ≠ pattern.getD j 0 then 1 else 0))
            (specRow bm pattern row c fc j + 1))
          (bm.get (row - 1) (j + 1) + 1)

/-- Specification side: the running minimum of the recurrence values over
the listed columns. -/
def specRowMinGo (bm : BandedMatrix) (pattern : List Nat) (row c fc : Nat) :
    List Nat → Nat → Nat
  | [], acc => acc
  | j :: rest, acc =>
      specRowMinGo bm pattern row c fc rest
        (if specRow bm pattern row c fc j < acc
         then specRow bm pattern row c fc j else acc)

/-- `BandedMatrix::in_final_column`. -/
def inFinalColumn (bm : BandedMatrix) (row : Nat) : Bool :=
  bm.lastColumn row = bm.m - 1

/-- `BandedMatrix::final_column`. -/
def finalColumn (bm : BandedMatrix) (row : Nat) : Nat :=
  bm.get row (bm.m - 1)
end BandedMatrix

/-! ## BidirectionalFMIndex (src/index/bidirectional_fm_index.rs)

The construction mirrors `BidirectionalFMIndex::new` over the
index-translated text; the two suffix arrays are the modelled
`suffixArray` of the text and of its reverse. -/
structure RangePair where
  normalRange : Range
  reversedRange : Range
  deriving Repr, DecidableEq

namespace RangePair

/-- `RangePair::width`. -/
def width (rp : RangePair) : Nat := rp.normalRange.width

/-- `RangePair::empty`. -/
def empty (rp : RangePair) : Bool := rp.normalRange.empty
end RangePair

structure BidirectionalFMIndex where
  alphabetLength : Nat
  text : List Nat
  bwt : List Nat
  counts : List Nat
  sparseSa : SparseSuffixArray
  normalOccurenceTable : OccurenceTable
  reversedOccurenceTable : OccurenceTable

namespace BidirectionalFMIndex

/-- The `backward_bwt_from_sa` loop: like the forward one but reading
`text[text.len() - sa[i]]`. -/
def backwardBwtFromSaGo (text : List Nat) :
    List Nat → Nat → List Nat → Nat → List Nat × Nat
  | [], _, bwt, sentinel => (bwt, sentinel)
  | v :: rest, i, bwt, sentinel =>
      if v = 0 then backwardBwtFromSaGo text rest (i + 1) (bwt.set i 0) i
      else backwardBwtFromSaGo text rest (i + 1)
        (bwt.set i (text.getD (text.length - v) 0)) sentinel

/-- `BidirectionalFMIndex::backward_bwt_from_sa` over the suffix array of
the reversed text. -/
def backwardBwtFromSa (sa text : List Nat) : List Nat × Nat :=
  backwardBwtFromSaGo text sa 0 (List.replicate (text.length + 1) 0) 0

/-- `BidirectionalFMIndex::new` over an index-translated text. -/
def new (alphabetLength : Nat) (text : List Nat) (sparsenessFactor : Nat) :
    BidirectionalFMIndex :=
  { alphabetLength := alphabetLength
    text := text
    bwt := (FMIndex.bwtFromSa (suffixArray text) text).1
    counts := FMIndex.initializeCounts alphabetLength
      (FMIndex.bwtFromSa (suffixArray text) text).1
      (FMIndex.bwtFromSa (suffixArray text) text).2
    sparseSa := SparseSuffixArray.fromSa (suffixArray text) sparsenessFactor
    normalOccurenceTable := OccurenceTable.fromBwt alphabetLength
      (FMIndex.bwtFromSa (suffixArray text) text).1
      (FMIndex.bwtFromSa (suffixArray text) text).2
    reversedOccurenceTable := OccurenceTable.fromBwt alphabetLength
      (backwardBwtFromSa (suffixArray text.reverse) text).1
      (backwardBwtFromSa (suffixArray text.reverse) text).2 }

/-- `BidirectionalFMIndex::add_char_left`, as the pair it writes; the
returned Boolean is its non-emptiness. -/
def addCharLeft (bi : BidirectionalFMIndex) (charI : Nat) (rp : RangePair) :
    RangePair :=
  { normalRange :=
      { start := bi.counts.getD charI 0
          + bi.normalOccurenceTable.occ charI rp.normalRange.start
        stop := bi.counts.getD charI 0
          + bi.normalOccurenceTable.occ charI rp.normalRange.stop }
    reversedRange :=
      { start := rp.reversedRange.start
          + (bi.normalOccurenceTable.cumulativeOcc charI rp.normalRange.stop
            - bi.normalOccurenceTable.cumulativeOcc charI rp.normalRange.start)
        stop := rp.reversedRange.start
          + (bi.normalOccurenceTable.cumulativeOcc charI rp.normalRange.stop
            - bi.normalOccurenceTable.cumulativeOcc charI rp.normalRange.start)
          + Range.width
              { start := bi.counts.getD charI 0
                  + bi.normalOccurenceTable.occ charI rp.normalRange.start
                stop := bi.counts.getD charI 0
                  + bi.normalOccurenceTable.occ charI rp.normalRange.stop } } }

/-- `BidirectionalFMIndex::add_char_right`. -/
def addCharRight (bi : BidirectionalFMIndex) (charI : Nat) (rp : RangePair) :
    RangePair :=
  { normalRange :=
      { start := rp.normalRange.start
          + (bi.reversedOccurenceTable.cumulativeOcc charI rp.reversedRange.stop
            - bi.reversedOccurenceTable.cumulativeOcc charI rp.reversedRange.start)
        stop := rp.normalRange.start
          + (bi.reversedOccurenceTable.cumulativeOcc charI rp.reversedRange.stop
            - bi.reversedOccurenceTable.cumulativeOcc charI rp.reversedRange.start)
          + Range.width
              { start := bi.counts.getD charI 0
                  + bi.reversedOccurenceTable.occ charI rp.reversedRange.start
                stop := bi.counts.getD charI 0
                  + bi.reversedOccurenceTable.occ charI rp.reversedRange.stop } }
    reversedRange :=
      { start := bi.counts.getD charI 0
          + bi.reversedOccurenceTable.occ charI rp.reversedRange.start
        stop := bi.counts.getD charI 0
          + bi.reversedOccurenceTable.occ charI rp.reversedRange.stop } }

/-- A search step: `true` extends on the left, `false` on the right. -/
def applyMoves (bi : BidirectionalFMIndex) :
    List (Bool × Nat) → RangePair → RangePair
  | [], rp => rp
  | (d, c) :: rest, rp =>
      applyMoves bi rest (if d then bi.addCharLeft c rp else bi.addCharRight c rp)

/-- The accumulated string of a move sequence: left moves prepend, right
moves append. -/
def accumWord : List (Bool × Nat) → List Nat → List Nat
  | [], w => w
  | (d, c) :: rest, w => accumWord rest (if d then c :: w else w ++ [c])

/-- The synchronization invariant of a bidirectional search for word `W`:
the normal range is the suffix-array interval of `mapped W` over `text` and
the reversed range is the interval of the reversed word over the reversed
text. -/
def pairInv (sigma : Nat) (text : List Nat) (W : List Nat) (rp : RangePair) :
    Prop :=
  rp.normalRange
      = { start := occLo text (mapped W), stop := occHi sigma text (mapped W) }
    ∧ rp.reversedRange
      = { start := occLo text.reverse (mapped W).reverse
          stop := occHi sigma text.reverse (mapped W).reverse }
end BidirectionalFMIndex

/-! ## SearchTree (src/tree.rs) and approximate matching
(src/index/fm_index.rs) -/
structure Position where
  range : Range
  depth : Nat
  index : Nat
  deriving Repr, DecidableEq

namespace FMIndex

/-- `SearchTree::extend_search_space`: for each alphabet symbol whose
refinement of `range` is non-empty, push the extended position.  The stack
is modelled with its top at the head, so a push prepends; iterating the
symbols in ascending order then makes the largest pushed symbol the next
popped, exactly as with `Vec::push`/`Vec::pop`. -/
def extendSearchSpace (fm : FMIndex) (range : Range) (depth : Nat)
    (stack : List Position) : List Position :=
  (List.range fm.alphabetLength).foldl
    (fun st i =>
      if (fm.addCharLeft i range).empty then st
      else { range := fm.addCharLeft i range, depth := depth + 1, index := i } :: st)
    stack

/-- The `while let Some(item) = search_tree.next()` loop of
`approximate_match`, with fuel; `pattern` is the reversed, index-translated
pattern the Rust code prepares. -/
def approximateGo (fm : FMIndex) (pattern : List Nat) (k : Nat) :
    Nat → BandedMatrix → List Position → List Position → Option (List Position)
  | 0, _, _, _ => none
  | fuel + 1, matrix, stack, occ =>
      match stack with
      | [] => some occ
      | item :: rest =>
          approximateGo fm pattern k fuel
            (matrix.updateRow pattern item.depth item.index).1
            (if (matrix.updateRow pattern item.depth item.index).2 < k
             then fm.extendSearchSpace item.range item.depth rest
             else rest)
            (if (matrix.updateRow pattern item.depth item.index).1.inFinalColumn
                  item.depth = true
                ∧ (matrix.updateRow pattern item.depth item.index).1.finalColumn
                    item.depth ≤ k
             then occ ++ [item] else occ)

/-- `FMIndex::approximate_match` over an index-translated pattern; the
fuel is generous enough for every terminating run met in this
development, and `none` only means the fuel ran out. -/
def approximateMatch (fm : FMIndex) (pattern : List Nat) (k : Nat) :
    Option (List Position) :=
  approximateGo fm pattern.reverse k
    ((fm.alphabetLength + 1) ^ (fm.text.length + pattern.length + k + 3))
    (BandedMatrix.new pattern.length k)
    (extendSearchSpace fm { start := 0, stop := fm.text.length + 1 } 0 [])
    []
end FMIndex

namespace OccurenceTable

/-! ## Bounds-checked variants of the `exact_match` path

`Vec` indexing in the source panics when out of bounds; the `Checked`
variants return `none` exactly on those accesses. -/
/-- `OccurenceTable::occ` with the source's implicit bounds checks made
explicit: `none` models a panic on an out-of-bounds `Vec` or word access. -/
def occChecked (ot : OccurenceTable) (charI i : Nat) : Option Nat := do
  let bv ← ot.table[charI]?
  if charI = 0 then bv.rankChecked i
  else do
    let bvPrev ← ot.table[charI - 1]?
    let r1 ← bv.rankChecked i
    let r2 ← bvPrev.rankChecked i
    pure (r1 - r2)
end OccurenceTable

namespace FMIndex

/-- `FMIndex::add_char_left` with the bounds checks made explicit. -/
def addCharLeftChecked (fm : FMIndex) (charI : Nat) (range : Range) :
    Option Range := do
  let cnt ← fm.counts[charI]?
  let o1 ← fm.occurenceTable.occChecked charI range.start
  let o2 ← fm.occurenceTable.occChecked charI range.stop
  pure { start := cnt + o1, stop := cnt + o2 }

/-- The final `result.push(find_sa(i))` loop of `exact_match` over `k`
rows starting at row `i`. -/
def collectSaGo (fm : FMIndex) : Nat → Nat → Option (List Nat)
  | _, 0 => some []
  | i, k + 1 => do
      let v ← fm.findSa i
      let rest ← collectSaGo fm (i + 1) k
      pure (v :: rest)

/-- The `exact_match` narrowing loop with bounds checks made explicit;
the early return on an empty range yields `some []`. -/
def exactMatchGoChecked (fm : FMIndex) : List Nat → Range → Option (List Nat)
  | [], r => collectSaGo fm r.start (r.stop - r.start)
  | c :: rest, r => do
      let r2 ← fm.addCharLeftChecked c r
      if r2.empty then some []
      else exactMatchGoChecked fm rest r2

/-- `FMIndex::exact_match` with bounds checks made explicit. -/
def exactMatchChecked (fm : FMIndex) (pattern : List Nat) : Option (List Nat) :=
  exactMatchGoChecked fm pattern.reverse { start := 0, stop := fm.text.length + 1 }
end FMIndex

/-- The index translation of the test text AACTAGGGCAATGTTCAACG. -/
def dnaText : List Nat :=
  [0, 0, 1, 3, 0, 2, 2, 2, 1, 0, 0, 3, 2, 3, 3, 1, 0, 0, 1, 2]

/-! ### Theorems -/

theorem popcntGo_eq_oneBits (fuel x : Nat) : popcntGo fuel x = oneBits x fuel := by
  induction fuel generalizing x with
  | zero => simp [popcntGo, oneBits]
  | succ f ih =>
      have hcons : List.range (f + 1) = 0 :: List.map Nat.succ (List.range f) :=
        List.range_succ_eq_map f
      have hmap : (List.map Nat.succ (List.range f)).countP (fun i => x.testBit i)
          = (List.range f).countP (fun i => (x / 2).testBit i) := by
        rw [List.countP_map]
        refine List.countP_congr ?_
        intro i _
        simp [Function.comp, Nat.testBit_succ]
      have hbit0 : (x.testBit 0) = decide (x % 2 = 1) := by
        simp [Nat.testBit_zero]
      simp only [popcntGo, ih, oneBits, hcons, List.countP_cons, hmap]
      rcases Nat.mod_two_eq_zero_or_one x with h | h <;> simp [hbit0, h, Nat.add_comm]

theorem popcnt64_eq_oneBits (x : Nat) : popcnt64 x = oneBits x 64 :=
  popcntGo_eq_oneBits 64 x

theorem oneBits_le (x k : Nat) : oneBits x k ≤ k := by
  calc oneBits x k ≤ (List.range k).length := List.countP_le_length _
  _ = k := List.length_range k

theorem popcnt64_le (x : Nat) : popcnt64 x ≤ 64 := by
  rw [popcnt64_eq_oneBits]; exact oneBits_le x 64

/-- Splitting a bit count at position `k`. -/
theorem oneBits_add (x k j : Nat) :
    oneBits x (k + j) = oneBits x k + oneBits (x / 2 ^ k) j := by
  unfold oneBits
  rw [List.range_add, List.countP_append, List.countP_map]
  congr 1
  refine List.countP_congr ?_
  intro i _
  have : (x / 2 ^ k).testBit i = x.testBit (k + i) := by
    rw [← Nat.shiftRight_eq_div_pow, Nat.testBit_shiftRight]
  simp [Function.comp, this]

/-- Bits of `x` above `2 ^ k` vanish when `x < 2 ^ k`. -/
theorem oneBits_of_lt (x k j : Nat) (hk : k ≤ j) (hx : x < 2 ^ k) :
    oneBits x j = oneBits x k := by
  obtain ⟨d, rfl⟩ := Nat.le.dest hk
  rw [oneBits_add]
  have : x / 2 ^ k = 0 := Nat.div_eq_of_lt hx
  simp [this, oneBits, Nat.zero_testBit]

/-- Low-bit truncation does not change low-bit counts. -/
theorem oneBits_mod_two_pow (x k j : Nat) (h : j ≤ k) :
    oneBits (x % 2 ^ k) j = oneBits x j := by
  unfold oneBits
  refine List.countP_congr ?_
  intro i hi
  rw [List.mem_range] at hi
  rw [Nat.testBit_mod_two_pow]
  simp [Nat.lt_of_lt_of_le hi h]

/-- Counting the bits of a left shift skips the introduced zeros. -/
theorem oneBits_shiftLeft (x s k : Nat) (hs : s ≤ k) :
    oneBits (x <<< s) k = oneBits x (k - s) := by
  obtain ⟨d, rfl⟩ := Nat.le.dest hs
  unfold oneBits
  rw [List.range_add, List.countP_append]
  have h1 : (List.range s).countP (fun i => (x <<< s).testBit i) = 0 := by
    refine List.countP_eq_zero.2 ?_
    intro i hi
    rw [List.mem_range] at hi
    simp [Nat.testBit_shiftLeft, Nat.not_le.2 hi]
  have h2 : (List.map (fun i => s + i) (List.range d)).countP (fun i => (x <<< s).testBit i)
      = (List.range d).countP (fun i => x.testBit i) := by
    rw [List.countP_map]
    refine List.countP_congr ?_
    intro i _
    simp [Function.comp, Nat.testBit_shiftLeft]
  rw [h1, h2]
  simp

/-- Disjoint bitwise or is addition: low part below `2 ^ s`, high part shifted up. -/
theorem lor_shiftLeft_eq_add (a b s : Nat) (ha : a < 2 ^ s) :
    a ||| (b <<< s) = a + b * 2 ^ s := by
  refine Nat.eq_of_testBit_eq ?_
  intro i
  rw [Nat.testBit_lor, Nat.testBit_shiftLeft]
  by_cases hi : i < s
  · have hmod : (a + b * 2 ^ s) % 2 ^ s = a := by
      rw [Nat.add_mul_mod_self_right, Nat.mod_eq_of_lt ha]
    have hts := Nat.testBit_mod_two_pow (a + b * 2 ^ s) s i
    rw [hmod] at hts
    simp only [hi, decide_True, Bool.true_and] at hts
    simp [Nat.not_le.2 hi, hts]
  · push_neg at hi
    have hdiv : (a + b * 2 ^ s) / 2 ^ s = b := by
      rw [Nat.add_mul_div_right _ _ (Nat.pos_pow_of_pos s (by norm_num)),
        Nat.div_eq_of_lt ha, Nat.zero_add]
    obtain ⟨d, rfl⟩ := Nat.le.dest hi
    have hts := Nat.testBit_shiftRight (i := s) (j := d) (a + b * 2 ^ s)
    rw [Nat.shiftRight_eq_div_pow, hdiv] at hts
    have h2 : a.testBit (s + d) = false := by
      refine Nat.testBit_lt_two_pow ?_
      exact Nat.lt_of_lt_of_le ha (Nat.pow_le_pow_right (by norm_num) (Nat.le_add_right s d))
    have h3 : s + d - s = d := by omega
    simp [h2, h3, hts, Nat.le_add_right]

/-! ## List read/write helpers -/
theorem getD_set_self (l : List Nat) (i a : Nat) (h : i < l.length) :
    (l.set i a).getD i 0 = a := by
  simp [List.getD_eq_getElem?_getD, List.getElem?_set, h]

theorem getD_set_ne (l : List Nat) {i j : Nat} (a : Nat) (h : i ≠ j) :
    (l.set i a).getD j 0 = l.getD j 0 := by
  simp [List.getD_eq_getElem?_getD, List.getElem?_set, h]

theorem set_getD_self (l : List Nat) (i : Nat) (h : i < l.length) :
    l.set i (l.getD i 0) = l := by
  apply List.ext_getElem?
  intro j
  rw [List.getElem?_set]
  by_cases hij : i = j
  · subst hij
    simp [List.getD_eq_getElem?_getD, List.getElem?_eq_getElem h, h]
  · simp [hij]

namespace Bitvec

theorem wordsOnes_nil : wordsOnes [] = 0 := rfl

theorem wordsOnes_cons (a : Nat) (l : List Nat) :
    wordsOnes (a :: l) = popcnt64 a + wordsOnes l := by
  simp [wordsOnes]

theorem wordsOnes_append (l₁ l₂ : List Nat) :
    wordsOnes (l₁ ++ l₂) = wordsOnes l₁ + wordsOnes l₂ := by
  simp [wordsOnes]

/-! ## Characterizing `calculate_counts`

The loop is analysed in three stages: positions strictly below the cursor are
never written (`calcCountsGo_getD_low`), the interior of one super-block
accumulates the 9-bit level-2 slices (`calcCountsGo_inner`), and a whole
super-block writes one level-1 word and one packed level-2 word
(`calcCountsGo_superblock`); `calcCountsGo_getD_spec` chains the
super-blocks. -/
theorem calcCountsGo_getD_low (ws : List Nat) (w l1 l2 q : Nat) (counts : List Nat)
    (j : Nat) (hj : if w % 8 = 0 then j < q else j + 1 < q) :
    (calcCountsGo ws w l1 l2 q counts).getD j 0 = counts.getD j 0 := by
  induction ws generalizing w l1 l2 q counts with
  | nil => rfl
  | cons a tl ih =>
      by_cases hw : w % 8 = 0
      · rw [if_pos hw] at hj
        simp only [calcCountsGo, if_pos hw]
        rw [ih (w + 1) (l1 + l2) (popcnt64 a) (q + 2) _ ?_,
          getD_set_ne _ _ (by omega : q ≠ j)]
        have h1 : (w + 1) % 8 = 1 := by omega
        rw [if_neg (by omega : ¬ (w + 1) % 8 = 0)]
        omega
      · rw [if_neg hw] at hj
        simp only [calcCountsGo, if_neg hw]
        rw [ih (w + 1) l1 (l2 + popcnt64 a) q _ ?_,
          getD_set_ne _ _ (by omega : q - 1 ≠ j)]
        by_cases hw1 : (w + 1) % 8 = 0
        · rw [if_pos hw1]; omega
        · rw [if_neg hw1]; omega

theorem calcCountsGo_inner (chunk : List Nat) (rest : List Nat) (w l1 l2 q : Nat)
    (counts : List Nat)
    (hr : 0 < w % 8) (hlen : w % 8 + chunk.length ≤ 8) (hl2 : l2 ≤ 64 * (w % 8))
    (hcur : counts.getD (q - 1) 0 < 2 ^ (9 * (w % 8 - 1)))
    (hq : q - 1 < counts.length) :
    calcCountsGo (chunk ++ rest) w l1 l2 q counts
      = calcCountsGo rest (w + chunk.length) l1 (l2 + wordsOnes chunk) q
        (counts.set (q - 1) (counts.getD (q - 1) 0 +
          ∑ t ∈ Finset.range chunk.length,
            (l2 + wordsOnes (chunk.take t)) * 2 ^ (9 * (w % 8 - 1 + t)))) := by
  induction chunk generalizing w l2 counts with
  | nil =>
      simp only [List.nil_append, List.length_nil, Finset.range_zero, Finset.sum_empty,
        Nat.add_zero, wordsOnes_nil]
      rw [set_getD_self _ _ hq]
  | cons a tl ih =>
      have hw8 : w % 8 < 8 := Nat.mod_lt w (by norm_num)
      have hne : ¬ w % 8 = 0 := by omega
      simp only [List.cons_append, calcCountsGo, if_neg hne]
      have hshift : (w % 8 - 1) * 9 = 9 * (w % 8 - 1) := by ring
      have hor : counts.getD (q - 1) 0 ||| (l2 <<< ((w % 8 - 1) * 9))
          = counts.getD (q - 1) 0 + l2 * 2 ^ (9 * (w % 8 - 1)) := by
        rw [hshift, lor_shiftLeft_eq_add _ _ _ hcur]
      rw [hor]
      rcases tl with _ | ⟨b, tl2⟩
      · simp only [List.nil_append, List.length_cons, List.length_nil, Nat.zero_add,
          wordsOnes_cons, wordsOnes_nil, Nat.add_zero]
        rw [Finset.sum_range_one]
        simp [calcCountsGo, wordsOnes_nil]
      · set tl := b :: tl2 with htl
        have hlen2 : 2 ≤ (a :: tl).length := by simp [htl]
        have hmod1 : (w + 1) % 8 = w % 8 + 1 := by
          have : w % 8 + 1 < 8 := by
            have := hlen
            simp only [List.length_cons] at this
            omega
          omega
        have hr1 : 0 < (w + 1) % 8 := by omega
        have hlen1 : (w + 1) % 8 + tl.length ≤ 8 := by
          rw [hmod1]
          have := hlen
          simp only [List.length_cons] at this
          omega
        have hl21 : l2 + popcnt64 a ≤ 64 * ((w + 1) % 8) := by
          rw [hmod1]
          have := popcnt64_le a
          omega
        set v1 : Nat := counts.getD (q - 1) 0 + l2 * 2 ^ (9 * (w % 8 - 1)) with hv1
        have hq1 : q - 1 < (counts.set (q - 1) v1).length := by
          rw [List.length_set]; exact hq
        have hcur1 : (counts.set (q - 1) v1).getD (q - 1) 0 < 2 ^ (9 * ((w + 1) % 8 - 1)) := by
          rw [getD_set_self _ _ _ hq, hmod1]
          have hl2b : l2 ≤ 448 := by omega
          have hb : v1 < (1 + l2) * 2 ^ (9 * (w % 8 - 1)) := by
            have := hcur
            rw [hv1]
            nlinarith [Nat.pos_pow_of_pos (9 * (w % 8 - 1)) (show 0 < 2 by norm_num)]
          have hexp : 9 * (w % 8 + 1 - 1) = 9 * (w % 8 - 1) + 9 := by omega
          rw [hexp, Nat.pow_add]
          calc v1 < (1 + l2) * 2 ^ (9 * (w % 8 - 1)) := hb
          _ ≤ 512 * 2 ^ (9 * (w % 8 - 1)) := by
              apply Nat.mul_le_mul_right
              omega
          _ = 2 ^ (9 * (w % 8 - 1)) * 2 ^ 9 := by ring
        have hrec := ih (w + 1) (l2 + popcnt64 a) (counts.set (q - 1) v1) hr1 hlen1 hl21 hcur1 hq1
        rw [show tl.append rest = tl ++ rest from rfl, hrec, List.set_set,
          getD_set_self _ _ _ hq]
        have harg1 : w + (a :: tl).length = w + 1 + tl.length := by
          simp only [List.length_cons]
          omega
        have harg2 : l2 + wordsOnes (a :: tl) = l2 + popcnt64 a + wordsOnes tl := by
          rw [wordsOnes_cons]
          omega
        have hexp : ∀ t : Nat, 9 * (w % 8 - 1 + (t + 1)) = 9 * ((w + 1) % 8 - 1 + t) := by
          intro t
          rw [hmod1]
          omega
        have harg3 : counts.getD (q - 1) 0 +
            ∑ t ∈ Finset.range (a :: tl).length,
              (l2 + wordsOnes ((a :: tl).take t)) * 2 ^ (9 * (w % 8 - 1 + t))
            = v1 + ∑ t ∈ Finset.range tl.length,
              (l2 + popcnt64 a + wordsOnes (tl.take t)) * 2 ^ (9 * ((w + 1) % 8 - 1 + t)) := by
          simp only [List.length_cons]
          rw [Finset.sum_range_succ']
          simp only [List.take_succ_cons, wordsOnes_cons, List.take_zero, wordsOnes_nil,
            Nat.add_zero]
          have hsum : ∑ t ∈ Finset.range tl.length,
              (l2 + (popcnt64 a + wordsOnes (tl.take t))) * 2 ^ (9 * (w % 8 - 1 + (t + 1)))
              = ∑ t ∈ Finset.range tl.length,
                (l2 + popcnt64 a + wordsOnes (tl.take t)) * 2 ^ (9 * ((w + 1) % 8 - 1 + t)) := by
            refine Finset.sum_congr rfl ?_
            intro t _
            rw [hexp t]
            ring
          rw [hsum]
          omega
        rw [harg1, harg2, harg3]

theorem calcCountsGo_superblock (chunk rest : List Nat) (w l1 l2 q : Nat)
    (counts : List Nat)
    (hw : w % 8 = 0) (hlen : chunk.length ≤ 8) (hne : chunk ≠ [])
    (hfull : rest = [] ∨ chunk.length = 8)
    (hzero : ∀ j, q ≤ j → counts.getD j 0 = 0)
    (hq : q + 1 < counts.length) :
    calcCountsGo (chunk ++ rest) w l1 l2 q counts
      = calcCountsGo rest (w + chunk.length) (l1 + l2) (wordsOnes chunk) (q + 2)
          ((counts.set q (l1 + l2)).set (q + 1) (packedL2 chunk)) := by
  rcases chunk with _ | ⟨a, tl⟩
  · exact absurd rfl hne
  simp only [List.cons_append, calcCountsGo, if_pos hw]
  rcases tl with _ | ⟨b, tl2⟩
  · have hrest : rest = [] := by
      rcases hfull with h | h
      · exact h
      · simp at h
    subst hrest
    simp only [List.nil_append, calcCountsGo]
    have hp : packedL2 [a] = 0 := by
      simp [packedL2]
    rw [hp]
    have hgz : (counts.set q (l1 + l2)).getD (q + 1) 0 = 0 := by
      rw [getD_set_ne _ _ (by omega : q ≠ q + 1)]
      exact hzero (q + 1) (by omega)
    rw [← hgz, set_getD_self _ _ (by rw [List.length_set]; omega)]
  · set tl : List Nat := b :: tl2 with htl
    have hinner := calcCountsGo_inner tl rest (w + 1) (l1 + l2) (popcnt64 a) (q + 2)
      (counts.set q (l1 + l2))
      (by omega)
      (by
        have : (w + 1) % 8 = 1 := by omega
        rw [this]
        have := hlen
        simp only [htl, List.length_cons] at this ⊢
        omega)
      (by
        have : (w + 1) % 8 = 1 := by omega
        rw [this]
        have := popcnt64_le a
        omega)
      (by
        have h1 : (w + 1) % 8 = 1 := by omega
        rw [h1]
        have hgz : (counts.set q (l1 + l2)).getD (q + 2 - 1) 0 = 0 := by
          rw [getD_set_ne _ _ (by omega : q ≠ q + 2 - 1)]
          exact hzero (q + 2 - 1) (by omega)
        rw [hgz]
        norm_num)
      (by
        rw [List.length_set]
        omega)
    rw [show (b :: tl2).append rest = tl ++ rest from rfl, hinner]
    have hgz : (counts.set q (l1 + l2)).getD (q + 2 - 1) 0 = 0 := by
      rw [getD_set_ne _ _ (by omega : q ≠ q + 2 - 1)]
      exact hzero (q + 2 - 1) (by omega)
    rw [hgz]
    have harg1 : w + 1 + tl.length = w + (a :: tl).length := by
      simp only [List.length_cons]
      omega
    have harg2 : popcnt64 a + wordsOnes tl = wordsOnes (a :: tl) := (wordsOnes_cons a tl).symm
    have hmod : (w + 1) % 8 = 1 := by omega
    have harg3 : 0 + ∑ t ∈ Finset.range tl.length,
        (popcnt64 a + wordsOnes (tl.take t)) * 2 ^ (9 * ((w + 1) % 8 - 1 + t))
        = packedL2 (a :: tl) := by
      rw [Nat.zero_add]
      unfold packedL2
      simp only [List.length_cons, Nat.add_sub_cancel]
      refine Finset.sum_congr rfl ?_
      intro t _
      rw [List.take_succ_cons, wordsOnes_cons, hmod]
      norm_num
    rw [harg1, harg2, show q + 2 - 1 = q + 1 from by omega, harg3]

theorem calcCountsGo_getD_spec (S : Nat) : ∀ (ws : List Nat) (w l1 l2 q : Nat)
    (counts : List Nat),
    w % 8 = 0 →
    (∀ j, q ≤ j → counts.getD j 0 = 0) →
    (∀ T, 8 * T < ws.length → q + 2 * T + 1 < counts.length) →
    8 * S < ws.length →
      (calcCountsGo ws w l1 l2 q counts).getD (q + 2 * S) 0
          = l1 + l2 + wordsOnes (ws.take (8 * S)) ∧
      (calcCountsGo ws w l1 l2 q counts).getD (q + 2 * S + 1) 0
          = packedL2 ((ws.drop (8 * S)).take 8) := by
  induction S with
  | zero =>
      intro ws w l1 l2 q counts hw hzero hLen hS
      have hq : q + 1 < counts.length := by
        have := hLen 0 hS
        omega
      have hne : ws.take 8 ≠ [] := by
        intro hcon
        have hlen0 := congrArg List.length hcon
        rw [List.length_take, List.length_nil] at hlen0
        omega
      have hfull : ws.drop 8 = [] ∨ (ws.take 8).length = 8 := by
        by_cases h8 : ws.length ≤ 8
        · left
          simp [List.drop_eq_nil_iff, h8]
        · right
          rw [List.length_take]
          omega
      have hstep := calcCountsGo_superblock (ws.take 8) (ws.drop 8) w l1 l2 q counts hw
        (by simp [List.length_take]) hne hfull hzero hq
      rw [List.take_append_drop] at hstep
      rw [hstep]
      set counts2 : List Nat :=
        (counts.set q (l1 + l2)).set (q + 1) (packedL2 (ws.take 8)) with hc2
      have hread1 : counts2.getD q 0 = l1 + l2 := by
        rw [hc2, getD_set_ne _ _ (by omega : q + 1 ≠ q)]
        exact getD_set_self _ _ _ (by omega)
      have hread2 : counts2.getD (q + 1) 0 = packedL2 (ws.take 8) := by
        rw [hc2]
        exact getD_set_self _ _ _ (by simpa [List.length_set] using hq)
      have hfin1 : (calcCountsGo (ws.drop 8) (w + (ws.take 8).length) (l1 + l2)
          (wordsOnes (ws.take 8)) (q + 2) counts2).getD q 0 = l1 + l2 := by
        rcases hfull with h | h
        · rw [h]
          exact hread1
        · rw [calcCountsGo_getD_low]
          · exact hread1
          · rw [h, if_pos (by omega : (w + 8) % 8 = 0)]
            omega
      have hfin2 : (calcCountsGo (ws.drop 8) (w + (ws.take 8).length) (l1 + l2)
          (wordsOnes (ws.take 8)) (q + 2) counts2).getD (q + 1) 0
            = packedL2 (ws.take 8) := by
        rcases hfull with h | h
        · rw [h]
          exact hread2
        · rw [calcCountsGo_getD_low]
          · exact hread2
          · rw [h, if_pos (by omega : (w + 8) % 8 = 0)]
            omega
      constructor
      · simpa using hfin1
      · simpa using hfin2
  | succ S ih =>
      intro ws w l1 l2 q counts hw hzero hLen hS
      have hlong : 8 < ws.length := by omega
      have hq : q + 1 < counts.length := by
        have := hLen 0 (by omega)
        omega
      have hne : ws.take 8 ≠ [] := by
        intro hcon
        have hlen0 := congrArg List.length hcon
        rw [List.length_take, List.length_nil] at hlen0
        omega
      have hlen8 : (ws.take 8).length = 8 := by
        rw [List.length_take]
        omega
      have hstep := calcCountsGo_superblock (ws.take 8) (ws.drop 8) w l1 l2 q counts hw
        (by simp [List.length_take]) hne (Or.inr hlen8) hzero hq
      rw [List.take_append_drop] at hstep
      rw [hstep]
      set counts2 : List Nat :=
        (counts.set q (l1 + l2)).set (q + 1) (packedL2 (ws.take 8)) with hc2
      have hzero2 : ∀ j, q + 2 ≤ j → counts2.getD j 0 = 0 := by
        intro j hj
        rw [hc2, getD_set_ne _ _ (by omega : q + 1 ≠ j),
          getD_set_ne _ _ (by omega : q ≠ j)]
        exact hzero j (by omega)
      have hLen2 : ∀ T, 8 * T < (ws.drop 8).length → q + 2 + 2 * T + 1 < counts2.length := by
        intro T hT
        have hlen2 : counts2.length = counts.length := by
          rw [hc2, List.length_set, List.length_set]
        rw [hlen2]
        have := hLen (T + 1) (by
          rw [List.length_drop] at hT
          omega)
        omega
      have hdl : 8 * S < (ws.drop 8).length := by
        rw [List.length_drop]
        omega
      have hrec := ih (ws.drop 8) (w + (ws.take 8).length) (l1 + l2) (wordsOnes (ws.take 8))
        (q + 2) counts2 (by rw [hlen8]; omega) hzero2 hLen2 hdl
      have hidx1 : q + 2 * (S + 1) = q + 2 + 2 * S := by omega
      have hidx2 : q + 2 * (S + 1) + 1 = q + 2 + 2 * S + 1 := by omega
      have htake : ws.take (8 * (S + 1)) = ws.take 8 ++ (ws.drop 8).take (8 * S) := by
        have h1 : 8 * (S + 1) = 8 + 8 * S := by omega
        rw [h1, List.take_add]
      have hdrop : ws.drop (8 * (S + 1)) = (ws.drop 8).drop (8 * S) := by
        rw [List.drop_drop]
        congr 1
        omega
      constructor
      · rw [hidx1, hrec.1, htake, wordsOnes_append]
        omega
      · rw [hidx2, hrec.2, hdrop]

theorem wordsOnes_le (l : List Nat) : wordsOnes l ≤ 64 * l.length := by
  induction l with
  | nil => simp [wordsOnes_nil]
  | cons a tl ih =>
      rw [wordsOnes_cons]
      have := popcnt64_le a
      simp only [List.length_cons]
      omega

/-- Sums of 9-bit slices stay below the next slice boundary. -/
theorem sum_slices_lt (f : Nat → Nat) (k : Nat) (hf : ∀ t, t < k → f t < 512) :
    (∑ t ∈ Finset.range k, f t * 2 ^ (9 * t)) < 2 ^ (9 * k) := by
  induction k with
  | zero => simp
  | succ k ih =>
      rw [Finset.sum_range_succ]
      have h1 : (∑ t ∈ Finset.range k, f t * 2 ^ (9 * t)) < 2 ^ (9 * k) :=
        ih (fun t ht => hf t (by omega))
      have h2 : f k < 512 := hf k (by omega)
      have h3 : 9 * (k + 1) = 9 * k + 9 := by omega
      rw [h3, Nat.pow_add]
      have : f k * 2 ^ (9 * k) ≤ 511 * 2 ^ (9 * k) := by
        apply Nat.mul_le_mul_right
        omega
      nlinarith [Nat.pos_pow_of_pos (9 * k) (show 0 < 2 by norm_num)]

/-- Extracting one 9-bit slice from a packed sum of slices. -/
theorem sum_slices_extract (f : Nat → Nat) (m j : Nat)
    (hf : ∀ t, t < m → f t < 512) (hj : j < m) :
    ((∑ t ∈ Finset.range m, f t * 2 ^ (9 * t)) >>> (9 * j)) &&& 511 = f j := by
  have hsplit : (∑ t ∈ Finset.range m, f t * 2 ^ (9 * t))
      = (∑ t ∈ Finset.range j, f t * 2 ^ (9 * t)) + f j * 2 ^ (9 * j)
        + (∑ t ∈ Finset.Ico (j + 1) m, f t * 2 ^ (9 * t)) := by
    rw [Finset.range_eq_Ico, ← Finset.sum_Ico_consecutive _ (by omega : 0 ≤ j + 1) (by omega),
      ← Finset.range_eq_Ico, Finset.sum_range_succ]
  have hico : (∑ t ∈ Finset.Ico (j + 1) m, f t * 2 ^ (9 * t))
      = (∑ t ∈ Finset.range (m - (j + 1)), f (j + 1 + t) * 2 ^ (9 * t)) * (512 * 2 ^ (9 * j)) := by
    rw [Finset.sum_Ico_eq_sum_range, Finset.sum_mul]
    refine Finset.sum_congr rfl ?_
    intro t _
    have hexp : 9 * (j + 1 + t) = 9 * t + (9 + 9 * j) := by omega
    rw [hexp, Nat.pow_add]
    have h512 : (2 : Nat) ^ (9 + 9 * j) = 512 * 2 ^ (9 * j) := by
      rw [Nat.pow_add]
    rw [h512]
    ring
  set A : Nat := ∑ t ∈ Finset.range j, f t * 2 ^ (9 * t) with hA
  set C : Nat := ∑ t ∈ Finset.range (m - (j + 1)), f (j + 1 + t) * 2 ^ (9 * t) with hC
  have hAlt : A < 2 ^ (9 * j) := sum_slices_lt f j (fun t ht => hf t (by omega))
  have hval : (∑ t ∈ Finset.range m, f t * 2 ^ (9 * t))
      = A + (f j + C * 512) * 2 ^ (9 * j) := by
    rw [hsplit, hico]
    ring
  rw [hval, Nat.shiftRight_eq_div_pow,
    Nat.add_mul_div_right _ _ (Nat.pos_pow_of_pos (9 * j) (by norm_num)),
    Nat.div_eq_of_lt hAlt, Nat.zero_add]
  have h511 : (511 : Nat) = 2 ^ 9 - 1 := by norm_num
  rw [h511, Nat.and_pow_two_sub_one_eq_mod]
  have : ((f j + C * 512) % 512) = f j := by
    rw [Nat.add_mul_mod_self_right, Nat.mod_eq_of_lt (hf j hj)]
  simpa using this

/-- The level-3 shift trick isolates the `b` low bits of the word. -/
theorem level3_eq_oneBits (word b : Nat) (hword : word < 2 ^ 64) (hb : b < 64) :
    popcnt64 ((((word <<< 1) % 2 ^ 64) <<< (63 - b)) % 2 ^ 64) = oneBits word b := by
  have h64 : (2 : Nat) ^ 64 = 2 ^ 63 * 2 := by norm_num
  have h1 : (word <<< 1) % 2 ^ 64 = (word % 2 ^ 63) * 2 := by
    rw [Nat.shiftLeft_eq, pow_one, h64, Nat.mul_mod_mul_right]
  have h2 : ((word % 2 ^ 63) * 2) <<< (63 - b) = (word % 2 ^ 63) * 2 ^ (64 - b) := by
    rw [Nat.shiftLeft_eq, Nat.mul_assoc]
    congr 1
    have : (2 : Nat) * 2 ^ (63 - b) = 2 ^ (63 - b + 1) := by
      rw [Nat.pow_succ]
      ring
    rw [this]
    congr 1
    omega
  have h64b : (2 : Nat) ^ 64 = 2 ^ b * 2 ^ (64 - b) := by
    rw [← Nat.pow_add]
    congr 1
    omega
  have h3 : ((word % 2 ^ 63) * 2 ^ (64 - b)) % 2 ^ 64 = (word % 2 ^ b) * 2 ^ (64 - b) := by
    rw [h64b, Nat.mul_mod_mul_right]
    congr 1
    exact Nat.mod_mod_of_dvd word (pow_dvd_pow 2 (by omega))
  rw [h1, h2, h3, ← Nat.shiftLeft_eq, popcnt64_eq_oneBits,
    oneBits_shiftLeft _ _ _ (by omega), oneBits_mod_two_pow _ _ _ (by omega)]
  congr 1
  omega

/-- The prefix-popcount splits into whole processed words plus the bits of the
current word. -/
theorem countP_range_mul64 (ws : List Nat) (w : Nat) :
    (List.range (64 * w)).countP (fun i => (ws.getD (i / 64) 0).testBit (i % 64))
      = wordsOnes (ws.take w) := by
  induction w with
  | zero => simp [wordsOnes_nil]
  | succ w ih =>
      have hr : 64 * (w + 1) = 64 * w + 64 := by omega
      rw [hr, List.range_add, List.countP_append, ih, List.countP_map]
      have hcong : (List.range 64).countP
          ((fun i => (ws.getD (i / 64) 0).testBit (i % 64)) ∘ (fun x => 64 * w + x))
          = (List.range 64).countP (fun i => (ws.getD w 0).testBit i) := by
        refine List.countP_congr ?_
        intro i hi
        rw [List.mem_range] at hi
        have hdiv : (64 * w + i) / 64 = w := by omega
        have hmod : (64 * w + i) % 64 = i := by omega
        simp [Function.comp, hdiv, hmod]
      rw [hcong]
      have htake : wordsOnes (ws.take (w + 1))
          = wordsOnes (ws.take w) + popcnt64 (ws.getD w 0) := by
        by_cases hw : w < ws.length
        · have h1 : ws.take (w + 1) = ws.take w ++ [ws[w]] := by
            rw [List.take_succ, List.getElem?_eq_getElem hw]
            rfl
          have h2 : ws.getD w 0 = ws[w] := by
            rw [List.getD_eq_getElem?_getD, List.getElem?_eq_getElem hw]
            rfl
          rw [h1, wordsOnes_append, h2, wordsOnes_cons, wordsOnes_nil]
          omega
        · push_neg at hw
          have hz : popcnt64 (ws.getD w 0) = 0 := by
            rw [List.getD_eq_getElem?_getD, List.getElem?_eq_none (by omega)]
            rw [popcnt64_eq_oneBits]
            simp [oneBits, Nat.zero_testBit]
          rw [List.take_of_length_le (by omega), List.take_of_length_le hw, hz]
          omega
      rw [htake, popcnt64_eq_oneBits]
      rfl

theorem onesBelow_split (bv : Bitvec) (p : Nat) :
    bv.onesBelow p = wordsOnes (bv.words.take (p / 64))
      + oneBits (bv.words.getD (p / 64) 0) (p % 64) := by
  have key : ∀ w b, b < 64 →
      (List.range (64 * w + b)).countP (fun i => bv.get i)
        = wordsOnes (bv.words.take w) + oneBits (bv.words.getD w 0) b := by
    intro w b hb
    rw [List.range_add, List.countP_append, List.countP_map]
    congr 1
    · show (List.range (64 * w)).countP
          (fun i => (bv.words.getD (i / 64) 0).testBit (i % 64)) = _
      exact countP_range_mul64 bv.words w
    · unfold oneBits
      refine List.countP_congr ?_
      intro i hi
      rw [List.mem_range] at hi
      have hdiv : (64 * w + i) / 64 = w := by omega
      have hmod : (64 * w + i) % 64 = i := by omega
      simp [Function.comp, get, hdiv, hmod]
  calc bv.onesBelow p
      = (List.range (64 * (p / 64) + p % 64)).countP (fun i => bv.get i) := by
        rw [Nat.div_add_mod]
        rfl
  _ = wordsOnes (bv.words.take (p / 64)) + oneBits (bv.words.getD (p / 64) 0) (p % 64) :=
        key (p / 64) (p % 64) (Nat.mod_lt _ (by norm_num))

/-- Main rank correctness: after `calculate_counts` over a zeroed counts
array of adequate size, `rank` computes the prefix popcount at every
position strictly inside the word array. -/
theorem rank_eq_onesBelow (bv : Bitvec)
    (hwords : ∀ x ∈ bv.words, x < 2 ^ 64)
    (hzero : ∀ j, bv.counts.getD j 0 = 0)
    (hLen : ∀ S, 8 * S < bv.words.length → 2 * S + 1 < bv.counts.length)
    (p : Nat) (hp : p < 64 * bv.words.length) :
    bv.calculateCounts.rank p = bv.onesBelow p := by
  have hw : p / 64 < bv.words.length := by
    rw [Nat.div_lt_iff_lt_mul (by norm_num : 0 < 64)]
    omega
  set w : Nat := p / 64 with hwdef
  set b : Nat := p % 64 with hbdef
  set S : Nat := w / 8 with hSdef
  clear_value S
  clear_value b
  clear_value w
  have hS8 : 8 * S ≤ w := by
    rw [hSdef]
    omega
  have hSlt : 8 * S < bv.words.length := by omega
  have hspec := calcCountsGo_getD_spec S bv.words 0 0 0 0 bv.counts
    (by norm_num) (fun j _ => hzero j) (by simpa using hLen) hSlt
  have hcf : bv.calculateCounts.counts = calcCountsGo bv.words 0 0 0 0 bv.counts := rfl
  have hchunk8 : ((bv.words.drop (8 * S)).take 8).length ≤ 8 := List.length_take_le _ _
  have hchunkge : w % 8 < ((bv.words.drop (8 * S)).take 8).length := by
    rw [List.length_take, List.length_drop]
    refine lt_min ?_ ?_ <;> omega
  have hslice : ∀ t, t < ((bv.words.drop (8 * S)).take 8).length - 1 →
      wordsOnes (((bv.words.drop (8 * S)).take 8).take (t + 1)) < 512 := by
    intro t ht
    have h1 : (((bv.words.drop (8 * S)).take 8).take (t + 1)).length ≤ t + 1 :=
      le_trans (List.length_take_le _ _) (le_refl _)
    have h2 := wordsOnes_le (((bv.words.drop (8 * S)).take 8).take (t + 1))
    have h3 : t + 1 ≤ 7 := by omega
    calc wordsOnes (((bv.words.drop (8 * S)).take 8).take (t + 1))
        ≤ 64 * (((bv.words.drop (8 * S)).take 8).take (t + 1)).length := h2
    _ ≤ 64 * (t + 1) := by
        apply Nat.mul_le_mul_left
        exact h1
    _ ≤ 64 * 7 := by
        apply Nat.mul_le_mul_left
        exact h3
    _ < 512 := by norm_num
  have hl1 : bv.calculateCounts.level1Counts w = wordsOnes (bv.words.take (8 * S)) := by
    unfold level1Counts
    rw [hcf]
    have hidx : (w / 8) * 2 = 0 + 2 * S := by
      rw [hSdef]
      omega
    rw [hidx, hspec.1]
    omega
  have hl2 : bv.calculateCounts.level2Counts w
      = wordsOnes ((bv.words.drop (8 * S)).take (w % 8)) := by
    unfold level2Counts
    rw [hcf]
    have hidx : (w / 8) * 2 + 1 = 0 + 2 * S + 1 := by
      rw [hSdef]
      omega
    rw [hidx, hspec.2]
    by_cases hr : w % 8 = 0
    · rw [if_pos hr, hr]
      have hlt : packedL2 ((bv.words.drop (8 * S)).take 8)
          < 2 ^ (9 * (((bv.words.drop (8 * S)).take 8).length - 1)) := by
        unfold packedL2
        exact sum_slices_lt _ _ hslice
      have hlt63 : packedL2 ((bv.words.drop (8 * S)).take 8) < 2 ^ 63 := by
        refine lt_of_lt_of_le hlt ?_
        apply Nat.pow_le_pow_right (by norm_num)
        omega
      rw [Nat.shiftRight_eq_div_pow, Nat.div_eq_of_lt hlt63]
      simp [List.take_zero, wordsOnes_nil]
    · rw [if_neg hr]
      have hrlt : w % 8 - 1 < ((bv.words.drop (8 * S)).take 8).length - 1 :=
        tsub_lt_tsub_right_of_le (by omega : 1 ≤ w % 8) hchunkge
      have hshift : (w % 8 - 1) * 9 = 9 * (w % 8 - 1) := by ring
      unfold packedL2
      rw [hshift, sum_slices_extract _ _ _ hslice hrlt, List.take_take]
      have hmin : min (w % 8 - 1 + 1) 8 = w % 8 := by
        have h1 : w % 8 < 8 := Nat.mod_lt _ (by norm_num)
        omega
      rw [hmin]
  have hl3 : bv.calculateCounts.level3Counts w b = oneBits (bv.words.getD w 0) b := by
    unfold level3Counts
    have hmem : bv.words.getD w 0 ∈ bv.words := by
      rw [List.getD_eq_getElem?_getD, List.getElem?_eq_getElem hw]
      exact List.getElem_mem _
    have hword : bv.words.getD w 0 < 2 ^ 64 := hwords _ hmem
    have hb64 : b < 64 := by
      rw [hbdef]
      exact Nat.mod_lt _ (by norm_num)
    exact level3_eq_oneBits _ _ hword hb64
  have hrank : bv.calculateCounts.rank p
      = bv.calculateCounts.level1Counts (p / 64) + bv.calculateCounts.level2Counts (p / 64)
        + bv.calculateCounts.level3Counts (p / 64) (p % 64) := rfl
  rw [hrank, ← hwdef, ← hbdef, hl1, hl2, hl3, onesBelow_split, ← hwdef, ← hbdef]
  have htake : bv.words.take w = bv.words.take (8 * S) ++ (bv.words.drop (8 * S)).take (w % 8) := by
    have hw8 : w = 8 * S + w % 8 := by
      rw [hSdef]
      omega
    conv_lhs => rw [hw8]
    rw [List.take_add]
  rw [htake, wordsOnes_append]

theorem set_counts (bv : Bitvec) (pos : Nat) (v : Bool) : (bv.set pos v).counts = bv.counts :=
  rfl

theorem set_words_length (bv : Bitvec) (pos : Nat) (v : Bool) :
    (bv.set pos v).words.length = bv.words.length := by
  unfold set
  simp [List.length_set]

theorem getD_lt_of_forall (l : List Nat) (i B : Nat) (hB : 0 < B)
    (h : ∀ x ∈ l, x < B) : l.getD i 0 < B := by
  by_cases hi : i < l.length
  · rw [List.getD_eq_getElem?_getD, List.getElem?_eq_getElem hi]
    exact h _ (List.getElem_mem _)
  · rw [List.getD_eq_getElem?_getD, List.getElem?_eq_none (by omega)]
    simpa using hB

theorem set_words_lt (bv : Bitvec) (pos : Nat) (v : Bool)
    (h : ∀ x ∈ bv.words, x < 2 ^ 64) :
    ∀ x ∈ (bv.set pos v).words, x < 2 ^ 64 := by
  intro x hx
  unfold set at hx
  simp only at hx
  rcases List.mem_or_eq_of_mem_set hx with hmem | heq
  · exact h x hmem
  · subst heq
    have hword : bv.words.getD (pos / 64) 0 < 2 ^ 64 :=
      getD_lt_of_forall _ _ _ (by norm_num) h
    by_cases hv : v
    · simp only [hv, if_pos]
      refine Nat.or_lt_two_pow hword ?_
      rw [Nat.shiftLeft_eq, Nat.one_mul]
      exact Nat.pow_lt_pow_right (by norm_num) (Nat.mod_lt _ (by norm_num))
    · simp only [hv, if_neg, Bool.false_eq_true, not_false_iff]
      exact lt_of_le_of_lt Nat.and_le_left hword

theorem applySets_counts (bv : Bitvec) (ops : List (Nat × Bool)) :
    (applySets bv ops).counts = bv.counts := by
  induction ops generalizing bv with
  | nil => rfl
  | cons op tl ih => rw [applySets, List.foldl_cons, ← applySets, ih, set_counts]

theorem applySets_words_length (bv : Bitvec) (ops : List (Nat × Bool)) :
    (applySets bv ops).words.length = bv.words.length := by
  induction ops generalizing bv with
  | nil => rfl
  | cons op tl ih => rw [applySets, List.foldl_cons, ← applySets, ih, set_words_length]

theorem applySets_words_lt (bv : Bitvec) (ops : List (Nat × Bool))
    (h : ∀ x ∈ bv.words, x < 2 ^ 64) :
    ∀ x ∈ (applySets bv ops).words, x < 2 ^ 64 := by
  induction ops generalizing bv with
  | nil => exact h
  | cons op tl ih =>
      rw [applySets, List.foldl_cons, ← applySets]
      exact ih _ (set_words_lt _ _ _ h)

theorem new_words_lt (n : Nat) : ∀ x ∈ (new n).words, x < 2 ^ 64 := by
  intro x hx
  unfold new at hx
  simp only at hx
  rw [List.eq_of_mem_replicate hx]
  norm_num

theorem new_counts_getD (n j : Nat) : (new n).counts.getD j 0 = 0 := by
  unfold new
  simp only [List.getD_eq_getElem?_getD, List.getElem?_replicate]
  split <;> rfl

theorem new_words_length (n : Nat) : (new n).words.length = (n + 63) / 64 := by
  unfold new
  simp

theorem new_counts_length (n : Nat) : (new n).counts.length = (n + 7) / 4 := by
  unfold new
  simp

/-- `rank` is correct on any bitvector built by `new` plus `set` calls whose
counts were computed once by `calculate_counts`, at every position `p < n`. -/
theorem rank_correct_built (n : Nat) (ops : List (Nat × Bool)) (p : Nat) (hp : p < n) :
    ((applySets (new n) ops).calculateCounts).rank p
      = (applySets (new n) ops).onesBelow p := by
  apply rank_eq_onesBelow
  · exact applySets_words_lt _ _ (new_words_lt n)
  · intro j
    rw [applySets_counts, new_counts_getD]
  · intro S hS
    rw [applySets_counts, new_counts_length]
    rw [applySets_words_length, new_words_length] at hS
    omega
  · rw [applySets_words_length, new_words_length]
    omega

theorem get_new (n pos : Nat) : (new n).get pos = false := by
  unfold new get
  simp only [List.getD_eq_getElem?_getD, List.getElem?_replicate]
  split <;> simp [Nat.zero_testBit]

theorem get_set_self (bv : Bitvec) (pos : Nat) (v : Bool)
    (h : pos / 64 < bv.words.length) : (bv.set pos v).get pos = v := by
  have hb : pos % 64 < 64 := Nat.mod_lt _ (by norm_num)
  have hred : (bv.set pos v).get pos
      = ((bv.words.set (pos / 64)
          (if v then bv.words.getD (pos / 64) 0 ||| 1 <<< (pos % 64)
           else bv.words.getD (pos / 64) 0 &&& (1 <<< (pos % 64) ^^^ (2 ^ 64 - 1)))).getD
          (pos / 64) 0).testBit (pos % 64) := rfl
  rw [hred, getD_set_self _ _ _ h]
  cases v with
  | true =>
      rw [if_pos rfl, Nat.testBit_lor, Nat.testBit_shiftLeft]
      simp [Nat.testBit_one_eq_true_iff_self_eq_zero]
  | false =>
      rw [if_neg (by simp), Nat.testBit_land, Nat.testBit_xor, Nat.testBit_shiftLeft,
        Nat.testBit_two_pow_sub_one]
      simp [Nat.testBit_one_eq_true_iff_self_eq_zero, hb]

theorem get_set_of_ne (bv : Bitvec) (pos pos2 : Nat) (v : Bool)
    (h : pos2 ≠ pos) : (bv.set pos v).get pos2 = bv.get pos2 := by
  have hred : (bv.set pos v).get pos2
      = ((bv.words.set (pos / 64)
          (if v then bv.words.getD (pos / 64) 0 ||| 1 <<< (pos % 64)
           else bv.words.getD (pos / 64) 0 &&& (1 <<< (pos % 64) ^^^ (2 ^ 64 - 1)))).getD
          (pos2 / 64) 0).testBit (pos2 % 64) := rfl
  rw [hred]
  by_cases hw : pos / 64 = pos2 / 64
  · by_cases hin : pos / 64 < bv.words.length
    · rw [← hw, getD_set_self _ _ _ hin]
      have hbne : pos2 % 64 ≠ pos % 64 := by
        intro hcon
        exact h (by omega)
      have hb2 : pos2 % 64 < 64 := Nat.mod_lt _ (by norm_num)
      have hone : ((1 : Nat) <<< (pos % 64)).testBit (pos2 % 64) = false := by
        rw [Nat.testBit_shiftLeft]
        by_cases hge : pos2 % 64 ≥ pos % 64
        · have h1 : Nat.testBit 1 (pos2 % 64 - pos % 64) = false := by
            rw [show (1 : Nat) = 2 ^ 0 from rfl, Nat.testBit_two_pow]
            simp only [decide_eq_false_iff_not]
            omega
          simp [h1]
        · simp [hge]
      cases v with
      | true =>
          rw [if_pos rfl, Nat.testBit_lor, hone]
          unfold get
          rw [hw]
          simp
      | false =>
          rw [if_neg (by simp), Nat.testBit_land, Nat.testBit_xor, hone,
            Nat.testBit_two_pow_sub_one]
          unfold get
          rw [hw]
          simp [hb2]
    · rw [List.set_eq_of_length_le (by omega)]
      rfl
  · rw [getD_set_ne _ _ hw]
    rfl
end Bitvec

namespace OccurenceTable

theorem fillOne_counts (rest : List Nat) (i s c : Nat) (bv : Bitvec) :
    (fillOne rest i s c bv).counts = bv.counts := by
  induction rest generalizing i bv with
  | nil => rfl
  | cons ch tl ih =>
      show (fillOne tl (i + 1) s c _).counts = _
      rw [ih]
      split
      · rfl
      · split <;> rfl

theorem fillOne_words_length (rest : List Nat) (i s c : Nat) (bv : Bitvec) :
    (fillOne rest i s c bv).words.length = bv.words.length := by
  induction rest generalizing i bv with
  | nil => rfl
  | cons ch tl ih =>
      show (fillOne tl (i + 1) s c _).words.length = _
      rw [ih]
      split
      · rfl
      · split
        · exact Bitvec.set_words_length _ _ _
        · rfl

theorem fillOne_words_lt (rest : List Nat) (i s c : Nat) (bv : Bitvec)
    (h : ∀ x ∈ bv.words, x < 2 ^ 64) :
    ∀ x ∈ (fillOne rest i s c bv).words, x < 2 ^ 64 := by
  induction rest generalizing i bv with
  | nil => exact h
  | cons ch tl ih =>
      refine ih (i + 1) _ ?_
      split
      · exact h
      · split
        · exact Bitvec.set_words_lt _ _ _ h
        · exact h

theorem get_fillOne_of_lt (rest : List Nat) (i s c : Nat) (bv : Bitvec) (pos : Nat)
    (hpos : pos < i) : (fillOne rest i s c bv).get pos = bv.get pos := by
  induction rest generalizing i bv with
  | nil => rfl
  | cons ch tl ih =>
      show (fillOne tl (i + 1) s c _).get pos = _
      rw [ih (i + 1) _ (by omega)]
      split
      · rfl
      · split
        · exact Bitvec.get_set_of_ne _ _ _ _ (by omega)
        · rfl

theorem get_fillOne (rest : List Nat) (i s c : Nat) (bv : Bitvec) (pos : Nat)
    (hge : i ≤ pos) (hlt : pos < i + rest.length)
    (hin : pos / 64 < bv.words.length) :
    (fillOne rest i s c bv).get pos
      = if pos ≠ s ∧ rest.getD (pos - i) 0 ≤ c then true else bv.get pos := by
  induction rest generalizing i bv with
  | nil =>
      simp only [List.length_nil, Nat.add_zero] at hlt
      omega
  | cons ch tl ih =>
      show (fillOne tl (i + 1) s c _).get pos = _
      by_cases hpos : pos = i
      · subst hpos
        rw [get_fillOne_of_lt _ _ _ _ _ _ (by omega)]
        have hsub : pos - pos = 0 := by omega
        rw [hsub, List.getD_cons_zero]
        by_cases hs : pos = s
        · rw [if_pos hs]
          simp [hs]
        · rw [if_neg hs]
          by_cases hch : ch ≤ c
          · rw [if_pos hch, Bitvec.get_set_self _ _ _ hin]
            simp [hs, hch]
          · rw [if_neg hch]
            simp [hs, hch]
      · have hge1 : i + 1 ≤ pos := by omega
        have hlt1 : pos < i + 1 + tl.length := by
          simp only [List.length_cons] at hlt
          omega
        have hin1 : pos / 64 <
            (if i = s then bv
             else if ch ≤ c then bv.set i true else bv).words.length := by
          split
          · exact hin
          · split
            · rw [Bitvec.set_words_length]
              exact hin
            · exact hin
        rw [ih (i + 1) _ hge1 hlt1 hin1]
        have hsub : pos - i = (pos - (i + 1)) + 1 := by omega
        rw [hsub, List.getD_cons_succ]
        by_cases hcond : pos ≠ s ∧ tl.getD (pos - (i + 1)) 0 ≤ c
        · rw [if_pos hcond, if_pos hcond]
        · rw [if_neg hcond, if_neg hcond]
          split
          · rfl
          · split
            · exact Bitvec.get_set_of_ne _ _ _ _ (by omega)
            · rfl

theorem get_fillOne_new (bwt : List Nat) (s c pos : Nat) (hpos : pos < bwt.length) :
    (fillOne bwt 0 s c (Bitvec.new bwt.length)).get pos
      = decide (pos ≠ s ∧ bwt.getD pos 0 ≤ c) := by
  have hin : pos / 64 < (Bitvec.new bwt.length).words.length := by
    rw [Bitvec.new_words_length]
    omega
  rw [get_fillOne _ _ _ _ _ _ (Nat.zero_le pos) (by omega) hin, Bitvec.get_new,
    show pos - 0 = pos from rfl]
  by_cases hcond : pos ≠ s ∧ bwt.getD pos 0 ≤ c
  · rw [if_pos hcond]
    exact (decide_eq_true hcond).symm
  · rw [if_neg hcond]
    exact (decide_eq_false hcond).symm

theorem fillGo_length (rest : List Nat) (i s : Nat) (table : List Bitvec) :
    (fillGo rest i s table).length = table.length := by
  induction rest generalizing i table with
  | nil => rfl
  | cons ch tl ih =>
      show (fillGo tl (i + 1) s _).length = _
      rw [ih]
      split
      · rfl
      · exact List.length_mapIdx

theorem fillGo_getD (rest : List Nat) (i s : Nat) (table : List Bitvec) (c : Nat)
    (hc : c < table.length) (d : Bitvec) :
    (fillGo rest i s table).getD c d = fillOne rest i s c (table.getD c d) := by
  induction rest generalizing i table with
  | nil => rfl
  | cons ch tl ih =>
      show (fillGo tl (i + 1) s _).getD c d = fillOne tl (i + 1) s c _
      by_cases hs : i = s
      · rw [if_pos hs, if_pos hs, ih (i + 1) table hc]
      · rw [if_neg hs, if_neg hs,
          ih (i + 1) _ (by rw [List.length_mapIdx]; exact hc)]
        congr 1
        have hmap : (table.mapIdx fun j bv => if ch ≤ j then bv.set i true else bv).getD c d
            = if ch ≤ c then (table.getD c d).set i true else table.getD c d := by
          rw [List.getD_eq_getElem?_getD,
            List.getElem?_eq_getElem (by rw [List.length_mapIdx]; exact hc),
            List.getElem_mapIdx]
          rw [List.getD_eq_getElem?_getD, List.getElem?_eq_getElem hc]
          rfl
        rw [hmap]

theorem fromBwt_table_getD (alphabetLength : Nat) (bwt : List Nat) (s c : Nat)
    (hc : c < alphabetLength) :
    (fromBwt alphabetLength bwt s).table.getD c (Bitvec.new 0)
      = (fillOne bwt 0 s c (Bitvec.new bwt.length)).calculateCounts := by
  unfold fromBwt
  have hlen : (fillGo bwt 0 s
      (List.replicate alphabetLength (Bitvec.new bwt.length))).length = alphabetLength := by
    rw [fillGo_length, List.length_replicate]
  rw [List.getD_eq_getElem?_getD,
    List.getElem?_eq_getElem (by rw [List.length_map, hlen]; exact hc)]
  rw [Option.getD_some, List.getElem_map]
  congr 1
  have := fillGo_getD bwt 0 s (List.replicate alphabetLength (Bitvec.new bwt.length)) c
    (by rw [List.length_replicate]; exact hc) (Bitvec.new 0)
  rw [List.getD_eq_getElem?_getD, List.getElem?_eq_getElem (by rw [hlen]; exact hc),
    Option.getD_some] at this
  rw [this]
  congr 1
  rw [List.getD_eq_getElem?_getD, List.getElem?_replicate, if_pos hc]
  rfl

/-- `rank` over one cumulative bitvector of `from_bwt` counts the earlier
non-sentinel positions whose symbol index is at most `c`. -/
theorem fromBwt_rank (alphabetLength : Nat) (bwt : List Nat) (s c : Nat)
    (hc : c < alphabetLength) (i : Nat) (hile : i ≤ bwt.length)
    (hiw : i < 64 * ((bwt.length + 63) / 64)) :
    ((fromBwt alphabetLength bwt s).table.getD c (Bitvec.new 0)).rank i
      = (List.range i).countP (fun j => decide (j ≠ s ∧ bwt.getD j 0 ≤ c)) := by
  rw [fromBwt_table_getD _ _ _ _ hc]
  have hlen : (fillOne bwt 0 s c (Bitvec.new bwt.length)).words.length
      = (bwt.length + 63) / 64 := by
    rw [fillOne_words_length, Bitvec.new_words_length]
  rw [Bitvec.rank_eq_onesBelow _
    (fillOne_words_lt _ _ _ _ _ (Bitvec.new_words_lt _))
    (by
      intro j
      rw [fillOne_counts, Bitvec.new_counts_getD])
    (by
      intro S hS
      rw [fillOne_counts, Bitvec.new_counts_length]
      rw [hlen] at hS
      omega)
    i (by rw [hlen]; exact hiw)]
  unfold Bitvec.onesBelow
  refine List.countP_congr ?_
  intro j hj
  rw [List.mem_range] at hj
  rw [get_fillOne_new _ _ _ _ (by omega)]

/-- Counting a conjunction with a threshold splits at the top value. -/
theorem countP_le_split (l : List Nat) (s c : Nat) (f : Nat → Nat) (hc : 0 < c) :
    l.countP (fun j => decide (j ≠ s ∧ f j ≤ c))
      = l.countP (fun j => decide (j ≠ s ∧ f j ≤ c - 1))
        + l.countP (fun j => decide (j ≠ s ∧ f j = c)) := by
  induction l with
  | nil => rfl
  | cons a tl ih =>
      simp only [List.countP_cons]
      rw [ih]
      have hhead : (if decide (a ≠ s ∧ f a ≤ c) = true then 1 else 0)
          = (if decide (a ≠ s ∧ f a ≤ c - 1) = true then 1 else 0)
            + (if decide (a ≠ s ∧ f a = c) = true then (1 : Nat) else 0) := by
        by_cases hs : a = s
        · simp [hs]
        · by_cases heq : f a = c
          · have hfalse : ¬ (f a ≤ c - 1) := by omega
            have htrue : f a ≤ c := by omega
            simp [hs, heq, hfalse, htrue, hc]
          · by_cases hle : f a ≤ c - 1
            · have h1 : f a ≤ c := by omega
              simp [hs, heq, hle, h1, hc]
            · have h1 : ¬ (f a ≤ c) := by omega
              simp [hs, heq, hle, h1, hc]
      omega

/-- C4 core: `occ(c, i)` counts the positions `j < i`, other than the
sentinel slot, holding symbol index exactly `c`. -/
theorem occ_fromBwt (alphabetLength : Nat) (bwt : List Nat) (s c i : Nat)
    (hc : c < alphabetLength) (hile : i ≤ bwt.length)
    (hiw : i < 64 * ((bwt.length + 63) / 64)) :
    (fromBwt alphabetLength bwt s).occ c i
      = (List.range i).countP (fun j => decide (j ≠ s ∧ bwt.getD j 0 = c)) := by
  unfold occ
  by_cases hc0 : c = 0
  · subst hc0
    rw [if_pos rfl, fromBwt_rank _ _ _ _ hc _ hile hiw]
    refine List.countP_congr ?_
    intro j _
    simp [Nat.le_zero]
  · rw [if_neg hc0, fromBwt_rank _ _ _ _ hc _ hile hiw,
      fromBwt_rank _ _ _ _ (by omega : c - 1 < alphabetLength) _ hile hiw,
      countP_le_split _ _ _ _ (by omega)]
    omega
end OccurenceTable

theorem lexLt_irrefl (x : List Nat) : lexLt x x = false := by
  induction x with
  | nil => rfl
  | cons a as ih => simp [lexLt, ih]

theorem lexLt_trans {x y z : List Nat} (h1 : lexLt x y = true) (h2 : lexLt y z = true) :
    lexLt x z = true := by
  induction x generalizing y z with
  | nil =>
      cases z with
      | nil =>
          cases y with
          | nil => exact h1
          | cons b bs => simp [lexLt] at h2
      | cons c cs => rfl
  | cons a as ih =>
      cases y with
      | nil => simp [lexLt] at h1
      | cons b bs =>
          cases z with
          | nil => simp [lexLt] at h2
          | cons c cs =>
              simp only [lexLt] at h1 h2 ⊢
              by_cases hab : a < b
              · by_cases hbc : b < c
                · rw [if_pos (by omega)]
                · rw [if_pos hab] at h1
                  rw [if_neg hbc] at h2
                  by_cases hcb : c < b
                  · rw [if_pos hcb] at h2
                    simp at h2
                  · have : b = c := by omega
                    subst this
                    rw [if_pos hab]
              · rw [if_neg hab] at h1
                by_cases hba : b < a
                · rw [if_pos hba] at h1
                  simp at h1
                · rw [if_neg hba] at h1
                  have hab2 : a = b := by omega
                  subst hab2
                  by_cases hac : a < c
                  · rw [if_pos hac]
                  · rw [if_neg hac] at h2 ⊢
                    by_cases hca : c < a
                    · rw [if_pos hca] at h2
                      simp at h2
                    · rw [if_neg hca] at h2 ⊢
                      exact ih h1 h2

theorem lexLt_total (x y : List Nat) :
    lexLt x y = true ∨ x = y ∨ lexLt y x = true := by
  induction x generalizing y with
  | nil =>
      cases y with
      | nil => right; left; rfl
      | cons b bs => left; rfl
  | cons a as ih =>
      cases y with
      | nil => right; right; rfl
      | cons b bs =>
          by_cases hab : a < b
          · left
            simp [lexLt, hab]
          · by_cases hba : b < a
            · right; right
              simp [lexLt, hba]
            · have heq : a = b := by omega
              subst heq
              rcases ih bs with h | h | h
              · left
                simp [lexLt, h]
              · right; left
                rw [h]
              · right; right
                simp [lexLt, h]

theorem lexLt_asymm {x y : List Nat} (h : lexLt x y = true) : lexLt y x = false := by
  by_cases h2 : lexLt y x = true
  · have := lexLt_trans h h2
    rw [lexLt_irrefl] at this
    exact absurd this (by simp)
  · simpa using h2

/-- Anything lexicographically below `pat` is below every extension of
`pat`. -/
theorem lexLt_of_lexLt_append {s pat : List Nat} (z : List Nat)
    (h : lexLt s pat = true) : lexLt s (pat ++ z) = true := by
  induction pat generalizing s with
  | nil => cases s <;> simp [lexLt] at h
  | cons a as ih =>
      cases s with
      | nil => rfl
      | cons x xs =>
          simp only [lexLt, List.cons_append] at h ⊢
          by_cases hxa : x < a
          · rw [if_pos hxa]
          · rw [if_neg hxa] at h ⊢
            by_cases hax : a < x
            · rw [if_pos hax] at h
              simp at h
            · rw [if_neg hax] at h ⊢
              exact ih h

/-- A pattern is a prefix of `s` exactly when `s` lies lexicographically
between the pattern and the pattern extended by a symbol `B` larger than
every symbol of `s`. -/
theorem prefix_iff_between (pat s : List Nat) (B : Nat) (hB : ∀ x ∈ s, x < B) :
    pat <+: s ↔ (lexLt s pat = false ∧ lexLt s (pat ++ [B]) = true) := by
  induction pat generalizing s with
  | nil =>
      cases s with
      | nil => simp [lexLt]
      | cons x xs =>
          simp only [List.nil_prefix, List.nil_append, true_iff]
          constructor
          · rfl
          · have hx : x < B := hB x (by simp)
            simp [lexLt, hx]
  | cons a pat2 ih =>
      cases s with
      | nil =>
          constructor
          · intro hcon
            have := hcon.length_le
            simp at this
          · intro ⟨h1, h2⟩
            simp [lexLt] at h1
      | cons x xs =>
          simp only [List.cons_prefix_cons, lexLt, List.cons_append]
          by_cases hxa : x < a
          · rw [if_pos hxa, if_pos hxa]
            constructor
            · intro ⟨h1, _⟩
              omega
            · intro ⟨h1, _⟩
              simp at h1
          · rw [if_neg hxa, if_neg hxa]
            by_cases hax : a < x
            · rw [if_pos hax, if_pos hax]
              constructor
              · intro ⟨h1, _⟩
                omega
              · intro ⟨_, h2⟩
                simp at h2
            · rw [if_neg hax, if_neg hax]
              have hxa2 : x = a := by omega
              subst hxa2
              rw [ih xs (fun y hy => hB y (by simp [hy]))]
              simp

theorem saInsert_perm (text : List Nat) (p : Nat) (l : List Nat) :
    (saInsert text p l).Perm (p :: l) := by
  induction l with
  | nil => exact List.Perm.refl _
  | cons q rest ih =>
      show (if lexLt (suffix text p) (suffix text q) then p :: q :: rest
        else q :: saInsert text p rest).Perm _
      split
      · exact List.Perm.refl _
      · exact (List.Perm.cons q ih).trans (List.Perm.swap p q rest)

theorem saSort_perm (text : List Nat) (l : List Nat) :
    (saSort text l).Perm l := by
  induction l with
  | nil => exact List.Perm.refl _
  | cons p rest ih =>
      show (saInsert text p (saSort text rest)).Perm _
      exact (saInsert_perm text p _).trans (List.Perm.cons p ih)

theorem saInsert_pairwise (text : List Nat) (p : Nat) (l : List Nat)
    (h : l.Pairwise (suffixLe text)) :
    (saInsert text p l).Pairwise (suffixLe text) := by
  induction l with
  | nil => simp [saInsert]
  | cons q rest ih =>
      rw [List.pairwise_cons] at h
      show (if lexLt (suffix text p) (suffix text q) then p :: q :: rest
        else q :: saInsert text p rest).Pairwise (suffixLe text)
      split
      · rename_i hpq
        rw [List.pairwise_cons]
        constructor
        · intro x hx
          rcases List.mem_cons.1 hx with hxq | hxr
          · subst hxq
            exact lexLt_asymm hpq
          · have hqx : suffixLe text q x := h.1 x hxr
            unfold suffixLe at hqx ⊢
            by_cases hcon : lexLt (suffix text x) (suffix text p) = true
            · have := lexLt_trans hcon hpq
              rw [this] at hqx
              simp at hqx
            · simpa using hcon
        · rw [List.pairwise_cons]
          exact h
      · rename_i hpq
        rw [List.pairwise_cons]
        constructor
        · intro x hx
          have hmem := (saInsert_perm text p rest).mem_iff.1 hx
          rcases List.mem_cons.1 hmem with hxp | hxr
          · subst hxp
            unfold suffixLe
            simpa using hpq
          · exact h.1 x hxr
        · exact ih h.2

theorem saSort_pairwise (text : List Nat) (l : List Nat) :
    (saSort text l).Pairwise (suffixLe text) := by
  induction l with
  | nil => simp [saSort]
  | cons p rest ih => exact saInsert_pairwise text p _ ih

theorem suffixArray_perm (text : List Nat) :
    (suffixArray text).Perm (List.range (text.length + 1)) :=
  saSort_perm text _

theorem suffixArray_length (text : List Nat) :
    (suffixArray text).length = text.length + 1 := by
  rw [(suffixArray_perm text).length_eq, List.length_range]

theorem suffixArray_nodup (text : List Nat) : (suffixArray text).Nodup :=
  (suffixArray_perm text).nodup_iff.2 (List.nodup_range _)

theorem suffixArray_mem (text : List Nat) (p : Nat) :
    p ∈ suffixArray text ↔ p < text.length + 1 := by
  rw [(suffixArray_perm text).mem_iff, List.mem_range]

theorem suffixArray_pairwise (text : List Nat) :
    (suffixArray text).Pairwise (suffixLe text) :=
  saSort_pairwise text _

theorem suffix_length (text : List Nat) (q : Nat) (hq : q ≤ text.length) :
    (suffix text q).length = text.length - q + 1 := by
  simp [suffix, mapped]

theorem suffix_inj (text : List Nat) (p q : Nat) (hp : p ≤ text.length)
    (hq : q ≤ text.length) (h : suffix text p = suffix text q) : p = q := by
  have := congrArg List.length h
  rw [suffix_length text p hp, suffix_length text q hq] at this
  omega

theorem suffixArray_pairwise_lt (text : List Nat) :
    (suffixArray text).Pairwise (suffixLt text) := by
  have h1 := suffixArray_pairwise text
  have h2 : (suffixArray text).Pairwise (fun a b => a ≠ b) := suffixArray_nodup text
  refine (h1.and h2).imp_of_mem ?_
  intro a b ha hb hab
  have haM : a < text.length + 1 := (suffixArray_mem text a).1 ha
  have hbM : b < text.length + 1 := (suffixArray_mem text b).1 hb
  rcases lexLt_total (suffix text a) (suffix text b) with h | h | h
  · exact h
  · exact absurd (suffix_inj text a b (by omega) (by omega) h) hab.2
  · rw [hab.1] at h
    simp at h

/-- In a list strictly sorted by a Boolean relation, the number of elements
below the `k`-th equals `k`. -/
theorem count_lt_of_sorted (R : Nat → Nat → Bool)
    (hasymm : ∀ a b, R a b = true → R b a = false)
    (hirr : ∀ a, R a a = false) :
    ∀ (l : List Nat), l.Pairwise (fun a b => R a b = true) →
      ∀ (k : Nat) (hk : k < l.length),
        l.countP (fun q => R q (l.get ⟨k, hk⟩)) = k := by
  intro l
  induction l with
  | nil =>
      intro _ k hk
      simp at hk
  | cons a tl ih =>
      intro hpw k hk
      rw [List.pairwise_cons] at hpw
      cases k with
      | zero =>
          show (a :: tl).countP (fun q => R q a) = 0
          rw [List.countP_eq_zero]
          intro x hx
          rcases List.mem_cons.1 hx with hxa | hxt
          · subst hxa
            simp [hirr]
          · have := hpw.1 x hxt
            simp [hasymm a x this]
      | succ k2 =>
          have hk2 : k2 < tl.length := by simpa using hk
          have hget : (a :: tl).get ⟨k2 + 1, hk⟩ = tl.get ⟨k2, hk2⟩ := rfl
          rw [hget, List.countP_cons]
          have htlk : tl.get ⟨k2, hk2⟩ ∈ tl := List.get_mem tl k2 hk2
          have hRa : R a (tl.get ⟨k2, hk2⟩) = true := hpw.1 _ htlk
          rw [ih hpw.2 k2 hk2]
          simp only [List.get_eq_getElem] at hRa
          simp [hRa]

theorem saIdx_getD (text : List Nat) (k : Nat) (hk : k < text.length + 1) :
    saIdx text ((suffixArray text).getD k 0) = k := by
  have hk2 : k < (suffixArray text).length := by
    rw [suffixArray_length]
    exact hk
  have hgetD : (suffixArray text).getD k 0 = (suffixArray text).get ⟨k, hk2⟩ := by
    rw [List.getD_eq_getElem?_getD, List.getElem?_eq_getElem hk2]
    rfl
  rw [hgetD]
  unfold saIdx occLo
  rw [← (suffixArray_perm text).countP_eq]
  exact count_lt_of_sorted (fun a b => lexLt (suffix text a) (suffix text b))
    (fun a b h => lexLt_asymm h) (fun a => lexLt_irrefl _)
    _ (suffixArray_pairwise_lt text) k hk2

theorem getD_saIdx (text : List Nat) (p : Nat) (hp : p < text.length + 1) :
    (suffixArray text).getD (saIdx text p) 0 = p := by
  have hmem : p ∈ suffixArray text := (suffixArray_mem text p).2 hp
  rcases List.get_of_mem hmem with ⟨⟨k, hk⟩, hget⟩
  have hgetD : (suffixArray text).getD k 0 = p := by
    rw [List.getD_eq_getElem?_getD, List.getElem?_eq_getElem hk, ← hget]
    rfl
  have hkn : k < text.length + 1 := by
    rw [suffixArray_length] at hk
    exact hk
  have hidx := saIdx_getD text k hkn
  rw [hgetD] at hidx
  rw [hidx, hgetD]

/-- If every element satisfying `P1` satisfies `P2` and some element
satisfies `P2` but not `P1`, the `P1`-count is strictly below the
`P2`-count. -/
theorem countP_lt_of_strict (l : List Nat) (P1 P2 : Nat → Bool)
    (hsub : ∀ a ∈ l, P1 a = true → P2 a = true)
    (x : Nat) (hx : x ∈ l) (hx2 : P2 x = true) (hx1 : P1 x = false) :
    l.countP P1 < l.countP P2 := by
  induction l with
  | nil => simp at hx
  | cons a tl ih =>
      rw [List.countP_cons, List.countP_cons]
      rcases List.mem_cons.1 hx with hxa | hxt
      · subst hxa
        have hmono : tl.countP P1 ≤ tl.countP P2 :=
          List.countP_mono_left (fun y hy => hsub y (by simp [hy]))
        simp [hx1, hx2]
        omega
      · have hrec := ih (fun y hy h => hsub y (by simp [hy]) h) hxt
        have hhead : (if P1 a = true then 1 else 0) ≤ (if P2 a = true then 1 else 0) := by
          by_cases h : P1 a = true
          · simp [h, hsub a (by simp) h]
          · simp [h]
        omega

theorem saIdx_lt_occLo_iff (text pat : List Nat) (p : Nat)
    (hp : p < text.length + 1) :
    saIdx text p < occLo text pat ↔ lexLt (suffix text p) pat = true := by
  constructor
  · intro h
    by_contra hcon
    have hmono : occLo text pat ≤ saIdx text p := by
      unfold saIdx occLo
      apply List.countP_mono_left
      intro q hq hql
      show lexLt (suffix text q) (suffix text p) = true
      rcases lexLt_total (suffix text q) (suffix text p) with h1 | h1 | h1
      · exact h1
      · rw [h1] at hql
        exact absurd hql hcon
      · exact absurd (lexLt_trans h1 hql) hcon
    omega
  · intro h
    unfold saIdx occLo
    apply countP_lt_of_strict _ _ _ ?_ p (List.mem_range.2 hp)
    · exact h
    · exact lexLt_irrefl _
    · intro q hq hql
      exact lexLt_trans hql h

theorem suffix_symbols_lt (sigma : Nat) (text : List Nat)
    (hT : ∀ x ∈ text, x < sigma) (q : Nat) :
    ∀ x ∈ suffix text q, x < sigma + 1 := by
  intro x hx
  rcases List.mem_append.1 hx with hx1 | hx2
  · have hx3 : x ∈ mapped text := List.mem_of_mem_drop hx1
    rcases List.mem_map.1 hx3 with ⟨y, hy, hxy⟩
    have := hT y hy
    omega
  · simp at hx2
    omega

theorem prefix_iff_row (sigma : Nat) (text pat : List Nat)
    (hT : ∀ x ∈ text, x < sigma) (p : Nat) (hp : p < text.length + 1) :
    pat <+: suffix text p ↔
      (occLo text pat ≤ saIdx text p ∧ saIdx text p < occHi sigma text pat) := by
  unfold occHi
  rw [prefix_iff_between pat (suffix text p) (sigma + 1)
    (suffix_symbols_lt sigma text hT p)]
  constructor
  · intro ⟨h1, h2⟩
    constructor
    · by_contra hcon
      push_neg at hcon
      have := (saIdx_lt_occLo_iff text pat p hp).1 hcon
      rw [h1] at this
      simp at this
    · exact (saIdx_lt_occLo_iff text (pat ++ [sigma + 1]) p hp).2 h2
  · intro ⟨h1, h2⟩
    constructor
    · by_cases hcon : lexLt (suffix text p) pat = true
      · have := (saIdx_lt_occLo_iff text pat p hp).2 hcon
        omega
      · simpa using hcon
    · exact (saIdx_lt_occLo_iff text (pat ++ [sigma + 1]) p hp).1 h2

/-- Splitting a count along a disjoint disjunction of predicates. -/
theorem countP_split_disj (l : List Nat) (P Q R : Nat → Bool)
    (h : ∀ a ∈ l, (P a = true ↔ (Q a = true ∨ R a = true)) ∧
      ¬(Q a = true ∧ R a = true)) :
    l.countP P = l.countP Q + l.countP R := by
  induction l with
  | nil => simp
  | cons a tl ih =>
      rw [List.countP_cons, List.countP_cons, List.countP_cons]
      have htl := ih (fun x hx => h x (by simp [hx]))
      have hh := h a (by simp)
      have key : (if P a = true then 1 else 0) =
          (if Q a = true then 1 else 0) + (if R a = true then 1 else 0) := by
        by_cases hq : Q a = true
        · by_cases hr : R a = true
          · exact absurd ⟨hq, hr⟩ hh.2
          · have hp : P a = true := hh.1.2 (Or.inl hq)
            simp [hp, hq, hr]
        · by_cases hr : R a = true
          · have hp : P a = true := hh.1.2 (Or.inr hr)
            simp [hp, hq, hr]
          · have hp : P a = false := by
              rcases Bool.eq_false_or_eq_true (P a) with h0 | h0
              · rcases hh.1.1 h0 with h1 | h1
                · exact absurd h1 hq
                · exact absurd h1 hr
              · exact h0
            simp [hp, hq, hr]
      omega

/-- The width of a pattern's suffix-array interval counts the suffixes it
prefixes. -/
theorem occHi_eq_occLo_add (sigma : Nat) (text pat : List Nat)
    (hT : ∀ x ∈ text, x < sigma) :
    occHi sigma text pat = occLo text pat +
      (List.range (text.length + 1)).countP
        (fun q => decide (pat <+: suffix text q)) := by
  unfold occHi occLo
  apply countP_split_disj
  intro q hq
  have hiff := prefix_iff_between pat (suffix text q) (sigma + 1)
    (suffix_symbols_lt sigma text hT q)
  constructor
  · constructor
    · intro h
      by_cases hlt : lexLt (suffix text q) pat = true
      · exact Or.inl hlt
      · right
        rw [decide_eq_true_iff]
        exact hiff.2 ⟨by simpa using hlt, h⟩
    · intro h
      rcases h with h | h
      · exact lexLt_of_lexLt_append _ h
      · rw [decide_eq_true_iff] at h
        exact (hiff.1 h).2
  · rintro ⟨h1, h2⟩
    rw [decide_eq_true_iff] at h2
    have := (hiff.1 h2).1
    rw [this] at h1
    simp at h1

/-! ## Counting transfer helpers -/
/-- Any length is at most 64 times its 64-word ceiling. -/
theorem le_64_ceil (n : Nat) : n ≤ 64 * ((n + 63) / 64) := by
  have h1 := Nat.div_add_mod (n + 63) 64
  have h2 : (n + 63) % 64 < 64 := Nat.mod_lt _ (by norm_num)
  omega

/-- Restricting a count over a long range to an initial segment. -/
theorem countP_range_restrict (P : Nat → Bool) (i m : Nat) (him : i ≤ m) :
    (List.range m).countP (fun j => P j && decide (j < i))
      = (List.range i).countP P := by
  have hm : m = i + (m - i) := by omega
  rw [hm, List.range_add, List.countP_append]
  have h1 : (List.range i).countP (fun j => P j && decide (j < i))
      = (List.range i).countP P := by
    apply List.countP_congr
    intro j hj
    rw [List.mem_range] at hj
    simp [hj]
  have h2 : ((List.range (m - i)).map (fun x => i + x)).countP
      (fun j => P j && decide (j < i)) = 0 := by
    rw [List.countP_map]
    apply List.countP_eq_zero.2
    intro t ht
    simp only [Function.comp_apply, Bool.and_eq_true, decide_eq_true_eq, not_and]
    intro _
    omega
  omega

/-- Counting positions of a list by a predicate on the read values. -/
theorem countP_range_getD (l : List Nat) (P : Nat → Bool) :
    (List.range l.length).countP (fun j => P (l.getD j 0)) = l.countP P := by
  induction l with
  | nil => simp
  | cons a tl ih =>
      rw [List.length_cons, List.range_succ_eq_map, List.countP_cons, List.countP_map]
      have hcomp : ((fun j => P ((a :: tl).getD j 0)) ∘ Nat.succ)
          = (fun j => P (tl.getD j 0)) := by
        funext j
        simp [List.getD_cons_succ]
      rw [hcomp, ih]
      simp [List.countP_cons, List.getD_cons_zero]

/-- The prefix variant of `countP_range_getD`. -/
theorem countP_range_take (l : List Nat) (P : Nat → Bool) :
    ∀ (i : Nat), i ≤ l.length →
      (List.range i).countP (fun j => P (l.getD j 0)) = (l.take i).countP P := by
  intro i
  induction i with
  | zero => simp
  | succ i2 ih =>
      intro hi
      rw [List.range_succ, List.countP_append, ih (by omega), List.take_succ,
        List.countP_append]
      congr 1
      have hi2 : i2 < l.length := by omega
      rw [List.getElem?_eq_getElem hi2]
      simp [List.countP_cons, List.getD_eq_getElem?_getD, List.getElem?_eq_getElem hi2]

/-- Splitting a count over `range (m + 1)` into the head and the shifted
tail. -/
theorem countP_range_succ_shift (P : Nat → Bool) (m : Nat) :
    (List.range (m + 1)).countP P
      = (if P 0 then 1 else 0) + (List.range m).countP (fun t => P (t + 1)) := by
  rw [List.range_succ_eq_map, List.countP_cons, List.countP_map]
  have hcomp : (P ∘ Nat.succ) = (fun t => P (t + 1)) := rfl
  rw [hcomp]
  omega

/-- Reading a filtered list at the count of earlier hits recovers the
original element. -/
theorem filter_getD_countP (P : Nat → Bool) (sa : List Nat) :
    ∀ (i : Nat), i < sa.length → P (sa.getD i 0) = true →
      (sa.filter P).getD ((sa.take i).countP P) 0 = sa.getD i 0 := by
  induction sa with
  | nil =>
      intro i hi
      simp at hi
  | cons v rest ih =>
      intro i hi hP
      cases i with
      | zero =>
          rw [List.getD_cons_zero] at hP ⊢
          simp [List.filter_cons, hP]
      | succ i2 =>
          rw [List.getD_cons_succ] at hP ⊢
          have hi2 : i2 < rest.length := by simpa using hi
          rw [List.take_succ_cons, List.countP_cons]
          by_cases hv : P v = true
          · rw [List.filter_cons_of_pos hv]
            rw [show (rest.take i2).countP P + (if P v then 1 else 0)
              = (rest.take i2).countP P + 1 by simp [hv]]
            rw [List.getD_cons_succ]
            exact ih i2 hi2 hP
          · rw [List.filter_cons_of_neg (by simpa using hv)]
            rw [show (rest.take i2).countP P + (if P v then 1 else 0)
              = (rest.take i2).countP P by simp [hv]]
            exact ih i2 hi2 hP

namespace SparseSuffixArray

theorem fromSaGo_words_length (f : Nat) (sa : List Nat) :
    ∀ (i0 : Nat) (bv : Bitvec) (acc : List Nat),
      (fromSaGo f sa i0 bv acc).1.words.length = bv.words.length := by
  induction sa with
  | nil =>
      intro i0 bv acc
      rfl
  | cons v rest ih =>
      intro i0 bv acc
      show (if v % f = 0 then fromSaGo f rest (i0 + 1) (bv.set i0 true) (acc ++ [v])
        else fromSaGo f rest (i0 + 1) bv acc).1.words.length = _
      split
      · rw [ih]
        exact Bitvec.set_words_length _ _ _
      · exact ih _ _ _

theorem fromSaGo_words_lt (f : Nat) (sa : List Nat) :
    ∀ (i0 : Nat) (bv : Bitvec) (acc : List Nat),
      (∀ x ∈ bv.words, x < 2 ^ 64) →
      ∀ x ∈ (fromSaGo f sa i0 bv acc).1.words, x < 2 ^ 64 := by
  induction sa with
  | nil =>
      intro i0 bv acc h
      exact h
  | cons v rest ih =>
      intro i0 bv acc h
      show ∀ x ∈ (if v % f = 0 then fromSaGo f rest (i0 + 1) (bv.set i0 true) (acc ++ [v])
        else fromSaGo f rest (i0 + 1) bv acc).1.words, x < 2 ^ 64
      split
      · exact ih _ _ _ (Bitvec.set_words_lt _ _ _ h)
      · exact ih _ _ _ h

theorem fromSaGo_counts (f : Nat) (sa : List Nat) :
    ∀ (i0 : Nat) (bv : Bitvec) (acc : List Nat),
      (fromSaGo f sa i0 bv acc).1.counts = bv.counts := by
  induction sa with
  | nil =>
      intro i0 bv acc
      rfl
  | cons v rest ih =>
      intro i0 bv acc
      show (if v % f = 0 then fromSaGo f rest (i0 + 1) (bv.set i0 true) (acc ++ [v])
        else fromSaGo f rest (i0 + 1) bv acc).1.counts = _
      split
      · rw [ih]
        exact Bitvec.set_counts _ _ _
      · exact ih _ _ _

theorem get_fromSaGo (f : Nat) (sa : List Nat) :
    ∀ (i0 : Nat) (bv : Bitvec) (acc : List Nat) (pos : Nat),
      pos / 64 < bv.words.length →
      (fromSaGo f sa i0 bv acc).1.get pos
        = (bv.get pos
            || decide (i0 ≤ pos ∧ pos < i0 + sa.length ∧ (sa.getD (pos - i0) 0) % f = 0)) := by
  induction sa with
  | nil =>
      intro i0 bv acc pos hw
      show bv.get pos = _
      simp
  | cons v rest ih =>
      intro i0 bv acc pos hw
      show (if v % f = 0 then fromSaGo f rest (i0 + 1) (bv.set i0 true) (acc ++ [v])
        else fromSaGo f rest (i0 + 1) bv acc).1.get pos = _
      by_cases hv : v % f = 0
      · rw [if_pos hv,
          ih (i0 + 1) _ _ pos (by rw [Bitvec.set_words_length]; exact hw)]
        by_cases hpi : pos = i0
        · subst hpi
          rw [Bitvec.get_set_self _ _ _ hw]
          have hRHS : decide (pos ≤ pos ∧ pos < pos + (v :: rest).length
              ∧ ((v :: rest).getD (pos - pos) 0) % f = 0) = true := by
            rw [decide_eq_true_iff]
            refine ⟨le_refl _, by rw [List.length_cons]; omega, ?_⟩
            rw [Nat.sub_self, List.getD_cons_zero]
            exact hv
          rw [hRHS]
          simp
        · rw [Bitvec.get_set_of_ne _ _ _ _ hpi]
          congr 1
          rw [decide_eq_decide]
          constructor
          · rintro ⟨h1, h2, h3⟩
            refine ⟨by omega, by rw [List.length_cons]; omega, ?_⟩
            rw [show pos - i0 = (pos - (i0 + 1)) + 1 by omega, List.getD_cons_succ]
            exact h3
          · rintro ⟨h1, h2, h3⟩
            rw [List.length_cons] at h2
            refine ⟨by omega, by omega, ?_⟩
            rw [show pos - i0 = (pos - (i0 + 1)) + 1 by omega, List.getD_cons_succ] at h3
            exact h3
      · rw [if_neg hv, ih (i0 + 1) bv acc pos hw]
        congr 1
        rw [decide_eq_decide]
        constructor
        · rintro ⟨h1, h2, h3⟩
          refine ⟨by omega, by rw [List.length_cons]; omega, ?_⟩
          rw [show pos - i0 = (pos - (i0 + 1)) + 1 by omega, List.getD_cons_succ]
          exact h3
        · rintro ⟨h1, h2, h3⟩
          rw [List.length_cons] at h2
          by_cases hpi : pos = i0
          · subst hpi
            rw [Nat.sub_self, List.getD_cons_zero] at h3
            exact absurd h3 hv
          · refine ⟨by omega, by omega, ?_⟩
            rw [show pos - i0 = (pos - (i0 + 1)) + 1 by omega, List.getD_cons_succ] at h3
            exact h3

theorem fromSaGo_list (f : Nat) (sa : List Nat) :
    ∀ (i0 : Nat) (bv : Bitvec) (acc : List Nat),
      (fromSaGo f sa i0 bv acc).2 = acc ++ sa.filter (fun v => decide (v % f = 0)) := by
  induction sa with
  | nil =>
      intro i0 bv acc
      show acc = acc ++ _
      simp
  | cons v rest ih =>
      intro i0 bv acc
      show (if v % f = 0 then fromSaGo f rest (i0 + 1) (bv.set i0 true) (acc ++ [v])
        else fromSaGo f rest (i0 + 1) bv acc).2 = _
      by_cases hv : v % f = 0
      · rw [if_pos hv, ih]
        simp [List.filter_cons, hv]
      · rw [if_neg hv, ih]
        simp [List.filter_cons, hv]

/-- `calculate_counts` does not change the words, hence not `get`. -/
theorem get_calculateCounts (bv : Bitvec) (pos : Nat) :
    bv.calculateCounts.get pos = bv.get pos := rfl

theorem fromSa_contains (sa : List Nat) (f : Nat) (i : Nat) (hi : i < sa.length) :
    (fromSa sa f).contains i = decide ((sa.getD i 0) % f = 0) := by
  show (fromSaGo f sa 0 (Bitvec.new sa.length) []).1.calculateCounts.get i = _
  rw [get_calculateCounts,
    get_fromSaGo f sa 0 _ _ i
      (by
        rw [Bitvec.new_words_length]
        have := le_64_ceil sa.length
        omega)]
  rw [Bitvec.get_new]
  simp only [Bool.false_or]
  rw [decide_eq_decide]
  constructor
  · rintro ⟨_, _, h3⟩
    simpa using h3
  · intro h
    exact ⟨by omega, by omega, by simpa using h⟩

theorem fromSa_rank (sa : List Nat) (f : Nat) (i : Nat) (hi : i ≤ sa.length)
    (hiw : i < 64 * ((sa.length + 63) / 64)) :
    (fromSa sa f).bitvector.rank i
      = (List.range i).countP (fun j => decide ((sa.getD j 0) % f = 0)) := by
  show (fromSaGo f sa 0 (Bitvec.new sa.length) []).1.calculateCounts.rank i = _
  have hlen : (fromSaGo f sa 0 (Bitvec.new sa.length) []).1.words.length
      = (sa.length + 63) / 64 := by
    rw [fromSaGo_words_length, Bitvec.new_words_length]
  rw [Bitvec.rank_eq_onesBelow _
    (fromSaGo_words_lt _ _ _ _ _ (Bitvec.new_words_lt _))
    (by
      intro j
      rw [fromSaGo_counts, Bitvec.new_counts_getD])
    (by
      intro S hS
      rw [fromSaGo_counts, Bitvec.new_counts_length]
      rw [hlen] at hS
      omega)
    i (by rw [hlen]; exact hiw)]
  unfold Bitvec.onesBelow
  refine List.countP_congr ?_
  intro j hj
  rw [List.mem_range] at hj
  rw [get_fromSaGo f sa 0 _ _ j
    (by
      rw [Bitvec.new_words_length]
      have := le_64_ceil sa.length
      omega)]
  rw [Bitvec.get_new]
  simp only [Bool.false_or]
  constructor
  · intro h
    rw [decide_eq_true_iff] at h ⊢
    simpa using h.2.2
  · intro h
    rw [decide_eq_true_iff] at h ⊢
    exact ⟨by omega, by omega, by simpa using h⟩

theorem fromSa_index (sa : List Nat) (f : Nat) (i : Nat) (hi : i < sa.length)
    (hset : (sa.getD i 0) % f = 0) :
    (fromSa sa f).index i = sa.getD i 0 := by
  unfold index
  rw [fromSa_rank sa f i (le_of_lt hi)
    (lt_of_lt_of_le hi (le_64_ceil sa.length))]
  have hcount : (List.range i).countP (fun j => decide ((sa.getD j 0) % f = 0))
      = (sa.take i).countP (fun v => decide (v % f = 0)) :=
    countP_range_take sa (fun v => decide (v % f = 0)) i (le_of_lt hi)
  rw [hcount]
  show ((fromSaGo f sa 0 (Bitvec.new sa.length) []).2).getD _ 0 = _
  rw [fromSaGo_list, List.nil_append]
  exact filter_getD_countP _ sa i hi (by simpa using hset)
end SparseSuffixArray

namespace FMIndex

theorem bwtFromSaGo_length (text : List Nat) (sa : List Nat) :
    ∀ (i0 : Nat) (bwt : List Nat) (sent : Nat),
      ((bwtFromSaGo text sa i0 bwt sent).1).length = bwt.length := by
  induction sa with
  | nil =>
      intro i0 bwt sent
      rfl
  | cons v rest ih =>
      intro i0 bwt sent
      show ((if v = 0 then bwtFromSaGo text rest (i0 + 1) (bwt.set i0 0) i0
        else bwtFromSaGo text rest (i0 + 1) (bwt.set i0 (text.getD (v - 1) 0)) sent).1).length
        = _
      split
      · rw [ih]
        exact List.length_set _ _ _
      · rw [ih]
        exact List.length_set _ _ _

theorem bwtFromSaGo_getD (text : List Nat) (sa : List Nat) :
    ∀ (i0 : Nat) (bwt : List Nat) (sent : Nat) (k : Nat), k < bwt.length →
      ((bwtFromSaGo text sa i0 bwt sent).1).getD k 0
        = if i0 ≤ k ∧ k < i0 + sa.length then
            (if sa.getD (k - i0) 0 = 0 then 0 else text.getD (sa.getD (k - i0) 0 - 1) 0)
          else bwt.getD k 0 := by
  induction sa with
  | nil =>
      intro i0 bwt sent k hk
      show bwt.getD k 0 = _
      rw [if_neg (by simp)]
  | cons v rest ih =>
      intro i0 bwt sent k hk
      show ((if v = 0 then bwtFromSaGo text rest (i0 + 1) (bwt.set i0 0) i0
        else bwtFromSaGo text rest (i0 + 1) (bwt.set i0 (text.getD (v - 1) 0)) sent).1).getD
          k 0 = _
      by_cases hv : v = 0
      · rw [if_pos hv,
          ih (i0 + 1) _ i0 k (by rw [List.length_set]; exact hk)]
        by_cases hki : k = i0
        · subst hki
          rw [if_neg (by omega), getD_set_self _ _ _ hk,
            if_pos (⟨le_refl k, by rw [List.length_cons]; omega⟩ :
              k ≤ k ∧ k < k + (v :: rest).length)]
          rw [Nat.sub_self, List.getD_cons_zero, if_pos hv]
        · rw [getD_set_ne _ _ (Ne.symm hki)]
          by_cases hcond : i0 + 1 ≤ k ∧ k < i0 + 1 + rest.length
          · rw [if_pos hcond,
              if_pos (by rw [List.length_cons]; omega :
                i0 ≤ k ∧ k < i0 + (v :: rest).length)]
            rw [show k - i0 = (k - (i0 + 1)) + 1 by omega, List.getD_cons_succ]
          · rw [if_neg hcond,
              if_neg (by
                simp only [List.length_cons]
                intro hcon
                exact hcond (by omega))]
      · rw [if_neg hv,
          ih (i0 + 1) _ sent k (by rw [List.length_set]; exact hk)]
        by_cases hki : k = i0
        · subst hki
          rw [if_neg (by omega), getD_set_self _ _ _ hk,
            if_pos (⟨le_refl k, by rw [List.length_cons]; omega⟩ :
              k ≤ k ∧ k < k + (v :: rest).length)]
          rw [Nat.sub_self, List.getD_cons_zero, if_neg hv]
        · rw [getD_set_ne _ _ (Ne.symm hki)]
          by_cases hcond : i0 + 1 ≤ k ∧ k < i0 + 1 + rest.length
          · rw [if_pos hcond,
              if_pos (by rw [List.length_cons]; omega :
                i0 ≤ k ∧ k < i0 + (v :: rest).length)]
            rw [show k - i0 = (k - (i0 + 1)) + 1 by omega, List.getD_cons_succ]
          · rw [if_neg hcond,
              if_neg (by
                simp only [List.length_cons]
                intro hcon
                exact hcond (by omega))]

theorem bwtFromSaGo_sentinel_of_ne (text : List Nat) (sa : List Nat) :
    ∀ (i0 : Nat) (bwt : List Nat) (sent : Nat), (∀ v ∈ sa, v ≠ 0) →
      (bwtFromSaGo text sa i0 bwt sent).2 = sent := by
  induction sa with
  | nil =>
      intro i0 bwt sent _
      rfl
  | cons v rest ih =>
      intro i0 bwt sent h
      have hv : v ≠ 0 := h v (by simp)
      show ((if v = 0 then bwtFromSaGo text rest (i0 + 1) (bwt.set i0 0) i0
        else bwtFromSaGo text rest (i0 + 1) (bwt.set i0 (text.getD (v - 1) 0)) sent).2) = _
      rw [if_neg hv]
      exact ih _ _ _ (fun x hx => h x (by simp [hx]))

theorem bwtFromSaGo_sentinel (text : List Nat) (sa : List Nat) :
    ∀ (i0 : Nat) (bwt : List Nat) (sent : Nat) (k : Nat), k < sa.length →
      sa.getD k 0 = 0 → (∀ j, j < sa.length → sa.getD j 0 = 0 → j = k) →
      (bwtFromSaGo text sa i0 bwt sent).2 = i0 + k := by
  induction sa with
  | nil =>
      intro i0 bwt sent k hk
      simp at hk
  | cons v rest ih =>
      intro i0 bwt sent k hk hzk huniq
      show ((if v = 0 then bwtFromSaGo text rest (i0 + 1) (bwt.set i0 0) i0
        else bwtFromSaGo text rest (i0 + 1) (bwt.set i0 (text.getD (v - 1) 0)) sent).2) = _
      by_cases hv : v = 0
      · have hk0 : k = 0 :=
          (huniq 0 (by rw [List.length_cons]; omega) (by simpa using hv)).symm
        subst hk0
        rw [if_pos hv, bwtFromSaGo_sentinel_of_ne text rest _ _ _ ?_]
        · omega
        · intro x hx hx0
          rcases List.getElem_of_mem hx with ⟨j, hj, hget⟩
          have hzj : (v :: rest).getD (j + 1) 0 = 0 := by
            rw [List.getD_cons_succ, List.getD_eq_getElem?_getD,
              List.getElem?_eq_getElem hj, hget, hx0]
            rfl
          have := huniq (j + 1) (by rw [List.length_cons]; omega) hzj
          omega
      · rw [if_neg hv]
        cases k with
        | zero =>
            rw [List.getD_cons_zero] at hzk
            exact absurd hzk hv
        | succ k2 =>
            rw [List.getD_cons_succ] at hzk
            have hrec := ih (i0 + 1) (bwt.set i0 (text.getD (v - 1) 0)) sent k2
              (by rw [List.length_cons] at hk; omega) hzk ?_
            · rw [hrec]
              omega
            · intro j hj hzj
              have := huniq (j + 1) (by rw [List.length_cons]; omega)
                (by rw [List.getD_cons_succ]; exact hzj)
              omega
end FMIndex

/-- A suffix-array row index is itself a valid row. -/
theorem saIdx_lt (text : List Nat) (p : Nat) (hp : p < text.length + 1) :
    saIdx text p < text.length + 1 := by
  unfold saIdx occLo
  have h1 := countP_lt_of_strict (List.range (text.length + 1))
    (fun q => lexLt (suffix text q) (suffix text p)) (fun _ => true)
    (fun a _ _ => rfl) p (List.mem_range.2 hp) rfl (lexLt_irrefl _)
  have h2 : (List.range (text.length + 1)).countP (fun _ => true)
      = text.length + 1 := by
    rw [List.countP_true, List.length_range]
  omega

/-- Suffix-array entries are valid positions. -/
theorem suffixArray_getD_lt (text : List Nat) (k : Nat) (hk : k < text.length + 1) :
    (suffixArray text).getD k 0 < text.length + 1 := by
  have hk2 : k < (suffixArray text).length := by
    rw [suffixArray_length]
    exact hk
  have hmem := List.get_mem (suffixArray text) k hk2
  have hlt := (suffixArray_mem text _).1 hmem
  rw [List.getD_eq_getElem?_getD, List.getElem?_eq_getElem hk2]
  simpa [List.get_eq_getElem] using hlt

namespace FMIndex

theorem bwt_built_length (text : List Nat) :
    ((bwtFromSa (suffixArray text) text).1).length = text.length + 1 := by
  unfold bwtFromSa
  rw [bwtFromSaGo_length]
  exact List.length_replicate _ _

theorem bwt_built_getD (text : List Nat) (k : Nat) (hk : k < text.length + 1) :
    ((bwtFromSa (suffixArray text) text).1).getD k 0
      = (if (suffixArray text).getD k 0 = 0 then 0
         else text.getD ((suffixArray text).getD k 0 - 1) 0) := by
  unfold bwtFromSa
  rw [bwtFromSaGo_getD _ _ 0 _ 0 k (by rw [List.length_replicate]; exact hk)]
  rw [if_pos (⟨Nat.zero_le k, by rw [suffixArray_length]; omega⟩ :
    0 ≤ k ∧ k < 0 + (suffixArray text).length)]
  rw [Nat.sub_zero]

theorem sentinel_built (text : List Nat) :
    (bwtFromSa (suffixArray text) text).2 = saIdx text 0 := by
  unfold bwtFromSa
  have hs : saIdx text 0 < text.length + 1 := saIdx_lt text 0 (by omega)
  have hz : (suffixArray text).getD (saIdx text 0) 0 = 0 :=
    getD_saIdx text 0 (by omega)
  have huniq : ∀ j, j < (suffixArray text).length →
      (suffixArray text).getD j 0 = 0 → j = saIdx text 0 := by
    intro j hj hzj
    have h2 : saIdx text ((suffixArray text).getD j 0) = j :=
      saIdx_getD text j (by rw [suffixArray_length] at hj; exact hj)
    rw [hzj] at h2
    exact h2.symm
  rw [bwtFromSaGo_sentinel _ _ 0 _ 0 (saIdx text 0)
    (by rw [suffixArray_length]; exact hs) hz huniq]
  omega

theorem sentinel_iff (text : List Nat) (k : Nat) (hk : k < text.length + 1) :
    (k = (bwtFromSa (suffixArray text) text).2
      ↔ (suffixArray text).getD k 0 = 0) := by
  rw [sentinel_built]
  constructor
  · intro h
    rw [h]
    exact getD_saIdx text 0 (by omega)
  · intro h
    have h2 := saIdx_getD text k hk
    rw [h] at h2
    exact h2.symm

theorem freqGo_length (bwt : List Nat) :
    ∀ (i0 s : Nat) (counts : List Nat),
      (freqGo bwt i0 s counts).length = counts.length := by
  induction bwt with
  | nil =>
      intro i0 s counts
      rfl
  | cons ch rest ih =>
      intro i0 s counts
      show (freqGo rest (i0 + 1) s
        (if i0 = s then counts else counts.set ch (counts.getD ch 0 + 1))).length = _
      rw [ih]
      split
      · rfl
      · exact List.length_set _ _ _

theorem freqGo_getD (bwt : List Nat) :
    ∀ (i0 s : Nat) (counts : List Nat) (c : Nat), c < counts.length →
      (∀ x ∈ bwt, x < counts.length) →
      (freqGo bwt i0 s counts).getD c 0
        = counts.getD c 0 + (List.range bwt.length).countP
            (fun t => decide (i0 + t ≠ s ∧ bwt.getD t 0 = c)) := by
  induction bwt with
  | nil =>
      intro i0 s counts c hc hbwt
      simp [freqGo]
  | cons ch rest ih =>
      intro i0 s counts c hc hbwt
      show (freqGo rest (i0 + 1) s
        (if i0 = s then counts else counts.set ch (counts.getD ch 0 + 1))).getD c 0 = _
      have hch : ch < counts.length := hbwt ch (by simp)
      have hrest : ∀ x ∈ rest, x < counts.length := fun x hx => hbwt x (by simp [hx])
      have hshift : (List.range rest.length).countP
            (fun t => decide (i0 + (t + 1) ≠ s ∧ rest.getD t 0 = c))
          = (List.range rest.length).countP
            (fun t => decide ((i0 + 1) + t ≠ s ∧ rest.getD t 0 = c)) := by
        apply List.countP_congr
        intro t _
        constructor
        · intro h
          rw [decide_eq_true_iff] at h ⊢
          exact ⟨by omega, h.2⟩
        · intro h
          rw [decide_eq_true_iff] at h ⊢
          exact ⟨by omega, h.2⟩
      have hcount : (List.range (ch :: rest).length).countP
            (fun t => decide (i0 + t ≠ s ∧ (ch :: rest).getD t 0 = c))
          = (if i0 ≠ s ∧ ch = c then 1 else 0)
            + (List.range rest.length).countP
                (fun t => decide ((i0 + 1) + t ≠ s ∧ rest.getD t 0 = c)) := by
        rw [List.length_cons, countP_range_succ_shift]
        have hhead : (decide (i0 + 0 ≠ s ∧ (ch :: rest).getD 0 0 = c))
            = decide (i0 ≠ s ∧ ch = c) := by
          rw [decide_eq_decide]
          rw [List.getD_cons_zero]
          constructor
          · intro h
            exact ⟨by omega, h.2⟩
          · intro h
            exact ⟨by omega, h.2⟩
        have htail : (List.range rest.length).countP
              (fun t => decide (i0 + (t + 1) ≠ s ∧ (ch :: rest).getD (t + 1) 0 = c))
            = (List.range rest.length).countP
              (fun t => decide ((i0 + 1) + t ≠ s ∧ rest.getD t 0 = c)) := by
          rw [← hshift]
          apply List.countP_congr
          intro t _
          rw [List.getD_cons_succ]
        rw [hhead, htail]
        by_cases hP : i0 ≠ s ∧ ch = c
        · rw [if_pos (decide_eq_true hP), if_pos hP]
        · rw [if_neg (by simpa using hP), if_neg hP]
      by_cases hs : i0 = s
      · rw [if_pos hs, ih (i0 + 1) s counts c hc hrest, hcount,
          if_neg (by
            intro hcon
            exact hcon.1 hs)]
        omega
      · rw [if_neg hs,
          ih (i0 + 1) s _ c (by rw [List.length_set]; exact hc)
            (fun x hx => by rw [List.length_set]; exact hrest x hx),
          hcount]
        by_cases hcc : ch = c
        · subst hcc
          rw [getD_set_self _ _ _ hch, if_pos ⟨hs, rfl⟩]
          omega
        · rw [getD_set_ne _ _ hcc, if_neg (by
            intro hcon
            exact hcc hcon.2)]
          omega

theorem cumGo_getD_low (steps : Nat) :
    ∀ (i0 s1 : Nat) (counts : List Nat) (j : Nat), j < i0 →
      (cumGo steps i0 s1 counts).getD j 0 = counts.getD j 0 := by
  induction steps with
  | zero =>
      intro i0 s1 counts j _
      rfl
  | succ m ih =>
      intro i0 s1 counts j hj
      show (cumGo m (i0 + 1) (s1 + counts.getD i0 0) (counts.set i0 s1)).getD j 0 = _
      rw [ih (i0 + 1) _ _ j (by omega), getD_set_ne _ _ (by omega)]

theorem cumGo_getD (steps : Nat) :
    ∀ (i0 s1 : Nat) (counts : List Nat) (c : Nat), i0 ≤ c → c < i0 + steps →
      c < counts.length →
      (cumGo steps i0 s1 counts).getD c 0
        = s1 + ∑ j ∈ Finset.range (c - i0), counts.getD (i0 + j) 0 := by
  induction steps with
  | zero =>
      intro i0 s1 counts c h1 h2 _
      exact absurd h2 (by omega)
  | succ m ih =>
      intro i0 s1 counts c h1 h2 hlen
      show (cumGo m (i0 + 1) (s1 + counts.getD i0 0) (counts.set i0 s1)).getD c 0 = _
      by_cases hci : c = i0
      · subst hci
        rw [cumGo_getD_low m (c + 1) _ _ c (by omega), getD_set_self _ _ _ hlen]
        simp
      · have hrec := ih (i0 + 1) (s1 + counts.getD i0 0) (counts.set i0 s1) c
          (by omega) (by omega) (by rw [List.length_set]; exact hlen)
        rw [hrec]
        have hset : ∀ j ∈ Finset.range (c - (i0 + 1)),
            (counts.set i0 s1).getD (i0 + 1 + j) 0 = counts.getD (i0 + 1 + j) 0 :=
          fun j _ => getD_set_ne _ _ (by omega)
        rw [Finset.sum_congr rfl hset]
        have hsplit : ∑ j ∈ Finset.range (c - i0), counts.getD (i0 + j) 0
            = counts.getD i0 0 + ∑ j ∈ Finset.range (c - (i0 + 1)),
                counts.getD (i0 + 1 + j) 0 := by
          rw [show c - i0 = (c - (i0 + 1)) + 1 by omega, Finset.sum_range_succ']
          have harg : ∀ j ∈ Finset.range (c - (i0 + 1)),
              counts.getD (i0 + (j + 1)) 0 = counts.getD (i0 + 1 + j) 0 :=
            fun j _ => by rw [show i0 + (j + 1) = i0 + 1 + j by omega]
          rw [Finset.sum_congr rfl harg]
          simp only [Nat.add_zero]
          omega
        rw [hsplit]
        omega
end FMIndex

theorem getD_replicate_zero (n j : Nat) : (List.replicate n (0 : Nat)).getD j 0 = 0 := by
  rw [List.getD_eq_getElem?_getD, List.getElem?_replicate]
  split <;> rfl

/-- Summing per-symbol counts below a threshold gives the below-threshold
count. -/
theorem sum_countP_eq_lt (l : List Nat) (s : Nat) (g : Nat → Nat) (c : Nat) :
    ∑ j ∈ Finset.range c, l.countP (fun t => decide (t ≠ s ∧ g t = j))
      = l.countP (fun t => decide (t ≠ s ∧ g t < c)) := by
  induction c with
  | zero => simp
  | succ c2 ih =>
      rw [Finset.sum_range_succ, ih]
      exact (countP_split_disj l _ _ _ (by
        intro a _
        constructor
        · constructor
          · intro h
            rw [decide_eq_true_iff] at h
            by_cases hg : g a < c2
            · exact Or.inl (by rw [decide_eq_true_iff]; exact ⟨h.1, hg⟩)
            · exact Or.inr (by rw [decide_eq_true_iff]; exact ⟨h.1, by omega⟩)
          · intro h
            rcases h with h | h <;> rw [decide_eq_true_iff] at h ⊢
            · exact ⟨h.1, by omega⟩
            · exact ⟨h.1, by omega⟩
        · rintro ⟨h1, h2⟩
          rw [decide_eq_true_iff] at h1 h2
          omega)).symm

namespace FMIndex

theorem bwt_built_lt (sigma : Nat) (text : List Nat)
    (htext : ∀ x ∈ text, x < sigma) (hsig : 0 < sigma) :
    ∀ x ∈ (bwtFromSa (suffixArray text) text).1, x < sigma := by
  intro x hx
  rcases List.getElem_of_mem hx with ⟨k, hk, hget⟩
  have hk2 : k < text.length + 1 := by
    rw [bwt_built_length] at hk
    exact hk
  have hgd : ((bwtFromSa (suffixArray text) text).1).getD k 0 = x := by
    rw [List.getD_eq_getElem?_getD, List.getElem?_eq_getElem hk, hget]
    rfl
  rw [bwt_built_getD text k hk2] at hgd
  by_cases hz : (suffixArray text).getD k 0 = 0
  · rw [if_pos hz] at hgd
    omega
  · rw [if_neg hz] at hgd
    have hv := suffixArray_getD_lt text k hk2
    have hvin : (suffixArray text).getD k 0 - 1 < text.length := by omega
    have hmem : text.getD ((suffixArray text).getD k 0 - 1) 0 ∈ text := by
      rw [List.getD_eq_getElem?_getD, List.getElem?_eq_getElem hvin]
      exact List.get_mem text _ hvin
    have := htext _ hmem
    omega

/-- Counting BWT rows by a symbol predicate (off the sentinel row) counts
text positions by the same predicate. -/
theorem bwt_text_transfer (text : List Nat) (P : Nat → Bool) :
    (List.range (text.length + 1)).countP
        (fun t => decide (t ≠ (bwtFromSa (suffixArray text) text).2
          ∧ P (((bwtFromSa (suffixArray text) text).1).getD t 0)))
      = text.countP P := by
  have h1 : (List.range (text.length + 1)).countP
        (fun t => decide (t ≠ (bwtFromSa (suffixArray text) text).2
          ∧ P (((bwtFromSa (suffixArray text) text).1).getD t 0)))
      = (List.range (text.length + 1)).countP
        (fun t => decide ((suffixArray text).getD t 0 ≠ 0
          ∧ P (text.getD ((suffixArray text).getD t 0 - 1) 0))) := by
    apply List.countP_congr
    intro t ht
    rw [List.mem_range] at ht
    simp only [decide_eq_true_iff]
    constructor
    · rintro ⟨hts, hP⟩
      have hz : (suffixArray text).getD t 0 ≠ 0 := by
        intro hcon
        exact hts ((sentinel_iff text t ht).2 hcon)
      refine ⟨hz, ?_⟩
      rw [bwt_built_getD text t ht, if_neg hz] at hP
      exact hP
    · rintro ⟨hz, hP⟩
      refine ⟨?_, ?_⟩
      · intro hcon
        exact hz ((sentinel_iff text t ht).1 hcon)
      · rw [bwt_built_getD text t ht, if_neg hz]
        exact hP
  rw [h1]
  have h2 : (List.range (text.length + 1)).countP
        (fun t => decide ((suffixArray text).getD t 0 ≠ 0
          ∧ P (text.getD ((suffixArray text).getD t 0 - 1) 0)))
      = (suffixArray text).countP
        (fun v => decide (v ≠ 0 ∧ P (text.getD (v - 1) 0))) := by
    rw [← countP_range_getD (suffixArray text)
      (fun v => decide (v ≠ 0 ∧ P (text.getD (v - 1) 0))), suffixArray_length]
  rw [h2, (suffixArray_perm text).countP_eq, countP_range_succ_shift]
  have hhead : (decide ((0 : Nat) ≠ 0 ∧ P (List.getD text (0 - 1) 0))) = false := by
    simp
  rw [hhead]
  have htail : (List.range text.length).countP
        (fun q => decide (q + 1 ≠ 0 ∧ P (text.getD (q + 1 - 1) 0)))
      = (List.range text.length).countP (fun q => P (text.getD q 0)) := by
    apply List.countP_congr
    intro q _
    constructor
    · intro h
      rw [decide_eq_true_iff] at h
      simpa using h.2
    · intro h
      rw [decide_eq_true_iff]
      exact ⟨by omega, by simpa using h⟩
  rw [htail, countP_range_getD]
  simp

theorem counts_built (sigma : Nat) (text : List Nat) (f : Nat)
    (htext : ∀ x ∈ text, x < sigma) (c : Nat) (hc : c < sigma) :
    (FMIndex.new sigma text f).counts.getD c 0
      = 1 + (List.range text.length).countP (fun q => decide (text.getD q 0 < c)) := by
  show (initializeCounts sigma (bwtFromSa (suffixArray text) text).1
      (bwtFromSa (suffixArray text) text).2).getD c 0 = _
  unfold initializeCounts
  have hfreqlen : (freqGo (bwtFromSa (suffixArray text) text).1 0
      (bwtFromSa (suffixArray text) text).2 (List.replicate sigma 0)).length = sigma := by
    rw [freqGo_length, List.length_replicate]
  rw [cumGo_getD sigma 0 1 _ c (by omega) (by omega) (by rw [hfreqlen]; exact hc)]
  have hlt : ∀ x ∈ (bwtFromSa (suffixArray text) text).1, x < sigma :=
    bwt_built_lt sigma text htext (by omega)
  have hterm : ∀ j ∈ Finset.range (c - 0),
      (freqGo (bwtFromSa (suffixArray text) text).1 0
        (bwtFromSa (suffixArray text) text).2 (List.replicate sigma 0)).getD (0 + j) 0
      = (List.range (text.length + 1)).countP
          (fun t => decide (t ≠ (bwtFromSa (suffixArray text) text).2
            ∧ ((bwtFromSa (suffixArray text) text).1).getD t 0 = j)) := by
    intro j hj
    rw [Finset.mem_range] at hj
    rw [freqGo_getD _ 0 _ _ (0 + j)
      (by rw [List.length_replicate]; omega)
      (by rw [List.length_replicate]; exact hlt),
      getD_replicate_zero, bwt_built_length]
    have hfix : (List.range (text.length + 1)).countP
          (fun t => decide (0 + t ≠ (bwtFromSa (suffixArray text) text).2
            ∧ ((bwtFromSa (suffixArray text) text).1).getD t 0 = 0 + j))
        = (List.range (text.length + 1)).countP
          (fun t => decide (t ≠ (bwtFromSa (suffixArray text) text).2
            ∧ ((bwtFromSa (suffixArray text) text).1).getD t 0 = j)) := by
      apply List.countP_congr
      intro t _
      simp only [decide_eq_true_iff]
      constructor
      · intro h
        exact ⟨by omega, by omega⟩
      · intro h
        exact ⟨by omega, by omega⟩
    rw [hfix]
    omega
  rw [Finset.sum_congr rfl hterm]
  simp only [Nat.sub_zero]
  rw [sum_countP_eq_lt (List.range (text.length + 1))
    (bwtFromSa (suffixArray text) text).2
    (fun t => ((bwtFromSa (suffixArray text) text).1).getD t 0) c]
  congr 1
  have h1 := bwt_text_transfer text (fun v => decide (v < c))
  rw [← countP_range_getD text (fun v => decide (v < c))] at h1
  refine Eq.trans ?_ h1
  apply List.countP_congr
  intro t _
  simp only [decide_eq_true_iff]

theorem occ_built (sigma : Nat) (text : List Nat) (f : Nat) (c : Nat)
    (hc : c < sigma) (i : Nat) (hi : i ≤ text.length + 1)
    (hiw : i < 64 * ((text.length + 1 + 63) / 64)) :
    (FMIndex.new sigma text f).occurenceTable.occ c i
      = (List.range i).countP
          (fun j => decide (j ≠ (bwtFromSa (suffixArray text) text).2
            ∧ ((bwtFromSa (suffixArray text) text).1).getD j 0 = c)) := by
  show (OccurenceTable.fromBwt sigma (bwtFromSa (suffixArray text) text).1
      (bwtFromSa (suffixArray text) text).2).occ c i = _
  rw [OccurenceTable.occ_fromBwt sigma _ _ c i hc
    (by rw [bwt_built_length]; exact hi)
    (by rw [bwt_built_length]; exact hiw)]

theorem occ_built_rows (sigma : Nat) (text : List Nat) (f : Nat) (c : Nat)
    (hc : c < sigma) (i : Nat) (hi : i ≤ text.length + 1)
    (hiw : i < 64 * ((text.length + 1 + 63) / 64)) :
    (FMIndex.new sigma text f).occurenceTable.occ c i
      = (List.range text.length).countP
          (fun q => decide (text.getD q 0 = c ∧ saIdx text (q + 1) < i)) := by
  rw [occ_built sigma text f c hc i hi hiw]
  rw [← countP_range_restrict
    (fun j => decide (j ≠ (bwtFromSa (suffixArray text) text).2
      ∧ ((bwtFromSa (suffixArray text) text).1).getD j 0 = c)) i (text.length + 1) hi]
  have h1 : (List.range (text.length + 1)).countP
        (fun t => decide (t ≠ (bwtFromSa (suffixArray text) text).2
          ∧ ((bwtFromSa (suffixArray text) text).1).getD t 0 = c) && decide (t < i))
      = (List.range (text.length + 1)).countP
        (fun t => decide ((suffixArray text).getD t 0 ≠ 0
          ∧ text.getD ((suffixArray text).getD t 0 - 1) 0 = c
          ∧ saIdx text ((suffixArray text).getD t 0) < i)) := by
    apply List.countP_congr
    intro t ht
    rw [List.mem_range] at ht
    simp only [Bool.and_eq_true, decide_eq_true_iff]
    constructor
    · rintro ⟨⟨hts, hbv⟩, hti⟩
      have hz : (suffixArray text).getD t 0 ≠ 0 := by
        intro hcon
        exact hts ((sentinel_iff text t ht).2 hcon)
      refine ⟨hz, ?_, ?_⟩
      · rw [bwt_built_getD text t ht, if_neg hz] at hbv
        exact hbv
      · rw [saIdx_getD text t ht]
        exact hti
    · rintro ⟨hz, hbv, hti⟩
      rw [saIdx_getD text t ht] at hti
      refine ⟨⟨?_, ?_⟩, hti⟩
      · intro hcon
        exact hz ((sentinel_iff text t ht).1 hcon)
      · rw [bwt_built_getD text t ht, if_neg hz]
        exact hbv
  rw [h1]
  have h2 : (List.range (text.length + 1)).countP
        (fun t => decide ((suffixArray text).getD t 0 ≠ 0
          ∧ text.getD ((suffixArray text).getD t 0 - 1) 0 = c
          ∧ saIdx text ((suffixArray text).getD t 0) < i))
      = (suffixArray text).countP
        (fun v => decide (v ≠ 0 ∧ text.getD (v - 1) 0 = c ∧ saIdx text v < i)) := by
    rw [← countP_range_getD (suffixArray text)
      (fun v => decide (v ≠ 0 ∧ text.getD (v - 1) 0 = c ∧ saIdx text v < i)),
      suffixArray_length]
  rw [h2, (suffixArray_perm text).countP_eq, countP_range_succ_shift]
  have hhead : (decide ((0 : Nat) ≠ 0 ∧ text.getD (0 - 1) 0 = c
      ∧ saIdx text 0 < i)) = false := by
    simp
  rw [hhead]
  have htail : (List.range text.length).countP
        (fun q => decide (q + 1 ≠ 0 ∧ text.getD (q + 1 - 1) 0 = c
          ∧ saIdx text (q + 1) < i))
      = (List.range text.length).countP
        (fun q => decide (text.getD q 0 = c ∧ saIdx text (q + 1) < i)) := by
    apply List.countP_congr
    intro q _
    simp only [decide_eq_true_iff]
    constructor
    · rintro ⟨_, h2, h3⟩
      exact ⟨by simpa using h2, h3⟩
    · rintro ⟨h2, h3⟩
      exact ⟨by omega, by simpa using h2, h3⟩
  rw [htail]
  simp
end FMIndex

/-- Peeling the first symbol off a proper suffix. -/
theorem suffix_cons (text : List Nat) (q : Nat) (hq : q < text.length) :
    suffix text q = (text.getD q 0 + 1) :: suffix text (q + 1) := by
  have hq2 : q < (mapped text).length := by simpa [mapped] using hq
  unfold suffix
  rw [List.drop_eq_getElem_cons hq2, List.cons_append]
  congr 1
  unfold mapped
  rw [List.getElem_map]
  rw [List.getD_eq_getElem?_getD, List.getElem?_eq_getElem hq]
  rfl

/-- One backward-search step at the level of suffix-interval boundaries:
prepending a mapped symbol `c + 1` to a pattern. -/
theorem occLo_cons (text : List Nat) (c : Nat) (pat : List Nat) :
    occLo text ((c + 1) :: pat)
      = 1 + (List.range text.length).countP (fun q => decide (text.getD q 0 < c))
        + (List.range text.length).countP
            (fun q => decide (text.getD q 0 = c
              ∧ lexLt (suffix text (q + 1)) pat = true)) := by
  unfold occLo
  rw [List.range_succ, List.countP_append]
  have hsn : suffix text text.length = [0] := by
    unfold suffix
    rw [List.drop_of_length_le (by simp [mapped])]
    rfl
  have hlast : List.countP (fun q => lexLt (suffix text q) ((c + 1) :: pat))
      [text.length] = 1 := by
    simp [List.countP_cons, hsn, lexLt]
  rw [hlast]
  have hmain : (List.range text.length).countP
        (fun q => lexLt (suffix text q) ((c + 1) :: pat))
      = (List.range text.length).countP (fun q => decide (text.getD q 0 < c))
        + (List.range text.length).countP
            (fun q => decide (text.getD q 0 = c
              ∧ lexLt (suffix text (q + 1)) pat = true)) := by
    apply countP_split_disj
    intro q hq
    rw [List.mem_range] at hq
    have hsfx : lexLt (suffix text q) ((c + 1) :: pat)
        = (if text.getD q 0 + 1 < c + 1 then true
           else if c + 1 < text.getD q 0 + 1 then false
           else lexLt (suffix text (q + 1)) pat) := by
      rw [suffix_cons text q hq]
      rfl
    constructor
    · constructor
      · intro h
        rw [hsfx] at h
        by_cases h1 : text.getD q 0 < c
        · exact Or.inl (decide_eq_true h1)
        · right
          rw [if_neg (by omega)] at h
          by_cases h2 : c < text.getD q 0
          · rw [if_pos (by omega)] at h
            simp at h
          · rw [if_neg (by omega)] at h
            exact decide_eq_true ⟨by omega, h⟩
      · intro h
        rw [hsfx]
        rcases h with h | h
        · rw [decide_eq_true_iff] at h
          rw [if_pos (by omega)]
        · rw [decide_eq_true_iff] at h
          rw [if_neg (by omega), if_neg (by omega)]
          exact h.2
    · rintro ⟨h1, h2⟩
      rw [decide_eq_true_iff] at h1 h2
      omega
  rw [hmain]
  omega

namespace FMIndex

/-- The backward-search step of the built index: `C[c] + occ(c, lo(pat))`
is the lower interval boundary of the extended pattern. -/
theorem step_occLo (sigma : Nat) (text : List Nat) (f : Nat)
    (htext : ∀ x ∈ text, x < sigma) (c : Nat) (hc : c < sigma)
    (pat : List Nat) (i : Nat) (hi : i = occLo text pat)
    (hin : i ≤ text.length + 1)
    (hiw : i < 64 * ((text.length + 1 + 63) / 64)) :
    (FMIndex.new sigma text f).counts.getD c 0
      + (FMIndex.new sigma text f).occurenceTable.occ c i
      = occLo text ((c + 1) :: pat) := by
  rw [counts_built sigma text f htext c hc, occ_built_rows sigma text f c hc i hin hiw,
    occLo_cons]
  have hcong : (List.range text.length).countP
        (fun q => decide (text.getD q 0 = c ∧ saIdx text (q + 1) < i))
      = (List.range text.length).countP
        (fun q => decide (text.getD q 0 = c
          ∧ lexLt (suffix text (q + 1)) pat = true)) := by
    apply List.countP_congr
    intro q hq
    rw [List.mem_range] at hq
    simp only [decide_eq_true_iff]
    have hiff := saIdx_lt_occLo_iff text pat (q + 1) (by omega)
    rw [← hi] at hiff
    constructor
    · rintro ⟨h1, h2⟩
      exact ⟨h1, hiff.1 h2⟩
    · rintro ⟨h1, h2⟩
      exact ⟨h1, hiff.2 h2⟩
  rw [hcong]

/-- C5 core: off the sentinel row, `find_lf` steps to the row of the
preceding text position. -/
theorem findLf_step (sigma : Nat) (text : List Nat) (f : Nat)
    (htext : ∀ x ∈ text, x < sigma) (k : Nat) (hk : k < text.length + 1)
    (hkz : (suffixArray text).getD k 0 ≠ 0) :
    (FMIndex.new sigma text f).findLf k
      = saIdx text ((suffixArray text).getD k 0 - 1) := by
  have hsent : k ≠ (FMIndex.new sigma text f).sentinel := by
    intro hcon
    exact hkz ((sentinel_iff text k hk).1 hcon)
  have hv := suffixArray_getD_lt text k hk
  have hvin : (suffixArray text).getD k 0 - 1 < text.length := by omega
  have hbwt : (FMIndex.new sigma text f).bwt.getD k 0
      = text.getD ((suffixArray text).getD k 0 - 1) 0 := by
    show ((bwtFromSa (suffixArray text) text).1).getD k 0 = _
    rw [bwt_built_getD text k hk, if_neg hkz]
  have hcsym : text.getD ((suffixArray text).getD k 0 - 1) 0 < sigma := by
    have hmem : text.getD ((suffixArray text).getD k 0 - 1) 0 ∈ text := by
      rw [List.getD_eq_getElem?_getD, List.getElem?_eq_getElem hvin]
      exact List.get_mem text _ hvin
    exact htext _ hmem
  show (if k = (FMIndex.new sigma text f).sentinel then 0
    else (FMIndex.new sigma text f).counts.getD ((FMIndex.new sigma text f).bwt.getD k 0) 0
      + (FMIndex.new sigma text f).occurenceTable.occ
          ((FMIndex.new sigma text f).bwt.getD k 0) k) = _
  rw [if_neg hsent, hbwt]
  have hrow : k = occLo text (suffix text ((suffixArray text).getD k 0)) := by
    have := saIdx_getD text k hk
    unfold saIdx at this
    exact this.symm
  rw [step_occLo sigma text f htext _ hcsym (suffix text ((suffixArray text).getD k 0)) k
    hrow (by omega) (by
      have := le_64_ceil (text.length + 1)
      omega)]
  unfold saIdx
  congr 1
  rw [suffix_cons text ((suffixArray text).getD k 0 - 1) hvin]
  congr 2
  omega

/-- The `find_sa` loop returns the suffix-array value whenever the fuel
exceeds the distance to the next stored row. -/
theorem findSaGo_correct (sigma : Nat) (text : List Nat) (f : Nat)
    (htext : ∀ x ∈ text, x < sigma) (hf : 0 < f) :
    ∀ (fuel i j : Nat), i < text.length + 1 →
      (suffixArray text).getD i 0 % f < fuel →
      findSaGo (FMIndex.new sigma text f) fuel i j
        = some ((suffixArray text).getD i 0 + j) := by
  intro fuel
  induction fuel with
  | zero =>
      intro i j _ h
      omega
  | succ m ih =>
      intro i j hi hfuel
      show (if (FMIndex.new sigma text f).sparseSa.contains i = true then
          some ((FMIndex.new sigma text f).sparseSa.index i + j)
        else findSaGo (FMIndex.new sigma text f) m
          ((FMIndex.new sigma text f).findLf i) (j + 1)) = _
      have hcont : (FMIndex.new sigma text f).sparseSa.contains i
          = decide ((suffixArray text).getD i 0 % f = 0) := by
        show (SparseSuffixArray.fromSa (suffixArray text) f).contains i = _
        rw [SparseSuffixArray.fromSa_contains _ f i
          (by rw [suffixArray_length]; exact hi)]
      by_cases hz : (suffixArray text).getD i 0 % f = 0
      · rw [hcont, if_pos (decide_eq_true hz)]
        have hidx : (FMIndex.new sigma text f).sparseSa.index i
            = (suffixArray text).getD i 0 := by
          show (SparseSuffixArray.fromSa (suffixArray text) f).index i = _
          exact SparseSuffixArray.fromSa_index _ f i
            (by rw [suffixArray_length]; exact hi) hz
        rw [hidx]
      · rw [hcont, if_neg (by simpa using hz)]
        have hvz : (suffixArray text).getD i 0 ≠ 0 := by
          intro hcon
          rw [hcon] at hz
          exact hz (Nat.zero_mod f)
        rw [findLf_step sigma text f htext i hi hvz]
        have hvlt := suffixArray_getD_lt text i hi
        have hnext : saIdx text ((suffixArray text).getD i 0 - 1) < text.length + 1 :=
          saIdx_lt text _ (by omega)
        have hSA : (suffixArray text).getD
              (saIdx text ((suffixArray text).getD i 0 - 1)) 0
            = (suffixArray text).getD i 0 - 1 :=
          getD_saIdx text _ (by omega)
        have hmod : ((suffixArray text).getD i 0 - 1) % f
            = (suffixArray text).getD i 0 % f - 1 := by
          have hrlt : (suffixArray text).getD i 0 % f < f := Nat.mod_lt _ hf
          have hrpos : 0 < (suffixArray text).getD i 0 % f := Nat.pos_of_ne_zero hz
          have hdm := Nat.div_add_mod ((suffixArray text).getD i 0) f
          have hcomm : f * ((suffixArray text).getD i 0 / f)
              = ((suffixArray text).getD i 0 / f) * f := Nat.mul_comm _ _
          have hval : (suffixArray text).getD i 0 - 1
              = ((suffixArray text).getD i 0 % f - 1)
                + ((suffixArray text).getD i 0 / f) * f := by omega
          rw [hval, Nat.add_mul_mod_self_right, Nat.mod_eq_of_lt (by omega)]
        rw [ih _ (j + 1) hnext (by rw [hSA, hmod]; omega), hSA]
        congr 1
        omega

/-- C2 core: `find_sa` returns the full suffix-array value, and already
does so within `f` rounds of the loop. -/
theorem findSa_built (sigma : Nat) (text : List Nat) (f : Nat)
    (htext : ∀ x ∈ text, x < sigma) (hf : 0 < f)
    (k : Nat) (hk : k < text.length + 1) :
    (FMIndex.new sigma text f).findSa k = some ((suffixArray text).getD k 0)
      ∧ findSaGo (FMIndex.new sigma text f) f k 0
          = some ((suffixArray text).getD k 0) := by
  have hvlt := suffixArray_getD_lt text k hk
  constructor
  · show findSaGo (FMIndex.new sigma text f) (text.length + 1) k 0 = _
    have := findSaGo_correct sigma text f htext hf (text.length + 1) k 0 hk
      (by
        have := Nat.mod_le ((suffixArray text).getD k 0) f
        omega)
    simpa using this
  · have := findSaGo_correct sigma text f htext hf f k 0 hk (Nat.mod_lt _ hf)
    simpa using this
end FMIndex

namespace BandedMatrix

theorem setCell_columnsPerRow (bm : BandedMatrix) (i j v : Nat) :
    (bm.setCell i j v).columnsPerRow = bm.columnsPerRow := rfl

theorem setCell_bval (bm : BandedMatrix) (i j v : Nat) :
    (bm.setCell i j v).b = bm.b := rfl

theorem setCell_matrix_length (bm : BandedMatrix) (i j v : Nat) :
    (bm.setCell i j v).matrix.length = bm.matrix.length := List.length_set _ _ _

theorem updateCell_fst (bm : BandedMatrix) (mm : Bool) (row col : Nat) :
    (bm.updateCell mm row col).1 = bm.setCell row col (bm.updateCell mm row col).2 := rfl

theorem get_setCell_self (bm : BandedMatrix) (i j v : Nat)
    (h : flatIdx bm.columnsPerRow bm.b i j < bm.matrix.length) :
    (bm.setCell i j v).get i j = v := by
  unfold setCell get
  exact getD_set_self _ _ _ h

theorem get_setCell_ne (bm : BandedMatrix) (i j i2 j2 v : Nat)
    (h : flatIdx bm.columnsPerRow bm.b i j ≠ flatIdx bm.columnsPerRow bm.b i2 j2) :
    (bm.setCell i j v).get i2 j2 = bm.get i2 j2 := by
  unfold setCell get
  exact getD_set_ne _ _ h

/-- The update loop writes the DP recurrence into the row and accumulates
its minimum, leaving everything outside the processed band untouched. -/
theorem updateRowGo_spec (bm : BandedMatrix) (pattern : List Nat) (row c : Nat)
    (hcpr : bm.columnsPerRow = 2 * bm.b + 3)
    (hlen : bm.matrix.length = bm.n * bm.columnsPerRow)
    (hrow1 : 1 ≤ row) (hrown : row < bm.n) :
    ∀ (count s : Nat) (cur : BandedMatrix) (curMin : Nat),
      bm.firstColumn row ≤ s →
      s + count ≤ row + bm.b + 1 →
      cur.columnsPerRow = bm.columnsPerRow →
      cur.b = bm.b →
      cur.matrix.length = bm.matrix.length →
      (∀ j, bm.firstColumn row ≤ j → j < s →
        cur.get row j = specRow bm pattern row c (bm.firstColumn row) j) →
      (∀ p, (p + 1 ≤ row * bm.columnsPerRow + (bm.firstColumn row + bm.b - row)
          ∨ row * bm.columnsPerRow + (s + bm.b - row) ≤ p) →
        cur.matrix.getD p 0 = bm.matrix.getD p 0) →
      ((∀ j, bm.firstColumn row ≤ j → j < s + count →
          (updateRowGo pattern row c (List.range' s count) (cur, curMin)).1.get row j
            = specRow bm pattern row c (bm.firstColumn row) j)
        ∧ (updateRowGo pattern row c (List.range' s count) (cur, curMin)).2
            = specRowMinGo bm pattern row c (bm.firstColumn row)
                (List.range' s count) curMin) := by
  intro count
  induction count with
  | zero =>
      intro s cur curMin hfs hcount hstruct hbeq hlength hB hA
      constructor
      · intro j hj1 hj2
        exact hB j hj1 (by omega)
      · rfl
  | succ ct ih =>
      intro s cur curMin hfs hcount hstruct hbeq hlength hB hA
      have hfc1 : 1 ≤ bm.firstColumn row := le_max_left 1 (row - bm.b)
      have hfcb : row - bm.b ≤ bm.firstColumn row := le_max_right 1 (row - bm.b)
      have hs1 : 1 ≤ s := le_trans hfc1 hfs
      have hsb : row ≤ s + bm.b := by omega
      have hoffs : s + bm.b - row ≤ 2 * bm.b := by omega
      have hofffc : bm.firstColumn row + bm.b - row ≤ s + bm.b - row := by omega
      have hAge : row - 1 ≤ (row - 1) * bm.columnsPerRow :=
        Nat.le_mul_of_pos_right _ (by omega)
      have hBge : row ≤ row * bm.columnsPerRow :=
        Nat.le_mul_of_pos_right _ (by omega)
      have hmulrow : row * bm.columnsPerRow
          = (row - 1) * bm.columnsPerRow + bm.columnsPerRow := by
        have h1 := Nat.succ_mul (row - 1) bm.columnsPerRow
        rw [Nat.succ_eq_add_one, show row - 1 + 1 = row by omega] at h1
        exact h1
      have hmulrow1 : (row + 1) * bm.columnsPerRow
          = row * bm.columnsPerRow + bm.columnsPerRow := Nat.succ_mul row _
      have hmuln : (row + 1) * bm.columnsPerRow ≤ bm.n * bm.columnsPerRow :=
        Nat.mul_le_mul_right _ (Nat.succ_le_of_lt hrown)
      have hq1 : flatIdx bm.columnsPerRow bm.b (row - 1) (s - 1)
          = (row - 1) * bm.columnsPerRow + (s + bm.b - row) := by
        unfold flatIdx
        omega
      have hq2 : flatIdx bm.columnsPerRow bm.b (row - 1) s
          = (row - 1) * bm.columnsPerRow + (s + bm.b - row) + 1 := by
        unfold flatIdx
        omega
      have hq3 : flatIdx bm.columnsPerRow bm.b row (s - 1)
          = row * bm.columnsPerRow + (s + bm.b - row) - 1 := by
        unfold flatIdx
        omega
      have hq4 : flatIdx bm.columnsPerRow bm.b row s
          = row * bm.columnsPerRow + (s + bm.b - row) := by
        unfold flatIdx
        omega
      have hq4lt : flatIdx bm.columnsPerRow bm.b row s < bm.matrix.length := by
        rw [hq4, hlen]
        omega
      -- the three reads of update_cell on `cur`
      have hv1 : cur.get (row - 1) (s - 1) = bm.get (row - 1) (s - 1) := by
        unfold get
        rw [hstruct, hbeq, hq1]
        exact hA _ (Or.inl (by omega))
      have hv2 : cur.get (row - 1) s = bm.get (row - 1) s := by
        unfold get
        rw [hstruct, hbeq, hq2]
        exact hA _ (Or.inl (by omega))
      have hv3 : cur.get row (s - 1)
          = specRow bm pattern row c (bm.firstColumn row) (s - 1) := by
        by_cases hsf : s = bm.firstColumn row
        · -- the cell left of the band start is untouched and below `fc`
          have hold : cur.get row (s - 1) = bm.get row (s - 1) := by
            unfold get
            rw [hstruct, hbeq, hq3]
            exact hA _ (Or.inl (by omega))
          rw [hold]
          cases hsval : s - 1 with
          | zero => rfl
          | succ jj =>
              show bm.get row (jj + 1)
                = specRow bm pattern row c (bm.firstColumn row) (jj + 1)
              show bm.get row (jj + 1)
                = if jj + 1 < bm.firstColumn row then bm.get row (jj + 1)
                  else min (min (bm.get (row - 1) jj
                      + (if c ≠ pattern.getD jj 0 then 1 else 0))
                    (specRow bm pattern row c (bm.firstColumn row) jj + 1))
                    (bm.get (row - 1) (jj + 1) + 1)
              rw [if_pos (by omega)]
        · exact hB (s - 1) (by omega) (by omega)
      -- the recurrence value at column `s`
      have hspecs : specRow bm pattern row c (bm.firstColumn row) s
          = min (min (bm.get (row - 1) (s - 1)
              + (if c ≠ pattern.getD (s - 1) 0 then 1 else 0))
            (specRow bm pattern row c (bm.firstColumn row) (s - 1) + 1))
            (bm.get (row - 1) s + 1) := by
        cases hsval : s with
        | zero => omega
        | succ jj =>
            show (if jj + 1 < bm.firstColumn row then bm.get row (jj + 1)
              else min (min (bm.get (row - 1) jj
                  + (if c ≠ pattern.getD jj 0 then 1 else 0))
                (specRow bm pattern row c (bm.firstColumn row) jj + 1))
                (bm.get (row - 1) (jj + 1) + 1)) = _
            rw [if_neg (by omega)]
            simp only [show jj + 1 - 1 = jj from rfl]
      have hcell : (cur.updateCell (decide (c ≠ pattern.getD (s - 1) 0)) row s).2
          = specRow bm pattern row c (bm.firstColumn row) s := by
        show min (min (cur.get (row - 1) (s - 1)
            + (if decide (c ≠ pattern.getD (s - 1) 0) = true then 1 else 0))
          (cur.get row (s - 1) + 1)) (cur.get (row - 1) s + 1) = _
        rw [hv1, hv2, hv3, hspecs]
        by_cases hP : c ≠ pattern.getD (s - 1) 0
        · rw [if_pos (decide_eq_true hP), if_pos hP]
        · rw [if_neg (by simpa using hP), if_neg hP]
      -- invariants for the written matrix
      have hB2 : ∀ j, bm.firstColumn row ≤ j → j < s + 1 →
          ((cur.updateCell (decide (c ≠ pattern.getD (s - 1) 0)) row s).1).get row j
            = specRow bm pattern row c (bm.firstColumn row) j := by
        intro j hj1 hj2
        rw [updateCell_fst]
        by_cases hjs : j = s
        · subst hjs
          rw [get_setCell_self _ _ _ _ (by rw [hstruct, hbeq, hlength]; exact hq4lt)]
          exact hcell
        · have hne : flatIdx cur.columnsPerRow cur.b row s
              ≠ flatIdx cur.columnsPerRow cur.b row j := by
            rw [hstruct, hbeq]
            have hqj : flatIdx bm.columnsPerRow bm.b row j
                = row * bm.columnsPerRow + (j + bm.b - row) := by
              unfold flatIdx
              omega
            rw [hq4, hqj]
            omega
          rw [get_setCell_ne cur row s row j _ hne]
          exact hB j hj1 (by omega)
      have hA2 : ∀ p, (p + 1 ≤ row * bm.columnsPerRow
            + (bm.firstColumn row + bm.b - row)
          ∨ row * bm.columnsPerRow + (s + 1 + bm.b - row) ≤ p) →
          ((cur.updateCell (decide (c ≠ pattern.getD (s - 1) 0)) row s).1).matrix.getD p 0
            = bm.matrix.getD p 0 := by
        intro p hp
        rw [updateCell_fst]
        show (cur.matrix.set (flatIdx cur.columnsPerRow cur.b row s) _).getD p 0 = _
        rw [hstruct, hbeq, hq4]
        rw [getD_set_ne _ _ ?_]
        · refine hA p ?_
          rcases hp with h | h
          · exact Or.inl h
          · exact Or.inr (by omega)
        · rcases hp with h | h
          · omega
          · omega
      have hstep := ih (s + 1)
        ((cur.updateCell (decide (c ≠ pattern.getD (s - 1) 0)) row s).1)
        (if specRow bm pattern row c (bm.firstColumn row) s < curMin
         then specRow bm pattern row c (bm.firstColumn row) s else curMin)
        (by omega) (by omega)
        (by rw [updateCell_fst, setCell_columnsPerRow]; exact hstruct)
        (by rw [updateCell_fst, setCell_bval]; exact hbeq)
        (by rw [updateCell_fst, setCell_matrix_length]; exact hlength)
        hB2 hA2
      constructor
      · intro j hj1 hj2
        show (updateRowGo pattern row c (List.range' (s + 1) ct)
            ((cur.updateCell (decide (c ≠ pattern.getD (s - 1) 0)) row s).1,
              if (cur.updateCell (decide (c ≠ pattern.getD (s - 1) 0)) row s).2 < curMin
              then (cur.updateCell (decide (c ≠ pattern.getD (s - 1) 0)) row s).2
              else curMin)).1.get row j
          = specRow bm pattern row c (bm.firstColumn row) j
        rw [hcell]
        exact hstep.1 j hj1 (by omega)
      · show (updateRowGo pattern row c (List.range' (s + 1) ct)
            ((cur.updateCell (decide (c ≠ pattern.getD (s - 1) 0)) row s).1,
              if (cur.updateCell (decide (c ≠ pattern.getD (s - 1) 0)) row s).2 < curMin
              then (cur.updateCell (decide (c ≠ pattern.getD (s - 1) 0)) row s).2
              else curMin)).2
          = specRowMinGo bm pattern row c (bm.firstColumn row) (List.range' (s + 1) ct)
              (if specRow bm pattern row c (bm.firstColumn row) s < curMin
               then specRow bm pattern row c (bm.firstColumn row) s
               else curMin)
        rw [hcell]
        exact hstep.2

/-- C9 core: `update_row` realises the banded DP recurrence on the row
band and returns the running minimum of the written cells. -/
theorem updateRow_spec (bm : BandedMatrix) (pattern : List Nat) (row c : Nat)
    (hcpr : bm.columnsPerRow = 2 * bm.b + 3)
    (hlen : bm.matrix.length = bm.n * bm.columnsPerRow)
    (hrow1 : 1 ≤ row) (hrown : row < bm.n) :
    (∀ j, bm.firstColumn row ≤ j → j ≤ bm.lastColumn row →
      ((bm.updateRow pattern row c).1).get row j
        = specRow bm pattern row c (bm.firstColumn row) j)
    ∧ (bm.updateRow pattern row c).2
        = specRowMinGo bm pattern row c (bm.firstColumn row)
            (List.range' (bm.firstColumn row)
              (bm.lastColumn row + 1 - bm.firstColumn row))
            (2 ^ 64 - 1) := by
  have hlc : bm.lastColumn row ≤ bm.b + row := min_le_right _ _
  have hfcle : bm.firstColumn row ≤ row + bm.b + 1 := max_le (by omega) (by omega)
  have h := updateRowGo_spec bm pattern row c hcpr hlen hrow1 hrown
    (bm.lastColumn row + 1 - bm.firstColumn row) (bm.firstColumn row) bm (2 ^ 64 - 1)
    (le_refl _)
    (by omega)
    rfl rfl rfl
    (by
      intro j hj1 hj2
      omega)
    (by
      intro p _
      rfl)
  constructor
  · intro j hj1 hj2
    exact h.1 j hj1 (by omega)
  · exact h.2
end BandedMatrix

/-! ## Reversal lemmas for the bidirectional index -/
theorem mapped_length (text : List Nat) : (mapped text).length = text.length := by
  simp [mapped]

theorem mapped_getD (text : List Nat) (q : Nat) (hq : q < text.length) :
    (mapped text).getD q 0 = text.getD q 0 + 1 := by
  unfold mapped
  have hq2 : q < (text.map (fun x => x + 1)).length := by simpa using hq
  rw [List.getD_eq_getElem?_getD, List.getElem?_eq_getElem hq2,
    List.getD_eq_getElem?_getD, List.getElem?_eq_getElem hq]
  show (text.map (fun x => x + 1))[q] = text[q] + 1
  rw [List.getElem_map]

theorem mapped_reverse (text : List Nat) :
    mapped text.reverse = (mapped text).reverse := by
  unfold mapped
  exact List.map_reverse _ _

theorem getD_drop_zero (l : List Nat) (q t : Nat) :
    (l.drop q).getD t 0 = l.getD (q + t) 0 := by
  rw [List.getD_eq_getElem?_getD, List.getD_eq_getElem?_getD, List.getElem?_drop]

theorem getD_reverse (l : List Nat) (i : Nat) (hi : i < l.length) :
    l.reverse.getD i 0 = l.getD (l.length - 1 - i) 0 := by
  rw [List.getD_eq_getElem?_getD, List.getD_eq_getElem?_getD,
    List.getElem?_reverse hi]

theorem lexLt_append_self (x t : List Nat) : lexLt (x ++ t) x = false := by
  induction x with
  | nil => cases t <;> rfl
  | cons a as ih =>
      show (if a < a then true else if a < a then false else lexLt (as ++ t) as) = false
      rw [if_neg (lt_irrefl a), if_neg (lt_irrefl a)]
      exact ih

/-- Comparing against a pattern extended by one symbol splits into being
below the pattern or having it as a prefix with a small next symbol. -/
theorem lex_append_singleton_iff (pat : List Nat) (a : Nat) (ha : 0 < a) :
    ∀ (s : List Nat), lexLt s (pat ++ [a]) = true
      ↔ (lexLt s pat = true ∨ (pat <+: s ∧ s.getD pat.length 0 < a)) := by
  induction pat with
  | nil =>
      intro s
      cases s with
      | nil =>
          constructor
          · intro _
            exact Or.inr ⟨List.nil_prefix, by simpa using ha⟩
          · intro _
            rfl
      | cons t rest =>
          have hrest : lexLt rest [] = false := by cases rest <;> rfl
          show (if t < a then true else if a < t then false else lexLt rest []) = true ↔ _
          constructor
          · intro h
            by_cases hta : t < a
            · exact Or.inr ⟨List.nil_prefix, by simpa using hta⟩
            · rw [if_neg hta] at h
              by_cases hat : a < t
              · rw [if_pos hat] at h
                simp at h
              · rw [if_neg hat, hrest] at h
                simp at h
          · intro h
            rcases h with h | h
            · simp [lexLt] at h
            · have hta : t < a := by simpa using h.2
              rw [if_pos hta]
  | cons p ps ih =>
      intro s
      cases s with
      | nil =>
          constructor
          · intro _
            exact Or.inl rfl
          · intro _
            rfl
      | cons t rest =>
          show (if t < p then true else if p < t then false else lexLt rest (ps ++ [a]))
            = true ↔ _
          by_cases htp : t < p
          · rw [if_pos htp]
            constructor
            · intro _
              left
              show (if t < p then true else _) = true
              rw [if_pos htp]
            · intro _
              rfl
          · rw [if_neg htp]
            by_cases hpt : p < t
            · rw [if_pos hpt]
              constructor
              · intro h
                simp at h
              · intro h
                rcases h with h | h
                · have hlexeq : lexLt (t :: rest) (p :: ps)
                      = (if t < p then true else if p < t then false else lexLt rest ps) :=
                    rfl
                  rw [hlexeq, if_neg htp, if_pos hpt] at h
                  simp at h
                · rcases List.cons_prefix_cons.1 h.1 with ⟨heq, _⟩
                  omega
            · rw [if_neg hpt]
              have htpeq : t = p := by omega
              subst htpeq
              rw [ih rest]
              have hlex : lexLt (t :: rest) (t :: ps)
                  = (if t < t then true else if t < t then false else lexLt rest ps) := rfl
              constructor
              · intro h
                rcases h with h | h
                · left
                  rw [hlex, if_neg (lt_irrefl t), if_neg (lt_irrefl t)]
                  exact h
                · right
                  refine ⟨List.cons_prefix_cons.2 ⟨rfl, h.1⟩, ?_⟩
                  rw [List.length_cons, List.getD_cons_succ]
                  exact h.2
              · intro h
                rcases h with h | h
                · left
                  rw [hlex, if_neg (lt_irrefl t), if_neg (lt_irrefl t)] at h
                  exact h
                · right
                  rcases List.cons_prefix_cons.1 h.1 with ⟨_, hps⟩
                  refine ⟨hps, ?_⟩
                  rw [List.length_cons, List.getD_cons_succ] at h
                  exact h.2

/-- Splitting `occLo` at a pattern extended by one symbol. -/
theorem occLo_append_singleton (text pat : List Nat) (a : Nat) (ha : 0 < a) :
    occLo text (pat ++ [a])
      = occLo text pat
        + (List.range (text.length + 1)).countP
            (fun q => decide (pat <+: suffix text q
              ∧ (suffix text q).getD pat.length 0 < a)) := by
  unfold occLo
  apply countP_split_disj
  intro q _
  refine ⟨?_, ?_⟩
  · constructor
    · intro h
      rcases (lex_append_singleton_iff pat a ha (suffix text q)).1 h with h1 | h1
      · exact Or.inl h1
      · exact Or.inr (decide_eq_true h1)
    · intro h
      rcases h with h1 | h1
      · exact (lex_append_singleton_iff pat a ha _).2 (Or.inl h1)
      · rw [decide_eq_true_iff] at h1
        exact (lex_append_singleton_iff pat a ha _).2 (Or.inr h1)
  · rintro ⟨h1, h2⟩
    rw [decide_eq_true_iff] at h2
    rcases h2.1 with ⟨tail, htail⟩
    rw [← htail, lexLt_append_self] at h1
    simp at h1

theorem occLo_le (text pat : List Nat) : occLo text pat ≤ text.length + 1 := by
  unfold occLo
  have := List.countP_le_length
    (p := fun q => lexLt (suffix text q) pat) (l := List.range (text.length + 1))
  rw [List.length_range] at this
  exact this

theorem occLo_mono_append (text pat z : List Nat) :
    occLo text pat ≤ occLo text (pat ++ z) := by
  unfold occLo
  apply List.countP_mono_left
  intro q _ h
  exact lexLt_of_lexLt_append z h

/-- Off multiples of 64, a length is strictly below its 64-word ceiling. -/
theorem lt_64_ceil_of_ne (a : Nat) (ha : a % 64 ≠ 0) : a < 64 * ((a + 63) / 64) := by
  have h1 := Nat.div_add_mod (a + 63) 64
  have h2 := Nat.div_add_mod a 64
  have h3 : (a + 63) % 64 < 64 := Nat.mod_lt _ (by norm_num)
  have h4 : a % 64 < 64 := Nat.mod_lt _ (by norm_num)
  omega

theorem width_eq (lo hi : Nat) (h : lo ≤ hi) :
    Range.width { start := lo, stop := hi } = hi - lo := by
  unfold Range.width Range.empty
  split
  · rename_i hle
    simp only [decide_eq_true_iff] at hle
    omega
  · rfl

theorem countP_range_eq_single (i s : Nat) :
    (List.range i).countP (fun j => decide (j = s)) = if s < i then 1 else 0 := by
  induction i with
  | zero => simp
  | succ m ih =>
      rw [List.range_succ, List.countP_append, ih]
      by_cases h : s < m
      · rw [if_pos h, if_pos (by omega)]
        have : List.countP (fun j => decide (j = s)) [m] = 0 := by
          simp [List.countP_cons]
          omega
        rw [this]
      · by_cases h2 : m = s
        · subst h2
          rw [if_neg (by omega), if_pos (by omega)]
          simp [List.countP_cons]
        · rw [if_neg h, if_neg (by omega)]
          have : List.countP (fun j => decide (j = s)) [m] = 0 := by
            simp [List.countP_cons]
            omega
          rw [this]

/-- Reflecting a counted predicate across `[0, M)`. -/
theorem countP_range_reflect (F G : Nat → Bool) (M N : Nat) (hMN : M ≤ N)
    (hF : ∀ p, p < N → F p = true → p < M)
    (hG : ∀ q, q < N → G q = true → q < M)
    (hFG : ∀ q, q < M → F (M - 1 - q) = G q) :
    (List.range N).countP F = (List.range N).countP G := by
  have hFr : (List.range N).countP F = (List.range M).countP F := by
    rw [← countP_range_restrict F M N hMN]
    apply List.countP_congr
    intro j hj
    rw [List.mem_range] at hj
    simp only [Bool.and_eq_true, decide_eq_true_eq]
    constructor
    · intro h
      exact ⟨h, hF j hj h⟩
    · intro h
      exact h.1
  have hGr : (List.range N).countP G = (List.range M).countP G := by
    rw [← countP_range_restrict G M N hMN]
    apply List.countP_congr
    intro j hj
    rw [List.mem_range] at hj
    simp only [Bool.and_eq_true, decide_eq_true_eq]
    constructor
    · intro h
      exact ⟨h, hG j hj h⟩
    · intro h
      exact h.1
  rw [hFr, hGr]
  rw [← List.countP_reverse F, List.range_eq_range', List.reverse_range',
    List.countP_map, ← List.range_eq_range']
  apply List.countP_congr
  intro q hq
  rw [List.mem_range] at hq
  show F (0 + M - 1 - q) = true ↔ G q = true
  rw [show 0 + M - 1 - q = M - 1 - q by omega, hFG q hq]

/-- Being a prefix of a suffix is matching the corresponding slice. -/
theorem prefix_iff_slice (lm pat : List Nat) (p : Nat)
    (hp : p + pat.length ≤ lm.length) :
    (pat <+: (lm.drop p ++ [0])) ↔ (lm.drop p).take pat.length = pat := by
  rw [List.prefix_iff_eq_take, List.take_append_of_le_length (by
    rw [List.length_drop]
    omega)]
  constructor
  · intro h
    exact h.symm
  · intro h
    exact h.symm

/-- A pattern without the sentinel symbol that prefixes a suffix fits
inside the text. -/
theorem prefix_suffix_support (text pat : List Nat) (hpat : ∀ x ∈ pat, 0 < x)
    (p : Nat) (hp : p < text.length + 1) (hpre : pat <+: suffix text p) :
    p + pat.length ≤ text.length := by
  have hlen := hpre.length_le
  rw [suffix_length text p (by omega)] at hlen
  by_cases hL : p + pat.length ≤ text.length
  · exact hL
  · exfalso
    rcases hpre with ⟨tail, htail⟩
    have htlen := congrArg List.length htail
    rw [List.length_append, suffix_length text p (by omega)] at htlen
    have htnil : tail = [] := by
      rw [← List.length_eq_zero]
      omega
    subst htnil
    rw [List.append_nil] at htail
    have h0 : (0 : Nat) ∈ pat := by
      rw [htail]
      unfold suffix
      exact List.mem_append.2 (Or.inr (by simp))
    have := hpat 0 h0
    omega

/-- Occurrences of a pattern in the text with a bound on the preceding
symbol (or starting at the text start) correspond to occurrences of the
reversed pattern in the reversed text with the same bound on the following
symbol (the sentinel when the occurrence touches the end). -/
theorem occ_positions_reverse (text pat : List Nat) (a : Nat) (ha : 0 < a)
    (hpat : ∀ x ∈ pat, 0 < x) :
    (List.range (text.length + 1)).countP
        (fun p => decide (pat <+: suffix text p
          ∧ (p = 0 ∨ (mapped text).getD (p - 1) 0 < a)))
      = (List.range (text.length + 1)).countP
        (fun q => decide (pat.reverse <+: suffix text.reverse q
          ∧ (suffix text.reverse q).getD pat.length 0 < a)) := by
  have hrevpat : ∀ x ∈ pat.reverse, 0 < x := by
    intro x hx
    exact hpat x (List.mem_reverse.1 hx)
  by_cases hL : pat.length ≤ text.length
  · apply countP_range_reflect _ _ (text.length - pat.length + 1) (text.length + 1)
      (by omega)
    · intro p hp hF
      rw [decide_eq_true_iff] at hF
      have := prefix_suffix_support text pat hpat p hp hF.1
      omega
    · intro q hq hG
      rw [decide_eq_true_iff] at hG
      have := prefix_suffix_support text.reverse pat.reverse hrevpat q
        (by rw [List.length_reverse]; exact hq) hG.1
      rw [List.length_reverse, List.length_reverse] at this
      omega
    · intro q hq
      have hpre_iff : pat <+: suffix text (text.length - pat.length - q)
          ↔ pat.reverse <+: suffix text.reverse q := by
        unfold suffix
        rw [mapped_reverse]
        rw [prefix_iff_slice _ _ _ (by rw [mapped_length]; omega),
          prefix_iff_slice _ _ _ (by simp [mapped]; omega)]
        have h1 : (mapped text).reverse.drop q
            = ((mapped text).take (text.length - q)).reverse := by
          rw [List.drop_reverse, mapped_length]
        have h2 : (((mapped text).take (text.length - q)).reverse).take
              pat.reverse.length
            = (((mapped text).take (text.length - q)).drop
                (text.length - q - pat.length)).reverse := by
          rw [List.take_reverse, List.length_take, mapped_length,
            List.length_reverse, min_eq_left (by omega)]
        have h3 : ((mapped text).take (text.length - q)).drop
              (text.length - q - pat.length)
            = ((mapped text).drop (text.length - pat.length - q)).take pat.length := by
          rw [List.drop_take]
          congr 1
          · omega
          · congr 1
            omega
        rw [h1, h2, h3, List.reverse_inj]
      have hcond_iff : ((text.length - pat.length - q = 0)
            ∨ (mapped text).getD (text.length - pat.length - q - 1) 0 < a)
          ↔ (suffix text.reverse q).getD pat.length 0 < a := by
        unfold suffix
        rw [mapped_reverse]
        by_cases hp0 : text.length - pat.length - q = 0
        · have hlen : ((mapped text).reverse.drop q).length = pat.length := by
            rw [List.length_drop, List.length_reverse, mapped_length]
            omega
          rw [List.getD_append_right _ _ _ _ (le_of_eq hlen), hlen, Nat.sub_self]
          simp [hp0, ha]
        · have hlen2 : pat.length < ((mapped text).reverse.drop q).length := by
            rw [List.length_drop, List.length_reverse, mapped_length]
            omega
          rw [List.getD_append _ _ _ _ hlen2]
          rw [getD_drop_zero, getD_reverse _ _ (by rw [mapped_length]; omega),
            mapped_length]
          rw [show text.length - 1 - (q + pat.length)
            = text.length - pat.length - q - 1 by omega]
          constructor
          · intro h
            rcases h with h | h
            · omega
            · exact h
          · intro h
            exact Or.inr h
      rw [decide_eq_decide,
        show text.length - pat.length + 1 - 1 - q = text.length - pat.length - q
          by omega]
      constructor
      · rintro ⟨h1, h2⟩
        exact ⟨hpre_iff.1 h1, hcond_iff.1 h2⟩
      · rintro ⟨h1, h2⟩
        exact ⟨hpre_iff.2 h1, hcond_iff.2 h2⟩
  · have hz1 : (List.range (text.length + 1)).countP
        (fun p => decide (pat <+: suffix text p
          ∧ (p = 0 ∨ (mapped text).getD (p - 1) 0 < a))) = 0 := by
      apply List.countP_eq_zero.2
      intro p hp
      rw [List.mem_range] at hp
      intro hcon
      rw [decide_eq_true_iff] at hcon
      have := prefix_suffix_support text pat hpat p hp hcon.1
      omega
    have hz2 : (List.range (text.length + 1)).countP
        (fun q => decide (pat.reverse <+: suffix text.reverse q
          ∧ (suffix text.reverse q).getD pat.length 0 < a)) = 0 := by
      apply List.countP_eq_zero.2
      intro q hq
      rw [List.mem_range] at hq
      intro hcon
      rw [decide_eq_true_iff] at hcon
      have := prefix_suffix_support text.reverse pat.reverse hrevpat q
        (by rw [List.length_reverse]; exact hq) hcon.1
      rw [List.length_reverse, List.length_reverse] at this
      omega
    rw [hz1, hz2]

namespace FMIndex

/-- `cumulative_occ(c, i)` on the built table counts the rows below `i`
that hold the sentinel or a symbol strictly below `c`. -/
theorem cumulativeOcc_built (sigma : Nat) (text : List Nat) (f : Nat) (c : Nat)
    (hc : c < sigma) (i : Nat) (hi : i ≤ text.length + 1)
    (hiw : i < 64 * ((text.length + 1 + 63) / 64)) :
    (FMIndex.new sigma text f).occurenceTable.cumulativeOcc c i
      = (List.range i).countP
          (fun j => decide (j = (bwtFromSa (suffixArray text) text).2
            ∨ (0 < c ∧ j ≠ (bwtFromSa (suffixArray text) text).2
              ∧ ((bwtFromSa (suffixArray text) text).1).getD j 0 ≤ c - 1))) := by
  show (OccurenceTable.fromBwt sigma (bwtFromSa (suffixArray text) text).1
      (bwtFromSa (suffixArray text) text).2).cumulativeOcc c i = _
  unfold OccurenceTable.cumulativeOcc
  have hsent : (OccurenceTable.fromBwt sigma (bwtFromSa (suffixArray text) text).1
      (bwtFromSa (suffixArray text) text).2).sentinel
      = (bwtFromSa (suffixArray text) text).2 := rfl
  by_cases hc0 : c = 0
  · subst hc0
    rw [if_pos rfl, hsent]
    have hcongr : (List.range i).countP
          (fun j => decide (j = (bwtFromSa (suffixArray text) text).2
            ∨ (0 < 0 ∧ j ≠ (bwtFromSa (suffixArray text) text).2
              ∧ ((bwtFromSa (suffixArray text) text).1).getD j 0 ≤ 0 - 1)))
        = (List.range i).countP
          (fun j => decide (j = (bwtFromSa (suffixArray text) text).2)) := by
      apply List.countP_congr
      intro j _
      simp only [decide_eq_true_iff]
      constructor
      · intro h
        rcases h with h | h
        · exact h
        · omega
      · exact Or.inl
    rw [hcongr, countP_range_eq_single]
  · rw [if_neg hc0, hsent]
    rw [OccurenceTable.fromBwt_rank sigma _ _ (c - 1) (by omega) i
      (by rw [bwt_built_length]; exact hi)
      (by rw [bwt_built_length]; exact hiw)]
    rw [← countP_range_eq_single i ((bwtFromSa (suffixArray text) text).2)]
    have hsplit := countP_split_disj (List.range i)
      (fun j => decide (j = (bwtFromSa (suffixArray text) text).2
        ∨ (0 < c ∧ j ≠ (bwtFromSa (suffixArray text) text).2
          ∧ ((bwtFromSa (suffixArray text) text).1).getD j 0 ≤ c - 1)))
      (fun j => decide (j = (bwtFromSa (suffixArray text) text).2))
      (fun j => decide (j ≠ (bwtFromSa (suffixArray text) text).2
        ∧ ((bwtFromSa (suffixArray text) text).1).getD j 0 ≤ c - 1))
      (by
        intro j _
        simp only [decide_eq_true_iff]
        constructor
        · constructor
          · intro h
            rcases h with h | h
            · exact Or.inl h
            · exact Or.inr ⟨h.2.1, h.2.2⟩
          · intro h
            rcases h with h | h
            · exact Or.inl h
            · exact Or.inr ⟨by omega, h.1, h.2⟩
        · rintro ⟨h1, h2⟩
          exact h2.1 h1)
    rw [hsplit]
    omega

/-- The `cumulative_occ` difference over the interval of a pattern counts
the occurrences of the pattern preceded by a symbol below `c` or by the
text start. -/
theorem cum_interval_built (sigma : Nat) (text : List Nat) (f : Nat) (c : Nat)
    (hc : c < sigma) (htext : ∀ x ∈ text, x < sigma)
    (hn64 : (text.length + 1) % 64 ≠ 0) (pat : List Nat) :
    (FMIndex.new sigma text f).occurenceTable.cumulativeOcc c (occHi sigma text pat)
      - (FMIndex.new sigma text f).occurenceTable.cumulativeOcc c (occLo text pat)
    = (List.range (text.length + 1)).countP
        (fun p => decide (pat <+: suffix text p
          ∧ (p = 0 ∨ (mapped text).getD (p - 1) 0 < c + 1))) := by
  have hceil := lt_64_ceil_of_ne (text.length + 1) hn64
  have hhile : occHi sigma text pat ≤ text.length + 1 :=
    occLo_le text (pat ++ [sigma + 1])
  have hlole : occLo text pat ≤ text.length + 1 := occLo_le text pat
  have hmono : occLo text pat ≤ occHi sigma text pat :=
    occLo_mono_append text pat [sigma + 1]
  rw [cumulativeOcc_built sigma text f c hc _ hhile (by omega),
    cumulativeOcc_built sigma text f c hc _ hlole (by omega)]
  have hhi_eq := countP_range_restrict
    (fun j => decide (j = (bwtFromSa (suffixArray text) text).2
      ∨ (0 < c ∧ j ≠ (bwtFromSa (suffixArray text) text).2
        ∧ ((bwtFromSa (suffixArray text) text).1).getD j 0 ≤ c - 1)))
    (occHi sigma text pat) (text.length + 1) hhile
  have hlo_eq := countP_range_restrict
    (fun j => decide (j = (bwtFromSa (suffixArray text) text).2
      ∨ (0 < c ∧ j ≠ (bwtFromSa (suffixArray text) text).2
        ∧ ((bwtFromSa (suffixArray text) text).1).getD j 0 ≤ c - 1)))
    (occLo text pat) (text.length + 1) hlole
  beta_reduce at hhi_eq hlo_eq
  rw [← hhi_eq, ← hlo_eq]
  have hsplit := countP_split_disj (List.range (text.length + 1))
    (fun j => decide (j = (bwtFromSa (suffixArray text) text).2
      ∨ (0 < c ∧ j ≠ (bwtFromSa (suffixArray text) text).2
        ∧ ((bwtFromSa (suffixArray text) text).1).getD j 0 ≤ c - 1))
      && decide (j < occHi sigma text pat))
    (fun j => decide (j = (bwtFromSa (suffixArray text) text).2
      ∨ (0 < c ∧ j ≠ (bwtFromSa (suffixArray text) text).2
        ∧ ((bwtFromSa (suffixArray text) text).1).getD j 0 ≤ c - 1))
      && decide (j < occLo text pat))
    (fun j => (decide (j = (bwtFromSa (suffixArray text) text).2
      ∨ (0 < c ∧ j ≠ (bwtFromSa (suffixArray text) text).2
        ∧ ((bwtFromSa (suffixArray text) text).1).getD j 0 ≤ c - 1))
      && decide (occLo text pat ≤ j)) && decide (j < occHi sigma text pat))
    (by
      intro j _
      simp only [Bool.and_eq_true, decide_eq_true_eq]
      constructor
      · constructor
        · rintro ⟨h1, h2⟩
          by_cases hjl : j < occLo text pat
          · exact Or.inl ⟨h1, hjl⟩
          · exact Or.inr ⟨⟨h1, by omega⟩, h2⟩
        · intro h
          rcases h with h | h
          · exact ⟨h.1, by omega⟩
          · exact ⟨h.1.1, h.2⟩
      · rintro ⟨h1, h2⟩
        omega)
  rw [hsplit]
  have hmid : (List.range (text.length + 1)).countP
      (fun j => (decide (j = (bwtFromSa (suffixArray text) text).2
        ∨ (0 < c ∧ j ≠ (bwtFromSa (suffixArray text) text).2
          ∧ ((bwtFromSa (suffixArray text) text).1).getD j 0 ≤ c - 1))
        && decide (occLo text pat ≤ j)) && decide (j < occHi sigma text pat))
      = (List.range (text.length + 1)).countP
        (fun p => decide (pat <+: suffix text p
          ∧ (p = 0 ∨ (mapped text).getD (p - 1) 0 < c + 1))) := by
    have hstep1 : (List.range (text.length + 1)).countP
        (fun j => (decide (j = (bwtFromSa (suffixArray text) text).2
          ∨ (0 < c ∧ j ≠ (bwtFromSa (suffixArray text) text).2
            ∧ ((bwtFromSa (suffixArray text) text).1).getD j 0 ≤ c - 1))
          && decide (occLo text pat ≤ j)) && decide (j < occHi sigma text pat))
        = (List.range (text.length + 1)).countP
          (fun j => (fun v => decide (pat <+: suffix text v
            ∧ (v = 0 ∨ (0 < c ∧ v ≠ 0 ∧ text.getD (v - 1) 0 ≤ c - 1))))
            ((suffixArray text).getD j 0)) := by
      apply List.countP_congr
      intro j hj
      rw [List.mem_range] at hj
      simp only [Bool.and_eq_true, decide_eq_true_eq]
      have hrow := saIdx_getD text j hj
      have hrowiff := prefix_iff_row sigma text pat htext
        ((suffixArray text).getD j 0) (suffixArray_getD_lt text j hj)
      constructor
      · rintro ⟨⟨h1, h2⟩, h3⟩
        refine ⟨?_, ?_⟩
        · apply hrowiff.2
          rw [hrow]
          exact ⟨h2, h3⟩
        · rcases h1 with h1 | h1
          · left
            exact (sentinel_iff text j hj).1 h1
          · right
            refine ⟨h1.1, ?_, ?_⟩
            · intro hcon
              exact h1.2.1 ((sentinel_iff text j hj).2 hcon)
            · have hbv := bwt_built_getD text j hj
              rw [if_neg (by
                intro hcon
                exact h1.2.1 ((sentinel_iff text j hj).2 hcon))] at hbv
              rw [← hbv]
              exact h1.2.2
      · rintro ⟨h1, h2⟩
        have hint := hrowiff.1 h1
        rw [hrow] at hint
        refine ⟨⟨?_, hint.1⟩, hint.2⟩
        rcases h2 with h2 | h2
        · left
          exact (sentinel_iff text j hj).2 h2
        · right
          refine ⟨h2.1, ?_, ?_⟩
          · intro hcon
            exact h2.2.1 ((sentinel_iff text j hj).1 hcon)
          · have hbv := bwt_built_getD text j hj
            rw [if_neg h2.2.1] at hbv
            rw [hbv]
            exact h2.2.2
    rw [hstep1]
    have hgetD := countP_range_getD (suffixArray text)
      (fun v => decide (pat <+: suffix text v
        ∧ (v = 0 ∨ (0 < c ∧ v ≠ 0 ∧ text.getD (v - 1) 0 ≤ c - 1))))
    rw [suffixArray_length] at hgetD
    rw [hgetD, (suffixArray_perm text).countP_eq]
    apply List.countP_congr
    intro p hp
    rw [List.mem_range] at hp
    simp only [decide_eq_true_iff]
    constructor
    · rintro ⟨h1, h2⟩
      refine ⟨h1, ?_⟩
      rcases h2 with h2 | h2
      · exact Or.inl h2
      · right
        rw [mapped_getD text (p - 1) (by omega)]
        omega
    · rintro ⟨h1, h2⟩
      refine ⟨h1, ?_⟩
      rcases h2 with h2 | h2
      · exact Or.inl h2
      · by_cases hp0 : p = 0
        · exact Or.inl hp0
        · right
          rw [mapped_getD text (p - 1) (by omega)] at h2
          omega
  rw [hmid]
  omega
end FMIndex

namespace BidirectionalFMIndex

theorem backwardBwtFromSaGo_eq (text : List Nat) (sa : List Nat)
    (hsa : ∀ v ∈ sa, v ≤ text.length) :
    ∀ (i : Nat) (bwt : List Nat) (sent : Nat),
      backwardBwtFromSaGo text sa i bwt sent
        = FMIndex.bwtFromSaGo text.reverse sa i bwt sent := by
  induction sa with
  | nil =>
      intro i bwt sent
      rfl
  | cons v rest ih =>
      intro i bwt sent
      have hrest : ∀ x ∈ rest, x ≤ text.length := fun x hx => hsa x (by simp [hx])
      show (if v = 0 then backwardBwtFromSaGo text rest (i + 1) (bwt.set i 0) i
        else backwardBwtFromSaGo text rest (i + 1)
          (bwt.set i (text.getD (text.length - v) 0)) sent)
        = (if v = 0 then FMIndex.bwtFromSaGo text.reverse rest (i + 1) (bwt.set i 0) i
        else FMIndex.bwtFromSaGo text.reverse rest (i + 1)
          (bwt.set i (text.reverse.getD (v - 1) 0)) sent)
      by_cases hv : v = 0
      · rw [if_pos hv, if_pos hv, ih hrest]
      · rw [if_neg hv, if_neg hv, ih hrest]
        have hvle : v ≤ text.length := hsa v (by simp)
        have hval : text.reverse.getD (v - 1) 0 = text.getD (text.length - v) 0 := by
          rw [getD_reverse _ _ (by omega)]
          congr 1
          omega
        rw [hval]

theorem backwardBwtFromSa_eq (text : List Nat) :
    backwardBwtFromSa (suffixArray text.reverse) text
      = FMIndex.bwtFromSa (suffixArray text.reverse) text.reverse := by
  unfold backwardBwtFromSa FMIndex.bwtFromSa
  rw [backwardBwtFromSaGo_eq text _ ?_, List.length_reverse]
  intro v hv
  have := (suffixArray_mem text.reverse v).1 hv
  rw [List.length_reverse] at this
  omega

theorem reversedTable_eq (sigma : Nat) (text : List Nat) (f : Nat) :
    (new sigma text f).reversedOccurenceTable
      = (FMIndex.new sigma text.reverse f).occurenceTable := by
  show OccurenceTable.fromBwt sigma
      (backwardBwtFromSa (suffixArray text.reverse) text).1
      (backwardBwtFromSa (suffixArray text.reverse) text).2
    = OccurenceTable.fromBwt sigma
      (FMIndex.bwtFromSa (suffixArray text.reverse) text.reverse).1
      (FMIndex.bwtFromSa (suffixArray text.reverse) text.reverse).2
  rw [backwardBwtFromSa_eq]

theorem normalTable_eq (sigma : Nat) (text : List Nat) (f : Nat) :
    (new sigma text f).normalOccurenceTable
      = (FMIndex.new sigma text f).occurenceTable := rfl

theorem counts_eq (sigma : Nat) (text : List Nat) (f : Nat) :
    (new sigma text f).counts = (FMIndex.new sigma text f).counts := rfl

/-- The counts table is insensitive to reversing the text. -/
theorem counts_getD_reverse (sigma : Nat) (text : List Nat) (f : Nat)
    (htext : ∀ x ∈ text, x < sigma) (c : Nat) (hc : c < sigma) :
    (FMIndex.new sigma text f).counts.getD c 0
      = (FMIndex.new sigma text.reverse f).counts.getD c 0 := by
  rw [FMIndex.counts_built sigma text f htext c hc,
    FMIndex.counts_built sigma text.reverse f
      (fun x hx => htext x (List.mem_reverse.1 hx)) c hc]
  congr 1
  have h1 := countP_range_getD text (fun v => decide (v < c))
  have h2 := countP_range_getD text.reverse (fun v => decide (v < c))
  rw [h1, h2, List.countP_reverse]
end BidirectionalFMIndex

theorem getD_lt_bound (l : List Nat) (B : Nat) (h : ∀ x ∈ l, x < B) (hB : 0 < B)
    (i : Nat) : l.getD i 0 < B := by
  by_cases hi : i < l.length
  · have hmem : l.getD i 0 ∈ l := by
      rw [List.getD_eq_getElem?_getD, List.getElem?_eq_getElem hi]
      exact List.get_mem l i hi
    exact h _ hmem
  · rw [List.getD_eq_getElem?_getD, List.getElem?_eq_none (by omega)]
    simpa using hB

theorem mapped_pos (W : List Nat) : ∀ x ∈ mapped W, 0 < x := by
  intro x hx
  unfold mapped at hx
  rcases List.mem_map.1 hx with ⟨y, _, hxy⟩
  omega

theorem mapped_lt_bound (sigma : Nat) (W : List Nat) (hW : ∀ x ∈ W, x < sigma) :
    ∀ x ∈ mapped W, x < sigma + 1 := by
  intro x hx
  unfold mapped at hx
  rcases List.mem_map.1 hx with ⟨y, hy, hxy⟩
  have := hW y hy
  omega

/-- Occurrence counts are preserved by simultaneously reversing text and
pattern. -/
theorem prefix_count_reverse (sigma : Nat) (text pat : List Nat)
    (htext : ∀ x ∈ text, x < sigma) (hpat1 : ∀ x ∈ pat, 0 < x) :
    (List.range (text.length + 1)).countP
        (fun p => decide (pat <+: suffix text p))
      = (List.range (text.length + 1)).countP
        (fun q => decide (pat.reverse <+: suffix text.reverse q)) := by
  have h := occ_positions_reverse text pat (sigma + 1) (by omega) hpat1
  have hL : (List.range (text.length + 1)).countP
      (fun p => decide (pat <+: suffix text p
        ∧ (p = 0 ∨ (mapped text).getD (p - 1) 0 < sigma + 1)))
      = (List.range (text.length + 1)).countP
        (fun p => decide (pat <+: suffix text p)) := by
    apply List.countP_congr
    intro p hp
    simp only [decide_eq_true_iff]
    constructor
    · exact And.left
    · intro h1
      exact ⟨h1, Or.inr (getD_lt_bound (mapped text) (sigma + 1)
        (mapped_lt_bound sigma text htext) (by omega) (p - 1))⟩
  have hR : (List.range (text.length + 1)).countP
      (fun q => decide (pat.reverse <+: suffix text.reverse q
        ∧ (suffix text.reverse q).getD pat.length 0 < sigma + 1))
      = (List.range (text.length + 1)).countP
        (fun q => decide (pat.reverse <+: suffix text.reverse q)) := by
    apply List.countP_congr
    intro q hq
    simp only [decide_eq_true_iff]
    constructor
    · exact And.left
    · intro h1
      exact ⟨h1, getD_lt_bound (suffix text.reverse q) (sigma + 1)
        (suffix_symbols_lt sigma text.reverse
          (fun x hx => htext x (List.mem_reverse.1 hx)) q) (by omega) pat.length⟩
  rw [← hL, h, hR]

namespace BidirectionalFMIndex

/-- The four boundary identities of one backward-extension step: the new
normal interval is the interval of the extended pattern, and the
`cumulative_occ` difference realigns the reversed interval. -/
theorem step_sides (sigma : Nat) (text : List Nat) (f : Nat)
    (htext : ∀ x ∈ text, x < sigma)
    (hn64 : (text.length + 1) % 64 ≠ 0) (c : Nat) (hc : c < sigma)
    (pat : List Nat) (hpat1 : ∀ x ∈ pat, 0 < x) :
    ((FMIndex.new sigma text f).counts.getD c 0
        + (FMIndex.new sigma text f).occurenceTable.occ c (occLo text pat)
      = occLo text ((c + 1) :: pat))
    ∧ ((FMIndex.new sigma text f).counts.getD c 0
        + (FMIndex.new sigma text f).occurenceTable.occ c (occHi sigma text pat)
      = occHi sigma text ((c + 1) :: pat))
    ∧ (occLo text.reverse pat.reverse
        + ((FMIndex.new sigma text f).occurenceTable.cumulativeOcc c
            (occHi sigma text pat)
          - (FMIndex.new sigma text f).occurenceTable.cumulativeOcc c
            (occLo text pat))
      = occLo text.reverse (pat.reverse ++ [c + 1]))
    ∧ (occLo text.reverse (pat.reverse ++ [c + 1])
        + (occHi sigma text ((c + 1) :: pat) - occLo text ((c + 1) :: pat))
      = occHi sigma text.reverse (pat.reverse ++ [c + 1])) := by
  have hceil := lt_64_ceil_of_ne (text.length + 1) hn64
  refine ⟨?_, ?_, ?_, ?_⟩
  · exact FMIndex.step_occLo sigma text f htext c hc pat (occLo text pat) rfl
      (occLo_le text pat) (by have := occLo_le text pat; omega)
  · have hdef : occHi sigma text pat = occLo text (pat ++ [sigma + 1]) := rfl
    have h := FMIndex.step_occLo sigma text f htext c hc (pat ++ [sigma + 1])
      (occHi sigma text pat) rfl
      (by rw [hdef]; exact occLo_le text (pat ++ [sigma + 1]))
      (by rw [hdef]; have := occLo_le text (pat ++ [sigma + 1]); omega)
    rw [show (c + 1) :: (pat ++ [sigma + 1]) = ((c + 1) :: pat) ++ [sigma + 1]
      from rfl] at h
    exact h
  · rw [FMIndex.cum_interval_built sigma text f c hc htext hn64 pat,
      occ_positions_reverse text pat (c + 1) (by omega) hpat1]
    have hsplit := occLo_append_singleton text.reverse pat.reverse (c + 1) (by omega)
    rw [List.length_reverse pat, List.length_reverse text] at hsplit
    omega
  · have hw : occHi sigma text ((c + 1) :: pat) - occLo text ((c + 1) :: pat)
        = (List.range (text.length + 1)).countP
            (fun q => decide ((c + 1) :: pat <+: suffix text q)) := by
      have := occHi_eq_occLo_add sigma text ((c + 1) :: pat) htext
      omega
    rw [hw, prefix_count_reverse sigma text ((c + 1) :: pat) htext
      (by
        intro x hx
        rcases List.mem_cons.1 hx with hx | hx
        · omega
        · exact hpat1 x hx)]
    have hrev : ((c + 1) :: pat).reverse = pat.reverse ++ [c + 1] := by simp
    rw [hrev]
    have hfin := occHi_eq_occLo_add sigma text.reverse (pat.reverse ++ [c + 1])
      (fun x hx => htext x (List.mem_reverse.1 hx))
    rw [List.length_reverse text] at hfin
    omega
end BidirectionalFMIndex

/-- Over `Nat`, the emptiness guard in `Range::width` is redundant. -/
theorem Range.width_sub (r : Range) : r.width = r.stop - r.start := by
  unfold Range.width Range.empty
  by_cases h : r.stop ≤ r.start
  · rw [if_pos (by simpa using h)]
    omega
  · rw [if_neg (by simpa using h)]

theorem lexLt_nil_right (s : List Nat) : lexLt s [] = false := by
  cases s <;> rfl

theorem occLo_nil (text : List Nat) : occLo text [] = 0 := by
  unfold occLo
  rw [List.countP_eq_zero]
  intro q hq
  simp [lexLt_nil_right]

theorem occHi_nil (sigma : Nat) (text : List Nat) (htext : ∀ x ∈ text, x < sigma) :
    occHi sigma text [] = text.length + 1 := by
  unfold occHi occLo
  rw [List.nil_append]
  have hcase : ∀ (l : List Nat), (∀ x ∈ l ++ [0], x < sigma + 1) →
      lexLt (l ++ [0]) [sigma + 1] = true := by
    intro l hl
    cases l with
    | nil =>
        show (if 0 < sigma + 1 then true
          else if sigma + 1 < 0 then false else lexLt [] []) = true
        rw [if_pos (by omega)]
    | cons c t =>
        have hc : c < sigma + 1 := hl c (by simp)
        show (if c < sigma + 1 then true
          else if sigma + 1 < c then false else lexLt (t ++ [0]) []) = true
        rw [if_pos hc]
  have hall : ∀ q ∈ List.range (text.length + 1),
      lexLt (suffix text q) [sigma + 1] = true := by
    intro q hq
    exact hcase _ (suffix_symbols_lt sigma text htext q)
  rw [List.countP_eq_length.2 hall, List.length_range]

namespace BidirectionalFMIndex

/-- `add_char_left` turns the interval pair of `W` into the pair of `c·W`. -/
theorem addCharLeft_step (sigma : Nat) (text : List Nat) (f : Nat)
    (htext : ∀ x ∈ text, x < sigma) (hn64 : (text.length + 1) % 64 ≠ 0)
    (c : Nat) (hc : c < sigma) (W : List Nat) (rp : RangePair)
    (hinv : pairInv sigma text W rp) :
    pairInv sigma text (c :: W) ((new sigma text f).addCharLeft c rp) := by
  obtain ⟨h1, h2⟩ := hinv
  obtain ⟨ha, hb, hc2, hd⟩ := step_sides sigma text f htext hn64 c hc
    (mapped W) (mapped_pos W)
  have hns : rp.normalRange.start = occLo text (mapped W) := by rw [h1]
  have hnp : rp.normalRange.stop = occHi sigma text (mapped W) := by rw [h1]
  have hrs : rp.reversedRange.start = occLo text.reverse (mapped W).reverse := by
    rw [h2]
  have hmc : mapped (c :: W) = (c + 1) :: mapped W := rfl
  unfold pairInv addCharLeft
  simp only [counts_eq, normalTable_eq, hns, hnp, hrs, hmc, List.reverse_cons,
    Range.width_sub]
  constructor
  · rw [Range.mk.injEq]
    exact ⟨ha, hb⟩
  · rw [Range.mk.injEq]
    exact ⟨by omega, by omega⟩

/-- `add_char_right` turns the interval pair of `W` into the pair of
`W·c`. -/
theorem addCharRight_step (sigma : Nat) (text : List Nat) (f : Nat)
    (htext : ∀ x ∈ text, x < sigma) (hn64 : (text.length + 1) % 64 ≠ 0)
    (c : Nat) (hc : c < sigma) (W : List Nat) (rp : RangePair)
    (hinv : pairInv sigma text W rp) :
    pairInv sigma text (W ++ [c]) ((new sigma text f).addCharRight c rp) := by
  obtain ⟨h1, h2⟩ := hinv
  obtain ⟨ha, hb, hc2, hd⟩ := step_sides sigma text.reverse f
    (fun x hx => htext x (List.mem_reverse.1 hx))
    (by rw [List.length_reverse]; exact hn64) c hc
    ((mapped W).reverse) (fun x hx => mapped_pos W x (List.mem_reverse.1 hx))
  rw [List.reverse_reverse, List.reverse_reverse] at hc2 hd
  have hcounts := counts_getD_reverse sigma text f htext c hc
  have hns : rp.normalRange.start = occLo text (mapped W) := by rw [h1]
  have hrs : rp.reversedRange.start = occLo text.reverse (mapped W).reverse := by
    rw [h2]
  have hrp : rp.reversedRange.stop = occHi sigma text.reverse (mapped W).reverse := by
    rw [h2]
  have hmc : mapped (W ++ [c]) = mapped W ++ [c + 1] := by
    unfold mapped
    simp
  unfold pairInv addCharRight
  simp only [reversedTable_eq, counts_eq, hcounts, hns, hrs, hrp, hmc,
    List.reverse_append, List.reverse_cons, List.reverse_nil, List.nil_append,
    List.singleton_append, Range.width_sub]
  constructor
  · rw [Range.mk.injEq]
    exact ⟨by omega, by omega⟩
  · rw [Range.mk.injEq]
    exact ⟨ha, hb⟩

/-- Any move sequence started on the interval pair of `W` lands on the
interval pair of the accumulated word. -/
theorem applyMoves_inv (sigma : Nat) (text : List Nat) (f : Nat)
    (htext : ∀ x ∈ text, x < sigma) (hn64 : (text.length + 1) % 64 ≠ 0) :
    ∀ (moves : List (Bool × Nat)), (∀ m ∈ moves, m.2 < sigma) →
      ∀ (W : List Nat) (rp : RangePair), pairInv sigma text W rp →
        pairInv sigma text (accumWord moves W)
          (applyMoves (new sigma text f) moves rp) := by
  intro moves
  induction moves with
  | nil =>
      intro _ W rp h
      exact h
  | cons m rest ih =>
      intro hm W rp h
      obtain ⟨d, c⟩ := m
      have hc : c < sigma := hm (d, c) (by simp)
      have hrest : ∀ x ∈ rest, x.2 < sigma := fun x hx => hm x (by simp [hx])
      cases d
      · exact ih hrest (W ++ [c]) _
          (addCharRight_step sigma text f htext hn64 c hc W rp h)
      · exact ih hrest (c :: W) _
          (addCharLeft_step sigma text f htext hn64 c hc W rp h)

/-- C7: starting from the initial pair `([0, n+1), [0, n+1))`, any finite
sequence of `add_char_left` / `add_char_right` calls, each feeding its
output pair into the next, yields a pair whose two ranges have equal
widths, the common width being the number of occurrences of the
accumulated string in the text. -/
theorem C7_bidirectional_sync (sigma : Nat) (text : List Nat) (f : Nat)
    (htext : ∀ x ∈ text, x < sigma) (hn64 : (text.length + 1) % 64 ≠ 0)
    (moves : List (Bool × Nat)) (hmoves : ∀ m ∈ moves, m.2 < sigma)
    (rp : RangePair)
    (hrp : rp = applyMoves (new sigma text f) moves
      ⟨⟨0, text.length + 1⟩, ⟨0, text.length + 1⟩⟩) :
    rp.normalRange.width = rp.reversedRange.width
      ∧ rp.normalRange.width
        = (List.range (text.length + 1)).countP
            (fun p => decide (mapped (accumWord moves []) <+: suffix text p)) := by
  subst hrp
  have hbase : pairInv sigma text []
      (⟨⟨0, text.length + 1⟩, ⟨0, text.length + 1⟩⟩ : RangePair) := by
    constructor
    · show ({ start := 0, stop := text.length + 1 } : Range)
        = { start := occLo text (mapped []), stop := occHi sigma text (mapped []) }
      rw [Range.mk.injEq]
      exact ⟨(occLo_nil text).symm, (occHi_nil sigma text htext).symm⟩
    · show ({ start := 0, stop := text.length + 1 } : Range)
        = { start := occLo text.reverse (mapped []).reverse
            stop := occHi sigma text.reverse (mapped []).reverse }
      rw [Range.mk.injEq]
      refine ⟨(occLo_nil text.reverse).symm, ?_⟩
      rw [show (mapped []).reverse = ([] : List Nat) from rfl,
        occHi_nil sigma text.reverse (fun x hx => htext x (List.mem_reverse.1 hx)),
        List.length_reverse]
  obtain ⟨h1, h2⟩ := applyMoves_inv sigma text f htext hn64 moves hmoves []
    ⟨⟨0, text.length + 1⟩, ⟨0, text.length + 1⟩⟩ hbase
  have hocc := occHi_eq_occLo_add sigma text (mapped (accumWord moves [])) htext
  have hoccR := occHi_eq_occLo_add sigma text.reverse
    (mapped (accumWord moves [])).reverse
    (fun x hx => htext x (List.mem_reverse.1 hx))
  rw [List.length_reverse] at hoccR
  have hpcr := prefix_count_reverse sigma text (mapped (accumWord moves []))
    htext (mapped_pos _)
  simp only [h1, h2, Range.width_sub]
  constructor
  · omega
  · omega
end BidirectionalFMIndex

/-- Witness for C7 on the text `AC` with the single move `add_char_left(A)`. -/
theorem C7_bidirectional_sync_witness :
    ((BidirectionalFMIndex.applyMoves (BidirectionalFMIndex.new 4 [0, 1] 3)
        [(true, 0)] ⟨⟨0, 3⟩, ⟨0, 3⟩⟩).normalRange.width
      = (BidirectionalFMIndex.applyMoves (BidirectionalFMIndex.new 4 [0, 1] 3)
        [(true, 0)] ⟨⟨0, 3⟩, ⟨0, 3⟩⟩).reversedRange.width)
    ∧ ((BidirectionalFMIndex.applyMoves (BidirectionalFMIndex.new 4 [0, 1] 3)
        [(true, 0)] ⟨⟨0, 3⟩, ⟨0, 3⟩⟩).normalRange.width
      = (List.range 3).countP
          (fun p => decide (mapped (BidirectionalFMIndex.accumWord
            [(true, 0)] []) <+: suffix [0, 1] p))) :=
  BidirectionalFMIndex.C7_bidirectional_sync 4 [0, 1] 3 (by decide) (by decide)
    [(true, 0)] (by decide) _ rfl

/-! ## The claims -/
/-- C1: `exact_match` is not total over all DNA texts: on the length-63
text `A^63` with sparseness factor 1 the very first `add_char_left` of the
pattern `A` calls `rank(64)` on a 64-bit occurrence bitvector whose word
array holds a single word, so the level-3 read is out of bounds and the
call panics — even though the pattern occurs 63 times. -/
theorem C1_exact_match_panics :
    FMIndex.exactMatchChecked (FMIndex.new 4 (List.replicate 63 0) 1) [0] = none
    ∧ (List.range (63 + 1)).countP
        (fun p => decide (mapped [0] <+: suffix (List.replicate 63 0) p)) = 63 := by
  decide

/-- C2: on a built index with sparseness factor `f ≥ 1`, `find_sa(k)`
returns `SA[k]` for every row `k`, and fuel `f` already suffices for the
while-loop, i.e. it runs at most `f` iterations. -/
theorem C2_find_sa_locate (sigma : Nat) (text : List Nat) (f : Nat)
    (htext : ∀ x ∈ text, x < sigma) (hf : 0 < f) (k : Nat)
    (hk : k < text.length + 1) :
    (FMIndex.new sigma text f).findSa k = some ((suffixArray text).getD k 0)
      ∧ FMIndex.findSaGo (FMIndex.new sigma text f) f k 0
          = some ((suffixArray text).getD k 0) :=
  FMIndex.findSa_built sigma text f htext hf k hk

/-- Witness for C2 at the text AC, factor 3, row 0. -/
theorem C2_find_sa_locate_witness :
    ((∀ x ∈ ([0, 1] : List Nat), x < 4) ∧ 0 < 3
        ∧ 0 < ([0, 1] : List Nat).length + 1)
    ∧ ((FMIndex.new 4 [0, 1] 3).findSa 0 = some ((suffixArray [0, 1]).getD 0 0)
      ∧ FMIndex.findSaGo (FMIndex.new 4 [0, 1] 3) 3 0 0
          = some ((suffixArray [0, 1]).getD 0 0)) :=
  ⟨⟨by decide, by decide, by decide⟩,
    C2_find_sa_locate 4 [0, 1] 3 (by decide) (by decide) 0 (by decide)⟩

/-- C3 (amended): `rank(p)` equals the prefix popcount for every `p < n`
provided the counts levels were all zero when `calculate_counts` ran,
i.e. for a bitvector reaching its state by bit-sets from `new` followed by
one `calculate_counts`.  Re-running `calculate_counts` after later
mutation does not restore correctness, because each level-2 slice is
or-ed into the stale counts word; see the counterexample. -/
theorem C3_rank_fresh_counts (n : Nat) (ops : List (Nat × Bool)) (p : Nat)
    (hp : p < n) :
    ((Bitvec.applySets (Bitvec.new n) ops).calculateCounts).rank p
      = ((Bitvec.applySets (Bitvec.new n) ops).calculateCounts).onesBelow p :=
  Bitvec.rank_correct_built n ops p hp

/-- Witness for C3 on a one-bit vector. -/
theorem C3_rank_fresh_counts_witness :
    0 < 1
    ∧ ((Bitvec.applySets (Bitvec.new 1) [(0, true)]).calculateCounts).rank 0
      = ((Bitvec.applySets (Bitvec.new 1) [(0, true)]).calculateCounts).onesBelow 0 :=
  ⟨by decide, C3_rank_fresh_counts 1 [(0, true)] 0 (by decide)⟩

/-- C3 counterexample to the claim as stated: set bit 0 of a 128-bit
vector, index, clear bit 0, index again — no mutation after the second
`calculate_counts`, yet `rank 64` reports a stale 1 while no bit is set. -/
theorem C3_rank_stale_counts_cex :
    ((((Bitvec.new 128).set 0 true).calculateCounts.set 0
        false).calculateCounts).rank 64 = 1
    ∧ ((((Bitvec.new 128).set 0 true).calculateCounts.set 0
        false).calculateCounts).onesBelow 64 = 0 := by
  decide

/-- C4: `occ(c, i)`, the difference of ranks over the cumulative
bitvectors of `from_bwt`, counts the non-sentinel positions `j < i`
holding symbol `c`. -/
theorem C4_occ_rank_diff (alphabetLength : Nat) (bwt : List Nat) (s c i : Nat)
    (hc : c < alphabetLength) (hi : i < bwt.length) :
    (OccurenceTable.fromBwt alphabetLength bwt s).occ c i
      = (List.range i).countP (fun j => decide (j ≠ s ∧ bwt.getD j 0 = c)) :=
  OccurenceTable.occ_fromBwt alphabetLength bwt s c i hc (le_of_lt hi)
    (lt_of_lt_of_le hi (le_64_ceil bwt.length))

/-- Witness for C4 on the two-symbol BWT `CA` with sentinel 1. -/
theorem C4_occ_rank_diff_witness :
    (1 < 4 ∧ 1 < ([1, 0] : List Nat).length)
    ∧ (OccurenceTable.fromBwt 4 [1, 0] 1).occ 1 1
      = (List.range 1).countP
          (fun j => decide (j ≠ 1 ∧ ([1, 0] : List Nat).getD j 0 = 1)) :=
  ⟨⟨by decide, by decide⟩,
    C4_occ_rank_diff 4 [1, 0] 1 1 1 (by decide) (by decide)⟩

/-- C5: the LF mapping sends the sentinel row to 0 and any other row `k`
to the row whose suffix-array value is `SA[k] − 1`; concretely, over the
text AACTAGGGCAATGTTCAACG it produces the expected 21-entry table. -/
theorem C5_find_lf_step (sigma : Nat) (text : List Nat) (f : Nat)
    (htext : ∀ x ∈ text, x < sigma) (k : Nat) (hk : k < text.length + 1) :
    ((k = (FMIndex.new sigma text f).sentinel
        → (FMIndex.new sigma text f).findLf k = 0)
      ∧ (k ≠ (FMIndex.new sigma text f).sentinel
        → (suffixArray text).getD ((FMIndex.new sigma text f).findLf k) 0
            = (suffixArray text).getD k 0 - 1))
    ∧ (List.range 21).map (fun j => (FMIndex.new 4 dnaText 1).findLf j)
        = [12, 8, 0, 9, 1, 2, 17, 3, 18, 13, 4, 5, 10, 14, 15, 6, 19, 11,
            20, 7, 16] := by
  constructor
  · constructor
    · intro h
      unfold FMIndex.findLf
      rw [if_pos h]
    · intro hne
      have hkz : (suffixArray text).getD k 0 ≠ 0 := by
        intro h0
        exact hne ((FMIndex.sentinel_iff text k hk).2 h0)
      rw [FMIndex.findLf_step sigma text f htext k hk hkz]
      refine getD_saIdx text _ ?_
      have := suffixArray_getD_lt text k hk
      omega
  · decide

/-- Witness for C5 at the text AC, factor 3, row 0. -/
theorem C5_find_lf_step_witness :
    ((∀ x ∈ ([0, 1] : List Nat), x < 4) ∧ 0 < ([0, 1] : List Nat).length + 1)
    ∧ (((0 = (FMIndex.new 4 [0, 1] 3).sentinel
          → (FMIndex.new 4 [0, 1] 3).findLf 0 = 0)
        ∧ (0 ≠ (FMIndex.new 4 [0, 1] 3).sentinel
          → (suffixArray [0, 1]).getD ((FMIndex.new 4 [0, 1] 3).findLf 0) 0
              = (suffixArray [0, 1]).getD 0 0 - 1))
      ∧ (List.range 21).map (fun j => (FMIndex.new 4 dnaText 1).findLf j)
          = [12, 8, 0, 9, 1, 2, 17, 3, 18, 13, 4, 5, 10, 14, 15, 6, 19, 11,
              20, 7, 16]) :=
  ⟨⟨by decide, by decide⟩, C5_find_lf_step 4 [0, 1] 3 (by decide) 0 (by decide)⟩

/-- C6: `approximate_match` prunes with `min_edit_distance < k` instead of
the spec's `≤ k`: on the text AC with pattern AA and k = 1 the branch
through C has row minimum exactly 1 and is pruned, although its
left-extension by A has a non-empty range and final-column value 1 ≤ k at
depth 2; the returned list holds only the two depth-1 items, so an
approximate occurrence is missed. -/
theorem C6_approximate_match_prunes_viable_path :
    FMIndex.approximateMatch (FMIndex.new 4 [0, 1] 3) [0, 0] 1
        = some [⟨⟨2, 3⟩, 1, 1⟩, ⟨⟨1, 2⟩, 1, 0⟩]
    ∧ ((BandedMatrix.new 2 1).updateRow [0, 0] 1 1).2 = 1
    ∧ (((BandedMatrix.new 2 1).updateRow [0, 0] 1
        1).1.updateRow [0, 0] 2 0).1.inFinalColumn 2 = true
    ∧ (((BandedMatrix.new 2 1).updateRow [0, 0] 1
        1).1.updateRow [0, 0] 2 0).1.finalColumn 2 ≤ 1
    ∧ ((FMIndex.new 4 [0, 1] 3).addCharLeft 0
        ((FMIndex.new 4 [0, 1] 3).addCharLeft 1 ⟨0, 3⟩)).empty = false
    ∧ ∀ p ∈ ([⟨⟨2, 3⟩, 1, 1⟩, ⟨⟨1, 2⟩, 1, 0⟩] : List Position), p.depth ≠ 2 := by
  decide

/-- C8: the full-length query `rank(n)` is not always in bounds: for
n = 64 the word array of `Bitvec::new` holds (64+63)/64 = 1 word, but the
level-3 computation reads word 64/64 = 1, so the checked rank fails. -/
theorem C8_rank_full_length_oob :
    (Bitvec.new 64).calculateCounts.rankChecked 64 = none
    ∧ ((Bitvec.new 64).calculateCounts).words.length = 1 := by
  decide

/-- C9: `update_row(P, i, c)` writes exactly the banded
minimum-of-three recurrence on each in-band column of row `i` and returns
the row minimum; concretely on P = ACAAGT with k = 1, row 1, symbol A it
leaves `M[1][1] = 0`, sets `M[1][2] = 1` and returns 0. -/
theorem C9_update_row_recurrence (bm : BandedMatrix) (pattern : List Nat)
    (row c : Nat) (hcpr : bm.columnsPerRow = 2 * bm.b + 3)
    (hlen : bm.matrix.length = bm.n * bm.columnsPerRow)
    (hrow1 : 1 ≤ row) (hrown : row < bm.n) :
    ((∀ j, bm.firstColumn row ≤ j → j ≤ bm.lastColumn row →
        ((bm.updateRow pattern row c).1).get row j
          = BandedMatrix.specRow bm pattern row c (bm.firstColumn row) j)
      ∧ (bm.updateRow pattern row c).2
          = BandedMatrix.specRowMinGo bm pattern row c (bm.firstColumn row)
              (List.range' (bm.firstColumn row)
                (bm.lastColumn row + 1 - bm.firstColumn row)) (2 ^ 64 - 1))
    ∧ (((BandedMatrix.new 6 1).updateRow [0, 1, 0, 0, 2, 3] 1 0).1.get 1 1 = 0
      ∧ ((BandedMatrix.new 6 1).updateRow [0, 1, 0, 0, 2, 3] 1 0).1.get 1 2 = 1
      ∧ ((BandedMatrix.new 6 1).updateRow [0, 1, 0, 0, 2, 3] 1 0).2 = 0) :=
  ⟨BandedMatrix.updateRow_spec bm pattern row c hcpr hlen hrow1 hrown, by decide⟩

/-- Witness for C9 at the ACAAGT matrix, row 1, symbol A. -/
theorem C9_update_row_recurrence_witness :
    ((BandedMatrix.new 6 1).columnsPerRow = 2 * (BandedMatrix.new 6 1).b + 3
        ∧ (BandedMatrix.new 6 1).matrix.length
            = (BandedMatrix.new 6 1).n * (BandedMatrix.new 6 1).columnsPerRow
        ∧ 1 ≤ 1 ∧ 1 < (BandedMatrix.new 6 1).n)
    ∧ (((∀ j, (BandedMatrix.new 6 1).firstColumn 1 ≤ j
          → j ≤ (BandedMatrix.new 6 1).lastColumn 1
          → (((BandedMatrix.new 6 1).updateRow [0, 1, 0, 0, 2, 3] 1 0).1).get 1 j
            = BandedMatrix.specRow (BandedMatrix.new 6 1) [0, 1, 0, 0, 2, 3] 1 0
                ((BandedMatrix.new 6 1).firstColumn 1) j)
        ∧ ((BandedMatrix.new 6 1).updateRow [0, 1, 0, 0, 2, 3] 1 0).2
            = BandedMatrix.specRowMinGo (BandedMatrix.new 6 1) [0, 1, 0, 0, 2, 3]
                1 0 ((BandedMatrix.new 6 1).firstColumn 1)
                (List.range' ((BandedMatrix.new 6 1).firstColumn 1)
                  ((BandedMatrix.new 6 1).lastColumn 1 + 1
                    - (BandedMatrix.new 6 1).firstColumn 1)) (2 ^ 64 - 1))
      ∧ (((BandedMatrix.new 6 1).updateRow [0, 1, 0, 0, 2, 3] 1 0).1.get 1 1 = 0
        ∧ ((BandedMatrix.new 6 1).updateRow [0, 1, 0, 0, 2, 3] 1 0).1.get 1 2 = 1
        ∧ ((BandedMatrix.new 6 1).updateRow [0, 1, 0, 0, 2, 3] 1 0).2 = 0)) :=
  ⟨⟨by decide, by decide, by decide, by decide⟩,
    C9_update_row_recurrence (BandedMatrix.new 6 1) [0, 1, 0, 0, 2, 3] 1 0
      (by decide) (by decide) (by decide) (by decide)⟩

/-- C10: the query path of `approximate_match` is not total for k > |P|:
`BandedMatrix::new(|P|, k)` computes `m - k - 1` over usize with
m = |P| + 1 < k + 1, which underflows; concretely `new(1, 2)` fails. -/
theorem C10_matrix_new_underflow (p k : Nat) (hp : 0 < p) (hk : p < k) :
    BandedMatrix.newChecked p k = none := by
  unfold BandedMatrix.newChecked
  rw [if_pos (by omega)]

/-- Witness for C10 at pattern length 1, threshold 2. -/
theorem C10_matrix_new_underflow_witness :
    (0 < 1 ∧ 1 < 2) ∧ BandedMatrix.newChecked 1 2 = none :=
  ⟨by decide, C10_matrix_new_underflow 1 2 (by decide) (by decide)⟩

end RustFM
